import Mathlib

/-!
Verification of the patch engine in `scripts/patch_ffmpeg_configs.py` and
`scripts/patch_chromium_media.py`.

Texts are modelled as lists of characters (`Str`).  The Python regular
expressions used by the scripts are all line-anchored (`^ ... $` with
`re.MULTILINE`) or plain substring scans; they are embedded as executable
character-level scanners.  Line-splitting models Python's
`str.splitlines(keepends=True)` restricted to `"\n"` / `"\r\n"` line
terminators (the only ones occurring in the patched C/GNI files): a line
is a maximal chunk ending in `'\n'`, with `'\r'` kept as ordinary content.
-/

namespace PatchSpec

abbrev Str := List Char

/-- Python `\s` on the ASCII range: space, tab, newline, carriage return,
form feed, vertical tab. -/
def isWS (c : Char) : Bool :=
  c = ' ' || c = '\t' || c = '\n' || c = '\r' || c = '\x0c' || c = '\x0b'

/-- Python `\w` on the ASCII range, used for the `\b` boundary after the
flag value `0`. -/
def isWordChar (c : Char) : Bool :=
  c.isAlphanum || c = '_'

/-- Strip a literal prefix, returning the remainder on success. -/
def stripPrefix? : Str → Str → Option Str
  | [], t => some t
  | _ :: _, [] => none
  | p :: ps, c :: cs => if p = c then stripPrefix? ps cs else none

/-- Python `sub in text` (substring containment). -/
def containsSub : Str → Str → Bool
  | [], pat => pat = []
  | c :: cs, pat => (stripPrefix? pat (c :: cs)).isSome || containsSub cs pat

/-- Python `text.find(sub)`: index of the first occurrence. -/
def findSub : Str → Str → Option Nat
  | [], pat => if pat = [] then some 0 else none
  | c :: cs, pat =>
    if (stripPrefix? pat (c :: cs)).isSome then some 0
    else (findSub cs pat).map (· + 1)

/-- Python `text.find(sub, start)`. -/
def findSubFrom (t pat : Str) (start : Nat) : Option Nat :=
  (findSub (t.drop start) pat).map (· + start)

/-- Python `text.rfind(sub)` restricted to a prefix: index of the last
occurrence of `pat` inside `t`. -/
def rfindSub : Str → Str → Option Nat
  | [], pat => if pat = [] then some 0 else none
  | c :: cs, pat =>
    match rfindSub cs pat with
    | some i => some (i + 1)
    | none => if (stripPrefix? pat (c :: cs)).isSome then some 0 else none

/-- Python `text.rstrip(chars)`. -/
def rstripChars (chars : Str) (t : Str) : Str :=
  (t.reverse.dropWhile (fun c => chars.contains c)).reverse

/-- Python `text.lstrip(chars)`. -/
def lstripChars (chars : Str) (t : Str) : Str :=
  t.dropWhile (fun c => chars.contains c)

def lf : Str := ("\n").data
def crlf : Str := ("\r\n").data

/-- `detect_newline`: `"\r\n" if "\r\n" in text else "\n"`. -/
def detect_newline (t : Str) : Str :=
  if containsSub t crlf then crlf else lf

/-- `str.splitlines(keepends=True)` restricted to `'\n'`-terminated lines
(a `"\r\n"` terminator stays inside its line). -/
def splitNlAux : Str → Str → List Str
  | [], acc => if acc = [] then [] else [acc.reverse]
  | c :: t, acc =>
    if c = '\n' then (acc.reverse ++ ['\n']) :: splitNlAux t []
    else splitNlAux t (c :: acc)

def splitNl (t : Str) : List Str := splitNlAux t []

def joinLines (ls : List Str) : Str := ls.flatten

/-- A line as produced by `splitNl`: nonempty, with `'\n'` only as its
final character. -/
def WFLine (l : Str) : Prop := l ≠ [] ∧ ∀ c ∈ l.dropLast, c ≠ '\n'

/-- The shape of a `splitNl` output: well-formed lines, all but the last
terminated by `'\n'`. -/
def WFLines : List Str → Prop
  | [] => True
  | [l] => WFLine l
  | l :: m :: rest => WFLine l ∧ l.getLast? = some '\n' ∧ WFLines (m :: rest)

-- ---- GN basename collision handling (patch_ffmpeg_configs.py) ----

/-- Split on `'/'` (Python `str.split("/")`). -/
def splitSlashAux : Str → Str → List Str
  | [], acc => [acc.reverse]
  | c :: t, acc =>
    if c = '/' then acc.reverse :: splitSlashAux t [] else splitSlashAux t (c :: acc)

/-- `PurePosixPath` components of a relative path: split on `'/'`,
dropping empty and `"."` segments. -/
def pathComps (s : Str) : List Str :=
  ((splitSlashAux s []).filter (fun c => c ≠ [] ∧ c ≠ (".").data))

/-- `PurePosixPath.as_posix()` from components (`"."` for the empty path). -/
def asPosix : List Str → Str
  | [] => (".").data
  | [c] => c
  | c :: rest => c ++ '/' :: asPosix rest

/-- `Path(s).name`: the final component (empty for the empty path). -/
def pathName (s : Str) : Str := (pathComps s).getLastD []

/-- The basename used by `get_gni_c_basenames`: `s.rsplit("/", 1)[-1]`. -/
def rsplitBase (s : Str) : Str :=
  match rfindSub s (("/").data) with
  | none => s
  | some i => s.drop (i + 1)

/-- The wrapper path synthesized for a colliding candidate
(`grandparent / (subdir + "_" + basename)`). -/
def wrapperPathOf (source : Str) : Str :=
  let comps := pathComps source
  let basename := comps.getLastD []
  let parentComps := comps.dropLast
  let subdir := parentComps.getLastD []
  let grandparent := parentComps.dropLast
  asPosix (grandparent ++ [subdir ++ '_' :: basename])

/-- The wrapper's include path (`subdir + "/" + basename`). -/
def includePathOf (source : Str) : Str :=
  let comps := pathComps source
  (comps.dropLast.getLastD []) ++ '/' :: comps.getLastD []

/-- The wrapper's disambiguated basename (`subdir + "_" + basename`). -/
def wrapperNameOf (source : Str) : Str :=
  (pathComps source).dropLast.getLastD [] ++ '_' :: (pathComps source).getLastD []

/-- `resolve_basename_collisions`.  The Python function mutates the
`existing_basenames` set in place; here the pool is threaded explicitly
and returned as the third component.  Pool membership models Python set
membership. -/
def resolve_basename_collisions :
    List Str → List Str → List Str × List (Str × Str) × List Str
  | [], pool => ([], [], pool)
  | source :: rest, pool =>
    let basename := pathName source
    if basename ∈ pool then
      -- collision: build a wrapper with a disambiguated name
      let r := resolve_basename_collisions rest (wrapperNameOf source :: pool)
      (wrapperPathOf source :: r.1, (wrapperPathOf source, includePathOf source) :: r.2.1, r.2.2)
    else
      let r := resolve_basename_collisions rest (basename :: pool)
      (source :: r.1, r.2.1, r.2.2)

-- ---- config_components.h patching ----

def defineKw : Str := ("#define").data

/-- Word boundary `\b` between the matched `0` and the rest of the line:
the next character (if any) must not be a word character. -/
def boundaryAfterZero : Str → Bool
  | [] => true
  | c :: _ => !isWordChar c

/-- One line of the per-flag pattern
`(^\s*#define\s+FLAG\s+)0(\b.*$)` (with `re.MULTILINE` it is anchored to
line starts; the match is modelled per line): returns the rewritten line
(`0` replaced by `1`, groups kept verbatim) when the line matches. -/
def toggleLine (flag : Str) (line : Str) : Option Str :=
  let w0 := line.takeWhile isWS
  match stripPrefix? defineKw (line.dropWhile isWS) with
  | none => none
  | some r1 =>
    let w1 := r1.takeWhile isWS
    if w1 = [] then none
    else
      match stripPrefix? flag (r1.dropWhile isWS) with
      | none => none
      | some r3 =>
        let w2 := r3.takeWhile isWS
        if w2 = [] then none
        else
          match r3.dropWhile isWS with
          | [] => none
          | c0 :: rest =>
            if c0 = '0' ∧ boundaryAfterZero rest = true then
              some (w0 ++ defineKw ++ w1 ++ flag ++ w2 ++ '1' :: rest)
            else none

/-- The shape of a line just rewritten by a flag toggle: the flag value
is `1`, so no whitespace-free flag pattern can match it again. -/
def ToggledForm (l' : Str) : Prop :=
  ∃ F w0 w1 w2 rest,
    F ≠ [] ∧ (∀ ch ∈ F, isWS ch = false) ∧
    (∀ ch ∈ w0, isWS ch = true) ∧
    (∀ ch ∈ w1, isWS ch = true) ∧ w1 ≠ [] ∧
    (∀ ch ∈ w2, isWS ch = true) ∧ w2 ≠ [] ∧
    l' = w0 ++ defineKw ++ w1 ++ F ++ w2 ++ '1' :: rest

/-- The combined effect of the per-flag passes on a single line. -/
def ccLineFold (flags : List Str) (l : Str) : Str :=
  flags.foldl (fun cur F => (toggleLine F cur).getD cur) l

/-- One `pattern.subn` pass for a single flag: every matching line is
rewritten, and the number of replacements is reported. -/
def toggleFlagText (flag : Str) (text : Str) : Str × Nat :=
  let lines := splitNl text
  (joinLines (lines.map (fun l => (toggleLine flag l).getD l)),
   (lines.filter (fun l => (toggleLine flag l).isSome)).length)

def CONFIG_FLAGS : List Str :=
  [("CONFIG_HEVC_DECODER").data,
   ("CONFIG_HEVC_SEI").data,
   ("CONFIG_AC3_DECODER").data,
   ("CONFIG_EAC3_DECODER").data,
   ("CONFIG_DCA_DECODER").data,
   ("CONFIG_AC3_FIXED_DECODER").data,
   ("CONFIG_AC3DSP").data,
   ("CONFIG_BSWAPDSP").data,
   ("CONFIG_DOVI_RPU").data,
   ("CONFIG_DTSHD_DEMUXER").data,
   ("CONFIG_DTS_DEMUXER").data,
   ("CONFIG_AC3_DEMUXER").data,
   ("CONFIG_EAC3_DEMUXER").data,
   ("CONFIG_EAC3_CORE_BSF").data,
   ("CONFIG_AC3_PARSER").data,
   ("CONFIG_HEVC_PARSER").data,
   ("CONFIG_DCA_PARSER").data]

/-- `patch_config_components`: toggle every listed flag from `0` to `1`,
accumulating the replacement count. -/
def patch_config_components (text : Str) : Str × Nat :=
  CONFIG_FLAGS.foldl
    (fun acc flag =>
      let r := toggleFlagText flag acc.1
      (r.1, acc.2 + r.2)) (text, 0)

-- ---- codec / parser / demuxer list patching ----

/-- The per-entry presence test `^\s*ENTRY\s*,\s*$` (`re.MULTILINE`),
modelled per line; the line's terminator is absorbed by the trailing
`\s*`. -/
def entryLineMatch (entry : Str) (line : Str) : Bool :=
  match stripPrefix? entry (line.dropWhile isWS) with
  | none => false
  | some r1 =>
    match r1.dropWhile isWS with
    | ',' :: r2 => r2.all isWS
    | _ => false

def hasEntryLine (text : Str) (entry : Str) : Bool :=
  (splitNl text).any (entryLineMatch entry)

def nullKw : Str := ("NULL").data

def isNullTrail (c : Char) : Bool :=
  c = ',' || c = '\x7d' || c = ';' || c = ' '

def slashSlash : Str := ("//").data

/-- The terminator-line test
`^\s*NULL\s*[,}; ]*(?://.*)?$` applied to `line.rstrip("\r\n")`. -/
def isNullLine (line : Str) : Bool :=
  let s := rstripChars crlf line
  match stripPrefix? nullKw (s.dropWhile isWS) with
  | none => false
  | some r1 =>
    let r3 := (r1.dropWhile isWS).dropWhile isNullTrail
    r3 = [] || slashSlash.isPrefixOf r3

/-- `re.match(r"^(\s*)NULL\b", null_line)`: the terminator's own
indentation, with the source's `"    "` fallback when the match fails. -/
def indentOf (line : Str) : Str :=
  match stripPrefix? nullKw (line.dropWhile isWS) with
  | some r1 =>
    if boundaryAfterZero r1 then line.takeWhile isWS else ("    ").data
  | none => ("    ").data

def entryLine (indent entry newline : Str) : Str :=
  indent ++ entry ++ ',' :: newline

/-- `patch_list_file`: insert the missing entries immediately before the
first `NULL` terminator line; `none` models the `RuntimeError` raised
when no terminator is found. -/
def patch_list_file (text : Str) (entries : List Str) : Option (Str × Nat) :=
  let missing := entries.filter (fun e => !hasEntryLine text e)
  if missing = [] then some (text, 0)
  else
    let lines := splitNl text
    match lines.findIdx? isNullLine with
    | none => none
    | some null_index =>
      let indent := indentOf (lines.getD null_index [])
      let newline := detect_newline text
      some (joinLines (lines.take null_index
              ++ missing.map (fun e => entryLine indent e newline)
              ++ lines.drop null_index),
            missing.length)

/-- Entries as they appear in the catalogs: nonempty and free of
whitespace (so the line-anchored scans are deterministic). -/
def GoodEntry (e : Str) : Prop := e ≠ [] ∧ ∀ c ∈ e, isWS c = false

instance (e : Str) : Decidable (GoodEntry e) :=
  inferInstanceAs (Decidable (e ≠ [] ∧ ∀ c ∈ e, isWS c = false))

def CODEC_LIST_ENTRIES : List Str :=
  [("&ff_hevc_decoder").data,
   ("&ff_ac3_decoder").data,
   ("&ff_eac3_decoder").data,
   ("&ff_dca_decoder").data,
   ("&ff_ac3_fixed_decoder").data]

def PARSER_LIST_ENTRIES : List Str :=
  [("&ff_ac3_parser").data,
   ("&ff_hevc_parser").data,
   ("&ff_dca_parser").data]

def DEMUXER_LIST_ENTRIES : List Str :=
  [("&ff_dtshd_demuxer").data,
   ("&ff_dts_demuxer").data]

-- ---- ffmpeg_generated.gni patching ----

def gniMarker : Str :=
  ("# Extra codec sources for custom Chrome builds (HEVC, AC3, EAC3, DTS)").data

/-- `find_block_end`'s scanning loop: `depth` is a Python `int`. -/
def fbeAux : Str → Int → Nat → Option Nat
  | [], _, _ => none
  | c :: rest, depth, index =>
    if c = '\x7b' then fbeAux rest (depth + 1) (index + 1)
    else if c = '\x7d' then
      if depth - 1 = 0 then some (index + 1) else fbeAux rest (depth - 1) (index + 1)
    else fbeAux rest depth (index + 1)

/-- `find_block_end(text, opening_brace_index)`. -/
def find_block_end (text : Str) (opening_brace_index : Nat) : Option Nat :=
  fbeAux (text.drop opening_brace_index) 0 opening_brace_index

/-- Net brace count of a string, used to state `find_block_end`'s
contract. -/
def braceDelta : Str → Int
  | [] => 0
  | c :: cs =>
    (if c = '\x7b' then 1 else if c = '\x7d' then -1 else 0) + braceDelta cs

/-- `remove_managed_block`: drop the marker line and the following
if-block; every failure to locate a part returns the text unchanged. -/
def remove_managed_block (text : Str) : Str :=
  match findSub text gniMarker with
  | none => text
  | some marker_pos =>
    let newline := detect_newline text
    let line_start :=
      match rfindSub (text.take marker_pos) newline with
      | none => 0
      | some i => i + newline.length
    match findSubFrom text ['\x7b'] marker_pos with
    | none => text
    | some brace_pos =>
      match find_block_end text brace_pos with
      | none => text
      | some block_end =>
        let before := rstripChars newline (text.take line_start)
        let after := lstripChars newline (text.drop block_end)
        before ++ newline ++ after

/-- The scan of `re.finditer(r'"([^"]+\.c)"', gni_text)`: the matched
groups in order.  A match is a quote, a nonempty quote-free body ending
in `".c"`, and a closing quote.  On a failed candidate the engine
resumes right after the failed opening quote; since the skipped body is
quote-free, that is the same as restarting the body at the closing
quote, which the scanner's inside-state (`some acc`, body accumulated in
reverse) does directly. -/
def gniScanAux : Str → Option Str → List Str
  | [], _ => []
  | c :: rest, none =>
    if c = '"' then gniScanAux rest (some []) else gniScanAux rest none
  | c :: rest, some acc =>
    if c = '"' then
      let body := acc.reverse
      if 3 ≤ body.length ∧ (".c").data.isSuffixOf body
      then body :: gniScanAux rest none
      else gniScanAux rest (some [])
    else gniScanAux rest (some (c :: acc))

def gniScan (t : Str) : List Str := gniScanAux t none

/-- `get_gni_c_basenames`: Python returns a `set`; the model keeps the
matches as a list, queried only through membership. -/
def get_gni_c_basenames (gni_text : Str) : List Str :=
  (gniScan gni_text).map rsplitBase

/-- `filter_not_in_gni`: sources whose quoted path does not occur in the
text. -/
def filter_not_in_gni (sources : List Str) (gni_text : Str) : List Str :=
  sources.filter (fun s => !containsSub gni_text ('"' :: s ++ ['"']))

-- ---- Filesystem model ----

/-- The filesystem seen by the scripts: an association list of file
contents (later writes shadow earlier ones) plus the set of directories.
`Path.mkdir(parents=True)` is modelled as recording the directory. -/
structure FS where
  files : List (Str × Str)
  dirs : List Str

def FS.lookup (fs : FS) (p : Str) : Option Str :=
  (fs.files.find? (fun e => e.1 == p)).map (fun e => e.2)

def FS.isFile (fs : FS) (p : Str) : Bool := (fs.lookup p).isSome

def FS.isDir (fs : FS) (p : Str) : Bool := fs.dirs.contains p

def FS.write (fs : FS) (p c : Str) : FS := ⟨(p, c) :: fs.files, fs.dirs⟩

def FS.mkdirParents (fs : FS) (d : Str) : FS := ⟨fs.files, d :: fs.dirs⟩

def pathJoin (a b : Str) : Str := a ++ '/' :: b

def ffmpegRoot : Str := ("third_party/ffmpeg").data

def chromeConfigRoot : Str := ("third_party/ffmpeg/chromium/config/Chrome").data

def ffmpegGeneratedGni : Str := ("third_party/ffmpeg/ffmpeg_generated.gni").data

-- ---- Source catalogs ----

def EXTRA_C_SOURCES : List Str :=
  [("libavcodec/hevc/hevcdec.c").data,
   ("libavcodec/hevc/cabac.c").data,
   ("libavcodec/hevc/data.c").data,
   ("libavcodec/hevc/dsp.c").data,
   ("libavcodec/hevc/filter.c").data,
   ("libavcodec/hevc/mvs.c").data,
   ("libavcodec/hevc/parse.c").data,
   ("libavcodec/hevc/parser.c").data,
   ("libavcodec/hevc/pred.c").data,
   ("libavcodec/hevc/ps.c").data,
   ("libavcodec/hevc/refs.c").data,
   ("libavcodec/hevc/sei.c").data,
   ("libavcodec/aom_film_grain.c").data,
   ("libavcodec/dovi_rpu.c").data,
   ("libavcodec/dovi_rpudec.c").data,
   ("libavcodec/dynamic_hdr_vivid.c").data,
   ("libavcodec/h274.c").data,
   ("libavcodec/ac3.c").data,
   ("libavcodec/ac3_parser.c").data,
   ("libavcodec/ac3dec_data.c").data,
   ("libavcodec/ac3dec_fixed.c").data,
   ("libavcodec/ac3dec_float.c").data,
   ("libavcodec/ac3dsp.c").data,
   ("libavcodec/ac3tab.c").data,
   ("libavcodec/eac3_data.c").data,
   ("libavcodec/eac3dec.c").data,
   ("libavcodec/dca.c").data,
   ("libavcodec/dca_core.c").data,
   ("libavcodec/dca_exss.c").data,
   ("libavcodec/dca_lbr.c").data,
   ("libavcodec/dca_parser.c").data,
   ("libavcodec/dca_sample_rate_tab.c").data,
   ("libavcodec/dca_xll.c").data,
   ("libavcodec/dcadata.c").data,
   ("libavcodec/dcadct.c").data,
   ("libavcodec/dcadec.c").data,
   ("libavcodec/dcadsp.c").data,
   ("libavcodec/dcahuff.c").data,
   ("libavcodec/bswapdsp.c").data,
   ("libavcodec/fmtconvert.c").data,
   ("libavcodec/synth_filter.c").data,
   ("libavformat/dtsdec.c").data,
   ("libavformat/dtshddec.c").data]

def EXTRA_X86_C_SOURCES : List Str :=
  [("libavcodec/x86/ac3dsp_init.c").data,
   ("libavcodec/x86/bswapdsp_init.c").data,
   ("libavcodec/x86/dcadsp_init.c").data,
   ("libavcodec/x86/fmtconvert_init.c").data,
   ("libavcodec/x86/synth_filter_init.c").data,
   ("libavcodec/x86/hevc/dsp_init.c").data,
   ("libavcodec/x86/h26x/h2656dsp.c").data]

def EXTRA_X86_ASM_SOURCES : List Str :=
  [("libavcodec/x86/ac3dsp.asm").data,
   ("libavcodec/x86/ac3dsp_downmix.asm").data,
   ("libavcodec/x86/bswapdsp.asm").data,
   ("libavcodec/x86/dcadsp.asm").data,
   ("libavcodec/x86/fmtconvert.asm").data,
   ("libavcodec/x86/synth_filter.asm").data,
   ("libavcodec/x86/hevc/add_res.asm").data,
   ("libavcodec/x86/hevc/deblock.asm").data,
   ("libavcodec/x86/hevc/idct.asm").data,
   ("libavcodec/x86/hevc/mc.asm").data,
   ("libavcodec/x86/hevc/sao.asm").data,
   ("libavcodec/x86/hevc/sao_10bit.asm").data,
   ("libavcodec/x86/h26x/h2656_inter.asm").data]

def EXTRA_AARCH64_C_SOURCES : List Str :=
  [("libavcodec/aarch64/ac3dsp_init_aarch64.c").data,
   ("libavcodec/aarch64/fmtconvert_init.c").data,
   ("libavcodec/aarch64/synth_filter_init.c").data,
   ("libavcodec/aarch64/hevcdsp_init_aarch64.c").data]

def EXTRA_AARCH64_GAS_SOURCES : List Str :=
  [("libavcodec/aarch64/ac3dsp_neon.S").data,
   ("libavcodec/aarch64/fmtconvert_neon.S").data,
   ("libavcodec/aarch64/synth_filter_neon.S").data,
   ("libavcodec/aarch64/hevcdsp_deblock_neon.S").data,
   ("libavcodec/aarch64/hevcdsp_idct_neon.S").data,
   ("libavcodec/aarch64/h26x/epel_neon.S").data,
   ("libavcodec/aarch64/h26x/qpel_neon.S").data,
   ("libavcodec/aarch64/h26x/sao_neon.S").data]

/-- `filter_available`: keep the sources whose file exists under
`FFMPEG_ROOT`; each missing one yields a warning (second component). -/
def filter_available (sources : List Str) (fs : FS) : List Str × List Str :=
  match sources with
  | [] => ([], [])
  | s :: rest =>
    let r := filter_available rest fs
    if fs.isFile (pathJoin ffmpegRoot s) then (s :: r.1, r.2)
    else (r.1,
      (("WARN: Missing ffmpeg source file: ").data ++ pathJoin ffmpegRoot s) :: r.2)

/-- The content of a synthesized wrapper translation unit. -/
def wrapperContent (include_path : Str) : Str :=
  ("// Auto-generated wrapper to avoid GN basename collision.\n#include \"").data
    ++ include_path ++ ("\"\n").data

def dirname (p : Str) : Str := asPosix (pathComps p).dropLast

/-- `create_wrapper_files`: write each wrapper under `FFMPEG_ROOT`
unless `dry_run` is set (then only a report is printed). -/
def create_wrapper_files (wrappers : List (Str × Str)) (dry_run : Bool) (fs : FS) : FS :=
  wrappers.foldl
    (fun acc w =>
      if dry_run then acc
      else
        let abs_path := pathJoin ffmpegRoot w.1
        (acc.mkdirParents (dirname abs_path)).write abs_path (wrapperContent w.2))
    fs

-- ---- building the managed GNI block ----

def brandingIfLine : Str :=
  ("if (ffmpeg_branding == \"Chrome\" || ffmpeg_branding == \"ChromeOS\") \x7b").data

def x86IfLine1 : Str := ("  if (current_cpu == \"x64\" ||").data

def x86IfLine2 : Str := ("      (is_win && current_cpu == \"x86\") ||").data

def x86IfLine3 : Str := ("      (use_linux_config && current_cpu == \"x86\")) \x7b").data

def aarch64IfLine : Str :=
  ("  if (current_cpu == \"arm64\" || current_cpu == \"arm64e\") \x7b").data

def innerCloseLine : Str := ("  \x7d").data

def outerCloseLine : Str := ("\x7d").data

def ffmpegCSourcesVar : Str := ("ffmpeg_c_sources").data

def ffmpegAsmSourcesVar : Str := ("ffmpeg_asm_sources").data

def ffmpegGasSourcesVar : Str := ("ffmpeg_gas_sources").data

/-- `_format_source_list` (its `newline` parameter is unused in the
source as well; lines are joined later). -/
def format_source_list (indent var_name : Str) (sources : List Str) : List Str :=
  (indent ++ var_name ++ (" += [").data)
    :: (sources.map (fun s => indent ++ ("  \"").data ++ s ++ ("\",").data))
    ++ [indent ++ ("]").data]

def joinWith (sep : Str) : List Str → Str
  | [] => []
  | [l] => l
  | l :: (m :: rest) => l ++ sep ++ joinWith sep (m :: rest)

/-- `build_managed_gni_block`. -/
def build_managed_gni_block
    (c_sources x86_c_sources x86_asm_sources aarch64_c_sources aarch64_gas_sources :
      List Str)
    (newline : Str) : Str :=
  let lines : List Str :=
    [gniMarker, brandingIfLine]
    ++ (if c_sources ≠ [] then
          format_source_list (("  ").data) ffmpegCSourcesVar c_sources
        else [])
    ++ (if x86_c_sources ≠ [] ∨ x86_asm_sources ≠ [] then
          [[], x86IfLine1, x86IfLine2, x86IfLine3]
          ++ (if x86_c_sources ≠ [] then
                format_source_list (("    ").data) ffmpegCSourcesVar x86_c_sources
              else [])
          ++ (if x86_asm_sources ≠ [] then
                format_source_list (("    ").data) ffmpegAsmSourcesVar x86_asm_sources
              else [])
          ++ [innerCloseLine]
        else [])
    ++ (if aarch64_c_sources ≠ [] ∨ aarch64_gas_sources ≠ [] then
          [[], aarch64IfLine]
          ++ (if aarch64_c_sources ≠ [] then
                format_source_list (("    ").data) ffmpegCSourcesVar aarch64_c_sources
              else [])
          ++ (if aarch64_gas_sources ≠ [] then
                format_source_list (("    ").data) ffmpegGasSourcesVar aarch64_gas_sources
              else [])
          ++ [innerCloseLine]
        else [])
    ++ [outerCloseLine]
  joinWith newline lines ++ newline

/-- `patch_ffmpeg_generated_gni`.  The filesystem is threaded explicitly:
it is read by `filter_available` and written by `create_wrapper_files`
(which the source guards by `if all_wrappers:`, a no-op on the empty
list). -/
def patch_ffmpeg_generated_gni (text : Str) (check : Bool) (fs : FS) :
    (Str × Nat × List Str) × FS :=
  let fa_c := filter_available EXTRA_C_SOURCES fs
  let fa_x86c := filter_available EXTRA_X86_C_SOURCES fs
  let fa_x86asm := filter_available EXTRA_X86_ASM_SOURCES fs
  let fa_a64c := filter_available EXTRA_AARCH64_C_SOURCES fs
  let fa_a64gas := filter_available EXTRA_AARCH64_GAS_SOURCES fs
  let warnings := fa_c.2 ++ fa_x86c.2 ++ fa_x86asm.2 ++ fa_a64c.2 ++ fa_a64gas.2
  let cleaned_text := remove_managed_block text
  let c0 := filter_not_in_gni fa_c.1 cleaned_text
  let x86c0 := filter_not_in_gni fa_x86c.1 cleaned_text
  let x86asm1 := filter_not_in_gni fa_x86asm.1 cleaned_text
  let a64c0 := filter_not_in_gni fa_a64c.1 cleaned_text
  let a64gas1 := filter_not_in_gni fa_a64gas.1 cleaned_text
  let r1 := resolve_basename_collisions c0 (get_gni_c_basenames cleaned_text)
  let r2 := resolve_basename_collisions x86c0 r1.2.2
  let r3 := resolve_basename_collisions a64c0 r2.2.2
  let all_wrappers := r1.2.1 ++ r2.2.1 ++ r3.2.1
  let fs' := create_wrapper_files all_wrappers check fs
  let total_added :=
    r1.1.length + r2.1.length + x86asm1.length + r3.1.length + a64gas1.length
  if total_added = 0 then ((text, 0, warnings), fs')
  else
    let newline := detect_newline cleaned_text
    let block := build_managed_gni_block r1.1 r2.1 x86asm1 r3.1 a64gas1 newline
    let result :=
      if (newline ++ newline).isSuffixOf cleaned_text then cleaned_text ++ block
      else if newline.isSuffixOf cleaned_text then cleaned_text ++ newline ++ block
      else cleaned_text ++ newline ++ newline ++ block
    ((result, total_added, warnings), fs')

-- ---- BUILD.gn patching ----

/-- Match `target\s*\(\s*link_target_type\s*,\s*"ffmpeg_internal"\s*\)`
at the head of `t`, returning the remainder after the match. -/
def matchTargetAt (t : Str) : Option Str := do
  let r1 ← stripPrefix? (("target").data) t
  let r2 ← stripPrefix? ['('] (r1.dropWhile isWS)
  let r3 ← stripPrefix? (("link_target_type").data) (r2.dropWhile isWS)
  let r4 ← stripPrefix? [','] (r3.dropWhile isWS)
  let r5 ← stripPrefix? (("\"ffmpeg_internal\"").data) (r4.dropWhile isWS)
  stripPrefix? [')'] (r5.dropWhile isWS)

/-- Match `include_dirs\s*=\s*\[` at the head of `t`. -/
def matchIncludeAt (t : Str) : Option Str := do
  let r1 ← stripPrefix? (("include_dirs").data) t
  let r2 ← stripPrefix? ['='] (r1.dropWhile isWS)
  stripPrefix? ['['] (r2.dropWhile isWS)

/-- `re.search`: try the matcher at every position, returning the
remainder after the first match. -/
def searchRem (m : Str → Option Str) : Str → Option Str
  | [] => m []
  | c :: cs =>
    match m (c :: cs) with
    | some rem => some rem
    | none => searchRem m cs

/-- The backtracking tail `\s*\n` of the `"."` entry pattern: the longest
all-whitespace prefix whose next character is a newline; returns the
remainder after that newline. -/
def matchNlAfterWS (t : Str) : Option Str :=
  match rfindSub (t.takeWhile isWS) lf with
  | none => none
  | some j => some (t.drop (j + 1))

/-- Match `^(\s*)"\."\s*,\s*\n` at a line start: returns the captured
indentation and the remainder after the match. -/
def matchDotAt (t : Str) : Option (Str × Str) :=
  match stripPrefix? (("\".\"").data) (t.dropWhile isWS) with
  | none => none
  | some r1 =>
    match stripPrefix? [','] (r1.dropWhile isWS) with
    | none => none
    | some r2 => (matchNlAfterWS r2).map (fun rem => (t.takeWhile isWS, rem))

/-- `re.search` with `re.MULTILINE` for the `"."` entry: try each line
start in order; returns the indentation and the offset of the match end
from the block start. -/
def searchDotAux : List Str → Option (Str × Nat)
  | [] => none
  | l :: rest =>
    match matchDotAt (joinLines (l :: rest)) with
    | some (ind, rem) => some (ind, (joinLines (l :: rest)).length - rem.length)
    | none => (searchDotAux rest).map (fun r => (r.1, r.2 + l.length))

def searchDot (block : Str) : Option (Str × Nat) := searchDotAux (splitNl block)

def libavcodecQuoted : Str := ("\"libavcodec\"").data

def libavcodecInsert : Str := ("\"libavcodec\",\n").data

def buildGnOkMsg : Str :=
  ("BUILD.gn: added 'libavcodec' to ffmpeg_internal include_dirs").data

/-- `patch_ffmpeg_build_gn`: returns the report messages and the
(possibly updated) filesystem. -/
def patch_ffmpeg_build_gn (check : Bool) (fs : FS) : List Str × FS :=
  let build_gn := pathJoin ffmpegRoot (("BUILD.gn").data)
  match fs.lookup build_gn with
  | none => ([("WARN: third_party/ffmpeg/BUILD.gn not found").data], fs)
  | some text =>
    if containsSub text libavcodecQuoted then ([], fs)
    else
      match searchRem matchTargetAt text with
      | none => ([("WARN: Could not find ffmpeg_internal target in BUILD.gn").data], fs)
      | some remT =>
        match searchRem matchIncludeAt remT with
        | none =>
          ([("WARN: Could not find include_dirs in ffmpeg_internal target").data], fs)
        | some remI =>
          if !(('[' :: remI).contains ']') then
            ([("WARN: Could not parse include_dirs block in BUILD.gn").data], fs)
          else
            let block := ('[' :: remI).takeWhile (fun c => c ≠ ']') ++ [']']
            match searchDot block with
            | none =>
              ([("WARN: Could not find '.' entry in ffmpeg_internal include_dirs").data],
               fs)
            | some r =>
              let block_open := text.length - remI.length - 1
              let insert_at := block_open + r.2
              let new_text :=
                text.take insert_at ++ r.1 ++ libavcodecInsert ++ text.drop insert_at
              if check then ([buildGnOkMsg], fs)
              else ([buildGnOkMsg], fs.write build_gn new_text)

-- ---- Orchestration (patch_ffmpeg_configs.py main) ----

/-- `apply_patch`: read, patch, and write back when the text changed and
check mode is off.  `none` models an uncaught exception. -/
def apply_patch (path : Str) (patcher : Str → Option (Str × Nat)) (check : Bool)
    (fs : FS) : Option ((Nat × Bool) × FS) :=
  match fs.lookup path with
  | none => none
  | some original =>
    match patcher original with
    | none => none
    | some r =>
      let changed := r.1 != original
      if changed && !check then some ((r.2, changed), fs.write path r.1)
      else some ((r.2, changed), fs)

def TARGETS : List (Str × Str) :=
  [(("linux").data, ("x64").data),
   (("linux").data, ("arm64").data),
   (("mac").data, ("x64").data),
   (("mac").data, ("arm64").data),
   (("win").data, ("x64").data)]

/-- The mutable state of `main` in `patch_ffmpeg_configs.py`. -/
structure MState where
  warnings : List Str
  total_enabled_flags : Nat
  total_codec_entries : Nat
  total_parser_entries : Nat
  total_demuxer_entries : Nat
  files_changed : Nat
  fs : FS

def warnMissingFile (os_name arch p : Str) : Str :=
  ("WARN: Missing file for ").data ++ os_name ++ '/' :: arch ++ (": ").data ++ p

/-- One file step of the per-target loop: `config_components.h` and the
three list files all follow this shape (existence check, `apply_patch`,
counter bump or a missing-file warning).  An exception from the patcher
aborts with the state as it stands (`.error`). -/
def fileStep (check : Bool) (os_name arch path : Str)
    (patcher : Str → Option (Str × Nat)) (bump : MState → Nat → MState)
    (st : MState) : Except MState MState :=
  if st.fs.isFile path then
    match apply_patch path patcher check st.fs with
    | none => .error st
    | some r =>
      .ok { bump st r.1.1 with
            files_changed := st.files_changed + (if r.1.2 then 1 else 0),
            fs := r.2 }
  else
    .ok { st with warnings := st.warnings ++ [warnMissingFile os_name arch path] }

/-- One iteration of the per-target loop of `main`. -/
def perTarget (check : Bool) (st : MState) (os_name arch : Str) : Except MState MState :=
  let platform_dir := pathJoin (pathJoin chromeConfigRoot os_name) arch
  if !st.fs.isDir platform_dir then
    .ok { st with warnings := st.warnings ++
            [("WARN: Missing config directory for ").data ++ os_name ++ '/' :: arch
              ++ (": ").data ++ platform_dir] }
  else
    match fileStep check os_name arch (pathJoin platform_dir (("config_components.h").data))
        (fun t => some (patch_config_components t))
        (fun s n => { s with total_enabled_flags := s.total_enabled_flags + n }) st with
    | .error e => .error e
    | .ok s1 =>
      match fileStep check os_name arch
          (pathJoin (pathJoin platform_dir (("libavcodec").data)) (("codec_list.c").data))
          (fun t => patch_list_file t CODEC_LIST_ENTRIES)
          (fun s n => { s with total_codec_entries := s.total_codec_entries + n }) s1 with
      | .error e => .error e
      | .ok s2 =>
        match fileStep check os_name arch
            (pathJoin (pathJoin platform_dir (("libavcodec").data))
              (("parser_list.c").data))
            (fun t => patch_list_file t PARSER_LIST_ENTRIES)
            (fun s n => { s with total_parser_entries := s.total_parser_entries + n })
            s2 with
        | .error e => .error e
        | .ok s3 =>
          fileStep check os_name arch
            (pathJoin (pathJoin platform_dir (("libavformat").data))
              (("demuxer_list.c").data))
            (fun t => patch_list_file t DEMUXER_LIST_ENTRIES)
            (fun s n => { s with total_demuxer_entries := s.total_demuxer_entries + n })
            s3

def ffmpegLoop (check : Bool) : List (Str × Str) → MState → Except MState MState
  | [], st => .ok st
  | t :: rest, st =>
    match perTarget check st t.1 t.2 with
    | .error e => .error e
    | .ok st' => ffmpegLoop check rest st'

def exceptFs : Except MState MState → FS
  | .ok s => s.fs
  | .error s => s.fs

def exceptIsError : Except MState MState → Bool
  | .ok _ => false
  | .error _ => true

/-- `main` of `patch_ffmpeg_configs.py`.  The result is the exit status
(`none` models dying on an uncaught exception, hence a nonzero status)
and the final filesystem. -/
def ffmpegMain (check : Bool) (fs : FS) : Option Int × FS :=
  if !fs.isDir chromeConfigRoot then (some 1, fs)
  else if !fs.isFile ffmpegGeneratedGni then (some 1, fs)
  else
    match ffmpegLoop check TARGETS ⟨[], 0, 0, 0, 0, 0, fs⟩ with
    | .error st => (none, st.fs)
    | .ok st =>
      match st.fs.lookup ffmpegGeneratedGni with
      | none => (none, st.fs)
      | some gni_text =>
        let r := patch_ffmpeg_generated_gni gni_text check st.fs
        let fs1 := if r.1.1 != gni_text && !check
                   then (r.2).write ffmpegGeneratedGni r.1.1 else r.2
        (some 0, (patch_ffmpeg_build_gn check fs1).2)

-- ---- Orchestration (patch_chromium_media.py main) ----

/-- `backup_once`: copy `path` to `path + ".orig"` unless the backup
already exists (for the `.cc` targets, `with_suffix(suffix + ".orig")`
appends `".orig"`).  `copy2` on a missing source would raise; callers
only reach it after reading the file. -/
def backup_once (path : Str) (fs : FS) : FS :=
  let backup := path ++ (".orig").data
  if fs.isFile backup then fs
  else
    match fs.lookup path with
    | some content => fs.write backup content
    | none => fs

/-- One computed edit of `patch_chromium_media.py`'s `main`. -/
structure MEdit where
  path : Str
  original : Str
  patched : Str
  notes : List Str

/-- The `try` block of `main`: read and patch every target before any
write; `none` models a raised exception.  The patch functions of the
script enter through the `targets` parameter (`main` wires the four
concrete patchers to their paths). -/
def chromium_compute (fs : FS) :
    List (Str × (Str → Option (Str × List Str))) → Option (List MEdit)
  | [] => some []
  | t :: rest =>
    match fs.lookup t.1 with
    | none => none
    | some original =>
      match t.2 original with
      | none => none
      | some r =>
        (chromium_compute fs rest).map (fun es => ⟨t.1, original, r.1, r.2⟩ :: es)

/-- The write loop of `main`: back up and rewrite every changed file. -/
def applyEdits (edits : List MEdit) (fs : FS) : FS :=
  edits.foldl
    (fun acc e =>
      if e.original = e.patched then acc
      else (backup_once e.path acc).write e.path e.patched)
    fs

/-- `main` of `patch_chromium_media.py`: existence checks, compute all
edits, then report / dry-run / write.  A patcher exception is caught and
turns into exit code 1 with nothing written. -/
def chromiumMain (dry_run : Bool)
    (targets : List (Str × (Str → Option (Str × List Str)))) (fs : FS) :
    Option Int × FS :=
  if targets.any (fun t => !fs.isFile t.1) then (some 1, fs)
  else
    match chromium_compute fs targets with
    | none => (some 1, fs)
    | some edits =>
      let summary :=
        (edits.filter (fun e => e.original ≠ e.patched)).flatMap (fun e => e.notes)
      if summary.isEmpty then (some 0, fs)
      else if dry_run then (some 0, fs)
      else (some 0, applyEdits edits fs)

/-- Unterminated managed block used to exhibit `remove_managed_block`'s
silent no-op on a `NOT_FOUND` from the block locator. -/
def c9text : Str := gniMarker ++ ("\nif (x) \x7b\n  a\n").data

def emptyFS : FS := ⟨[], []⟩

/-- A text carrying a stale managed block, used with an empty filesystem
(so that nothing is left to add) to exhibit that the rebuild then
returns the original text, stale block included. -/
def c3text : Str := ("a\n").data ++ gniMarker ++ ("\nif (x) \x7b\n\x7d\nb\n").data

/-- The linux/x64 platform directory of the chromium ffmpeg config tree. -/
def c2dir : Str := pathJoin (pathJoin chromeConfigRoot (("linux").data)) (("x64").data)

def c2cc : Str := pathJoin c2dir (("config_components.h").data)

def c2codec : Str :=
  pathJoin (pathJoin c2dir (("libavcodec").data)) (("codec_list.c").data)

/-- A filesystem whose linux/x64 `config_components.h` patches fine but
whose `codec_list.c` has missing entries and no `NULL` terminator line,
so the list patcher raises after the flags file was already rewritten. -/
def c2fs : FS :=
  ⟨[(ffmpegGeneratedGni, ("x\n").data),
    (c2cc, ("#define CONFIG_HEVC_DECODER 0\n").data),
    (c2codec, ("&ff_x,\n").data)],
   [chromeConfigRoot, c2dir]⟩

/-- A one-file chromium target list whose patcher raises. -/
def c2wfs : FS := ⟨[(("f").data, ("x").data)], []⟩

def c2targets : List (Str × (Str → Option (Str × List Str))) :=
  [(("f").data, fun _ => none)]

/-- A filesystem on which the whole ffmpeg run succeeds after rewriting
`config_components.h` (the list files are absent, which only warns). -/
def c5fs : FS :=
  ⟨[(ffmpegGeneratedGni, ("x\n").data),
    (c2cc, ("#define CONFIG_HEVC_DECODER 0\n").data)],
   [chromeConfigRoot, c2dir]⟩

/-- A changed chromium edit for one file `f`. -/
def c5edit : MEdit := ⟨("f").data, ("x").data, ("y").data, []⟩

/-- An unchanged chromium edit for `f`. -/
def c5editId : MEdit := ⟨("f").data, ("x").data, ("x").data, []⟩

def c5fsA : FS := ⟨[(("f").data, ("x").data)], []⟩

def c5fsB : FS := ⟨[(("f.orig").data, ("b").data), (("f").data, ("x").data)], []⟩

/-- Characters that drive `find_block_end`. -/
def isBrace (c : Char) : Bool := c = '\x7b' || c = '\x7d'

/-- The brace content of a string; only braces moven the scanner depth. -/
def braces (s : Str) : Str := s.filter isBrace

/-- No depth excursion below zero and net depth zero: the shape of the
text between the managed block's outer braces. -/
def Balanced (s : Str) : Prop :=
  braceDelta s = 0 ∧ ∀ p, p <+: s → 0 ≤ braceDelta p

/-- A well-behaved source path: none of the characters that drive the
managed-block machinery (newline, CR, braces) occur in it. -/
def SrcGood (s : Str) : Prop :=
  ∀ c ∈ s, ¬ c = '\n' ∧ ¬ c = '\r' ∧ ¬ c = '\x7b' ∧ ¬ c = '\x7d'

instance (s : Str) : Decidable (SrcGood s) :=
  inferInstanceAs
    (Decidable (∀ c ∈ s, ¬ c = '\n' ∧ ¬ c = '\r' ∧ ¬ c = '\x7b' ∧ ¬ c = '\x7d'))

/-- The five filtered source lists `patch_ffmpeg_generated_gni` derives
from the cleaned text and the filesystem, as functions of both. -/
def gniL1 (s₀ : Str) (fs : FS) : List Str :=
  filter_not_in_gni (filter_available EXTRA_C_SOURCES fs).1 s₀

def gniL2 (s₀ : Str) (fs : FS) : List Str :=
  filter_not_in_gni (filter_available EXTRA_X86_C_SOURCES fs).1 s₀

def gniL3 (s₀ : Str) (fs : FS) : List Str :=
  filter_not_in_gni (filter_available EXTRA_X86_ASM_SOURCES fs).1 s₀

def gniL4 (s₀ : Str) (fs : FS) : List Str :=
  filter_not_in_gni (filter_available EXTRA_AARCH64_C_SOURCES fs).1 s₀

def gniL5 (s₀ : Str) (fs : FS) : List Str :=
  filter_not_in_gni (filter_available EXTRA_AARCH64_GAS_SOURCES fs).1 s₀

def gniR1 (s₀ : Str) (fs : FS) : List Str × List (Str × Str) × List Str :=
  resolve_basename_collisions (gniL1 s₀ fs) (get_gni_c_basenames s₀)

def gniR2 (s₀ : Str) (fs : FS) : List Str × List (Str × Str) × List Str :=
  resolve_basename_collisions (gniL2 s₀ fs) (gniR1 s₀ fs).2.2

def gniR3 (s₀ : Str) (fs : FS) : List Str × List (Str × Str) × List Str :=
  resolve_basename_collisions (gniL4 s₀ fs) (gniR2 s₀ fs).2.2

def gniTOT (s₀ : Str) (fs : FS) : Nat :=
  (gniR1 s₀ fs).1.length + (gniR2 s₀ fs).1.length + (gniL3 s₀ fs).length
    + (gniR3 s₀ fs).1.length + (gniL5 s₀ fs).length

def gniW (fs : FS) : List Str :=
  (filter_available EXTRA_C_SOURCES fs).2
    ++ (filter_available EXTRA_X86_C_SOURCES fs).2
    ++ (filter_available EXTRA_X86_ASM_SOURCES fs).2
    ++ (filter_available EXTRA_AARCH64_C_SOURCES fs).2
    ++ (filter_available EXTRA_AARCH64_GAS_SOURCES fs).2

def gniFS (s₀ : Str) (check : Bool) (fs : FS) : FS :=
  create_wrapper_files
    ((gniR1 s₀ fs).2.1 ++ (gniR2 s₀ fs).2.1 ++ (gniR3 s₀ fs).2.1) check fs

def gniBLK (s₀ : Str) (fs : FS) : Str :=
  build_managed_gni_block (gniR1 s₀ fs).1 (gniR2 s₀ fs).1 (gniL3 s₀ fs)
    (gniR3 s₀ fs).1 (gniL5 s₀ fs) lf

/-- A filesystem carrying exactly one catalog source. -/
def c1fs : FS :=
  ⟨[(pathJoin ffmpegRoot (("libavcodec/hevc/hevcdec.c").data), ("x").data)], []⟩

/-- A text ending in three newlines: the rebuild's trailing-newline
normalization is not idempotent on it. -/
def c1text : Str := ("x\n\n\n").data

-- ====================================================================
-- Theorems
-- ====================================================================

section PathLemmas

theorem splitSlashAux_no_slash (t : Str) :
    ∀ acc, '/' ∉ acc → ∀ c ∈ splitSlashAux t acc, '/' ∉ c := by
  induction t with
  | nil =>
    intro acc hacc c hc
    simp only [splitSlashAux, List.mem_singleton] at hc
    subst hc
    simpa using hacc
  | cons x t ih =>
    intro acc hacc c hc
    simp only [splitSlashAux] at hc
    by_cases hx : x = '/'
    · rw [if_pos hx] at hc
      rcases List.mem_cons.mp hc with h | h
      · subst h; simpa using hacc
      · exact ih [] (by simp) c h
    · rw [if_neg hx] at hc
      refine ih (x :: acc) ?_ c hc
      intro hmem
      rcases List.mem_cons.mp hmem with h | h
      · exact hx h.symm
      · exact hacc h

theorem pathComps_props (s : Str) :
    ∀ c ∈ pathComps s, c ≠ [] ∧ c ≠ (".").data ∧ '/' ∉ c := by
  intro c hc
  unfold pathComps at hc
  rcases List.mem_filter.mp hc with ⟨hmem, hprop⟩
  have hne := of_decide_eq_true hprop
  exact ⟨hne.1, hne.2, splitSlashAux_no_slash s [] (by simp) c hmem⟩

/-- Splitting a slash-free chunk followed by a slash peels off the chunk. -/
theorem splitSlashAux_chunk (c : Str) (hc : '/' ∉ c) (u : Str) :
    ∀ acc, splitSlashAux (c ++ '/' :: u) acc = (acc.reverse ++ c) :: splitSlashAux u [] := by
  induction c with
  | nil =>
    intro acc
    simp [splitSlashAux]
  | cons x c ih =>
    intro acc
    have hx : x ≠ '/' := by
      intro h; exact hc (h ▸ List.mem_cons_self x c)
    have hc' : '/' ∉ c := fun h => hc (List.mem_cons_of_mem x h)
    simp only [List.cons_append, splitSlashAux, if_neg hx]
    exact (ih hc' (x :: acc)).trans (by simp)

/-- Splitting a slash-free string yields the single chunk. -/
theorem splitSlashAux_single (c : Str) (hc : '/' ∉ c) :
    ∀ acc, splitSlashAux c acc = [acc.reverse ++ c] := by
  induction c with
  | nil => intro acc; simp [splitSlashAux]
  | cons x c ih =>
    intro acc
    have hx : x ≠ '/' := by
      intro h; exact hc (h ▸ List.mem_cons_self x c)
    have hc' : '/' ∉ c := fun h => hc (List.mem_cons_of_mem x h)
    simp only [splitSlashAux, if_neg hx]
    rw [ih hc' (x :: acc)]
    simp

/-- A component list made of nonempty, non-`"."`, slash-free segments is
recovered by `pathComps` after `asPosix`. -/
theorem pathComps_asPosix (comps : List Str)
    (h : ∀ c ∈ comps, c ≠ [] ∧ c ≠ (".").data ∧ '/' ∉ c) :
    pathComps (asPosix comps) = comps := by
  induction comps with
  | nil => decide
  | cons c rest ih =>
    rcases h c (List.mem_cons_self c rest) with ⟨hne, hdot, hsl⟩
    match rest, ih with
    | [], _ =>
      unfold asPosix pathComps
      rw [splitSlashAux_single c hsl []]
      simp [List.filter, hne, hdot]
    | r :: rs, ih =>
      have hrest : ∀ x ∈ r :: rs, x ≠ [] ∧ x ≠ (".").data ∧ '/' ∉ x :=
        fun x hx => h x (List.mem_cons_of_mem c hx)
      show pathComps (c ++ '/' :: asPosix (r :: rs)) = c :: r :: rs
      unfold pathComps
      rw [splitSlashAux_chunk c hsl _ []]
      have := ih hrest
      unfold pathComps at this
      simp only [List.reverse_nil, List.nil_append, List.filter]
      rw [show (decide (c ≠ [] ∧ c ≠ (".").data)) = true by simp [hne, hdot]]
      rw [this]

theorem pathName_wrapperPathOf (s : Str) :
    pathName (wrapperPathOf s) = wrapperNameOf s := by
  unfold pathName wrapperPathOf wrapperNameOf
  set comps := pathComps s with hcomps
  have hprops := pathComps_props s
  rw [← hcomps] at hprops
  have hbase : ∀ c ∈ comps.dropLast, c ≠ [] ∧ c ≠ (".").data ∧ '/' ∉ c :=
    fun c hc => hprops c (List.dropLast_subset _ hc)
  have hgrand : ∀ c ∈ comps.dropLast.dropLast, c ≠ [] ∧ c ≠ (".").data ∧ '/' ∉ c :=
    fun c hc => hbase c (List.dropLast_subset _ hc)
  set w := comps.dropLast.getLastD [] ++ '_' :: comps.getLastD [] with hw
  have hwprops : w ≠ [] ∧ w ≠ (".").data ∧ '/' ∉ w := by
    refine ⟨?_, ?_, ?_⟩
    · intro h
      have : '_' ∈ w := by rw [hw]; simp
      rw [h] at this; exact absurd this (List.not_mem_nil '_')
    · intro h
      have : '_' ∈ w := by rw [hw]; simp
      rw [h] at this
      simp at this
    · intro h
      rw [hw] at h
      rcases List.mem_append.mp h with h | h
      · rcases List.eq_nil_or_concat comps.dropLast with hnil | ⟨l, a, hla⟩
        · rw [hnil] at h; exact absurd h (List.not_mem_nil '/')
        · have hlast : comps.dropLast.getLastD [] = a := by rw [hla]; simp
          rw [hlast] at h
          have ha : a ∈ comps.dropLast := by rw [hla]; simp
          exact (hbase a ha).2.2 h
      · rcases List.mem_cons.mp h with h | h
        · exact absurd h.symm (by decide)
        · rcases List.eq_nil_or_concat comps with hnil | ⟨l, a, hla⟩
          · rw [hnil] at h; simp at h
          · have hlast : comps.getLastD [] = a := by rw [hla]; simp
            rw [hlast] at h
            have ha : a ∈ comps := by rw [hla]; simp
            exact (hprops a ha).2.2 h
  rw [pathComps_asPosix (comps.dropLast.dropLast ++ [w]) ?_]
  · simp
  · intro c hc
    rcases List.mem_append.mp hc with h | h
    · exact hgrand c h
    · rw [List.mem_singleton.mp h]; exact hwprops

end PathLemmas

section ResolverLemmas

/-- Each step of the resolver keeps the input order and turns each
candidate into itself or its wrapper path, and the final pool is the
seed pool together with the base names of all accepted paths. -/
theorem resolver_structure (sources : List Str) :
    ∀ pool : List Str,
      List.Forall₂ (fun s r => r = s ∨ r = wrapperPathOf s) sources
        (resolve_basename_collisions sources pool).1 ∧
      (∀ b, b ∈ (resolve_basename_collisions sources pool).2.2 ↔
        (b ∈ pool ∨ b ∈ ((resolve_basename_collisions sources pool).1).map pathName)) := by
  induction sources with
  | nil =>
    intro pool
    refine ⟨List.Forall₂.nil, ?_⟩
    intro b
    simp [resolve_basename_collisions]
  | cons s rest ih =>
    intro pool
    by_cases h : pathName s ∈ pool
    · have hr := ih (wrapperNameOf s :: pool)
      have e1 : (resolve_basename_collisions (s :: rest) pool).1
          = wrapperPathOf s :: (resolve_basename_collisions rest (wrapperNameOf s :: pool)).1 := by
        simp only [resolve_basename_collisions, if_pos h]
      have e2 : (resolve_basename_collisions (s :: rest) pool).2.2
          = (resolve_basename_collisions rest (wrapperNameOf s :: pool)).2.2 := by
        simp only [resolve_basename_collisions, if_pos h]
      constructor
      · rw [e1]
        exact List.Forall₂.cons (Or.inr rfl) hr.1
      · intro b
        rw [e2, e1, hr.2 b]
        simp only [List.mem_cons, List.map_cons, pathName_wrapperPathOf]
        tauto
    · have hr := ih (pathName s :: pool)
      have e1 : (resolve_basename_collisions (s :: rest) pool).1
          = s :: (resolve_basename_collisions rest (pathName s :: pool)).1 := by
        simp only [resolve_basename_collisions, if_neg h]
      have e2 : (resolve_basename_collisions (s :: rest) pool).2.2
          = (resolve_basename_collisions rest (pathName s :: pool)).2.2 := by
        simp only [resolve_basename_collisions, if_neg h]
      constructor
      · rw [e1]
        exact List.Forall₂.cons (Or.inl rfl) hr.1
      · intro b
        rw [e2, e1, hr.2 b]
        simp only [List.mem_cons, List.map_cons]
        tauto

theorem resolve_length (sources pool : List Str) :
    (resolve_basename_collisions sources pool).1.length = sources.length :=
  ((resolver_structure sources pool).1.length_eq).symm

end ResolverLemmas

section SplitNlLemmas

theorem splitNlAux_nil (acc : Str) :
    splitNlAux [] acc = if acc = [] then [] else [acc.reverse] := rfl

theorem splitNlAux_cons (c : Char) (t acc : Str) :
    splitNlAux (c :: t) acc =
      if c = '\n' then (acc.reverse ++ ['\n']) :: splitNlAux t []
      else splitNlAux t (c :: acc) := rfl

theorem joinLines_cons (l : Str) (ls : List Str) :
    joinLines (l :: ls) = l ++ joinLines ls := List.flatten_cons ..

theorem joinLines_splitNlAux (t : Str) :
    ∀ acc, joinLines (splitNlAux t acc) = acc.reverse ++ t := by
  induction t with
  | nil =>
    intro acc
    by_cases h : acc = []
    · subst h
      rfl
    · rw [splitNlAux_nil, if_neg h]
      simp [joinLines]
  | cons c t ih =>
    intro acc
    rw [splitNlAux_cons]
    by_cases hc : c = '\n'
    · subst hc
      rw [if_pos rfl, joinLines_cons, ih []]
      simp
    · rw [if_neg hc, ih (c :: acc)]
      simp

theorem joinLines_splitNl (t : Str) : joinLines (splitNl t) = t := by
  simpa using joinLines_splitNlAux t []

theorem wfLines_cons (l : Str) (ls : List Str) :
    WFLines (l :: ls) ↔
      WFLine l ∧ (ls = [] ∨ (l.getLast? = some '\n' ∧ WFLines ls)) := by
  cases ls with
  | nil => simp [WFLines]
  | cons m rest => simp [WFLines]

theorem splitNl_wfAux (t : Str) :
    ∀ acc, '\n' ∉ acc → WFLines (splitNlAux t acc) := by
  induction t with
  | nil =>
    intro acc hacc
    by_cases h : acc = []
    · subst h
      exact trivial
    · rw [splitNlAux_nil, if_neg h]
      refine (wfLines_cons _ _).mpr ⟨⟨by simpa using h, ?_⟩, Or.inl rfl⟩
      intro c hc hceq
      subst hceq
      have hmem : '\n' ∈ acc.reverse := List.dropLast_subset _ hc
      exact hacc (by simpa using hmem)
  | cons c t ih =>
    intro acc hacc
    rw [splitNlAux_cons]
    by_cases hc : c = '\n'
    · subst hc
      rw [if_pos rfl]
      refine (wfLines_cons _ _).mpr ⟨⟨by simp, ?_⟩, ?_⟩
      · intro x hx hxeq
        subst hxeq
        rw [List.dropLast_concat] at hx
        exact hacc (by simpa using hx)
      · by_cases hrest : splitNlAux t [] = []
        · exact Or.inl hrest
        · exact Or.inr ⟨List.getLast?_concat _, ih [] (by simp)⟩
    · rw [if_neg hc]
      refine ih (c :: acc) ?_
      intro hmem
      rcases List.mem_cons.mp hmem with h | h
      · exact hc h.symm
      · exact hacc h

theorem splitNl_wf (t : Str) : WFLines (splitNl t) := splitNl_wfAux t [] (by simp)

/-- Splitting a newline-free chunk followed by a newline peels off one
line. -/
theorem splitNlAux_chunk (body : Str) (hb : '\n' ∉ body) (rest : Str) :
    ∀ acc, splitNlAux (body ++ '\n' :: rest) acc
      = (acc.reverse ++ body ++ ['\n']) :: splitNlAux rest [] := by
  induction body with
  | nil =>
    intro acc
    simp [splitNlAux_cons]
  | cons c body ih =>
    intro acc
    have hc : c ≠ '\n' := fun h => hb (h ▸ List.mem_cons_self c body)
    have hb' : '\n' ∉ body := fun h => hb (List.mem_cons_of_mem c h)
    rw [List.cons_append, splitNlAux_cons, if_neg hc, ih hb' (c :: acc)]
    simp

/-- Splitting a newline-free string yields at most one line. -/
theorem splitNlAux_single (l : Str) (hl : '\n' ∉ l) :
    ∀ acc, splitNlAux l acc
      = if acc.reverse ++ l = [] then [] else [acc.reverse ++ l] := by
  induction l with
  | nil =>
    intro acc
    rw [splitNlAux_nil]
    by_cases h : acc = []
    · simp [h]
    · rw [if_neg h, if_neg (by simpa using h)]
      simp
  | cons c l ih =>
    intro acc
    have hc : c ≠ '\n' := fun h => hl (h ▸ List.mem_cons_self c l)
    have hl' : '\n' ∉ l := fun h => hl (List.mem_cons_of_mem c h)
    rw [splitNlAux_cons, if_neg hc, ih hl' (c :: acc)]
    rw [if_neg (by simp), if_neg (by simp)]
    simp

theorem splitNl_joinLines (ls : List Str) (h : WFLines ls) :
    splitNl (joinLines ls) = ls := by
  induction ls with
  | nil => rfl
  | cons l ls ih =>
    rcases (wfLines_cons l ls).mp h with ⟨hl, hrest⟩
    rcases hrest with hnil | ⟨hend, hwf⟩
    · subst hnil
      rw [show joinLines [l] = l by simp [joinLines]]
      by_cases hln : l.getLast? = some '\n'
      · have hne := hl.1
        have hdec : l.dropLast ++ ['\n'] = l := by
          have := List.dropLast_append_getLast hne
          rwa [List.getLast_eq_iff_getLast?_eq_some hne |>.mpr hln] at this
        unfold splitNl
        rw [← hdec, splitNlAux_chunk l.dropLast (fun hm => hl.2 '\n' hm rfl) []]
        simp [splitNlAux_nil]
      · have hnot : '\n' ∉ l := by
          intro hm
          have hne := hl.1
          have := List.dropLast_append_getLast hne
          rw [← this] at hm
          rcases List.mem_append.mp hm with h1 | h1
          · exact hl.2 '\n' h1 rfl
          · rcases List.mem_singleton.mp h1 with h2
            exact hln (by
              rw [List.getLast?_eq_getLast l hne]
              rw [← h2])
        unfold splitNl
        rw [splitNlAux_single l hnot []]
        simp [hl.1]
    · have hne := hl.1
      have hdec : l.dropLast ++ ['\n'] = l := by
        have := List.dropLast_append_getLast hne
        rwa [List.getLast_eq_iff_getLast?_eq_some hne |>.mpr hend] at this
      unfold splitNl
      rw [joinLines_cons, ← hdec]
      rw [show (l.dropLast ++ ['\n']) ++ joinLines ls = l.dropLast ++ '\n' :: joinLines ls
        by simp]
      rw [splitNlAux_chunk l.dropLast (fun hm => hl.2 '\n' hm rfl) _ []]
      rw [show splitNlAux (joinLines ls) [] = splitNl (joinLines ls) from rfl, ih hwf]
      simp [hdec]

theorem wfLines_mem (ls : List Str) (h : WFLines ls) : ∀ l ∈ ls, WFLine l := by
  induction ls with
  | nil => intro l hl; exact absurd hl (List.not_mem_nil l)
  | cons a ls ih =>
    intro l hl
    rcases (wfLines_cons a ls).mp h with ⟨ha, hrest⟩
    rcases List.mem_cons.mp hl with h1 | h1
    · exact h1 ▸ ha
    · rcases hrest with hnil | ⟨_, hwf⟩
      · subst hnil
        exact absurd h1 (List.not_mem_nil l)
      · exact ih hwf l h1

/-- Splitting a well-formed list around a nonempty tail: every line of
the front part ends in a newline, and the tail is well-formed. -/
theorem wfLines_split (A B : List Str) (hB : B ≠ []) (h : WFLines (A ++ B)) :
    (∀ l ∈ A, l.getLast? = some '\n') ∧ WFLines B := by
  induction A with
  | nil => exact ⟨by simp, h⟩
  | cons a A ih =>
    rw [List.cons_append] at h
    rcases (wfLines_cons a (A ++ B)).mp h with ⟨_, hrest⟩
    rcases hrest with hnil | ⟨hend, hwf⟩
    · exact absurd (List.append_eq_nil.mp hnil).2 hB
    · rcases ih hwf with ⟨h1, h2⟩
      refine ⟨?_, h2⟩
      intro l hl
      rcases List.mem_cons.mp hl with he | he
      · exact he ▸ hend
      · exact h1 l he

theorem wfLines_append (A B : List Str)
    (hA : ∀ l ∈ A, WFLine l ∧ l.getLast? = some '\n') (hB : WFLines B) :
    WFLines (A ++ B) := by
  induction A with
  | nil => simpa using hB
  | cons a A ih =>
    rw [List.cons_append]
    refine (wfLines_cons a (A ++ B)).mpr ?_
    have ha := hA a (List.mem_cons_self a A)
    refine ⟨ha.1, ?_⟩
    by_cases hnil : A ++ B = []
    · exact Or.inl hnil
    · exact Or.inr ⟨ha.2, ih (fun l hl => hA l (List.mem_cons_of_mem a hl))⟩

end SplitNlLemmas

section ScanLemmas

theorem stripPrefix?_self_append (p t : Str) : stripPrefix? p (p ++ t) = some t := by
  induction p with
  | nil => rfl
  | cons c p ih => simpa [stripPrefix?] using ih

theorem stripPrefix?_eq_some (p : Str) :
    ∀ s r, stripPrefix? p s = some r → s = p ++ r := by
  induction p with
  | nil =>
    intro s r h
    have h' : some s = some r := h
    simpa using Option.some.inj h'
  | cons c p ih =>
    intro s r h
    cases s with
    | nil => exact absurd h (by simp [stripPrefix?])
    | cons d s =>
      by_cases hcd : c = d
      · subst hcd
        rw [show stripPrefix? (c :: p) (c :: s) = stripPrefix? p s by
          simp [stripPrefix?]] at h
        rw [ih s r h]
        rfl
      · rw [show stripPrefix? (c :: p) (d :: s) = none by simp [stripPrefix?, hcd]] at h
        exact absurd h (by simp)

theorem dropWhile_ws_append (w : Str) (hw : ∀ c ∈ w, isWS c = true) (r : Str) :
    (w ++ r).dropWhile isWS = r.dropWhile isWS := by
  induction w with
  | nil => rfl
  | cons c w ih =>
    rw [List.cons_append, List.dropWhile_cons_of_pos (hw c (List.mem_cons_self c w))]
    exact ih (fun x hx => hw x (List.mem_cons_of_mem c hx))

theorem takeWhile_ws_append (w : Str) (hw : ∀ c ∈ w, isWS c = true) (r : Str) :
    (w ++ r).takeWhile isWS = w ++ r.takeWhile isWS := by
  induction w with
  | nil => rfl
  | cons c w ih =>
    rw [List.cons_append, List.takeWhile_cons_of_pos (hw c (List.mem_cons_self c w))]
    rw [ih (fun x hx => hw x (List.mem_cons_of_mem c hx))]
    rfl

theorem dropWhile_neg_head (c : Char) (r : Str) (hc : isWS c = false) :
    (c :: r).dropWhile isWS = c :: r :=
  List.dropWhile_cons_of_neg (by simp [hc])

theorem takeWhile_neg_head (c : Char) (r : Str) (hc : isWS c = false) :
    (c :: r).takeWhile isWS = [] :=
  List.takeWhile_cons_of_neg (by simp [hc])

theorem detect_newline_cases (t : Str) :
    detect_newline t = lf ∨ detect_newline t = crlf := by
  unfold detect_newline
  by_cases h : containsSub t crlf = true
  · simp [h]
  · simp [h]

theorem newline_ws (t : Str) : ∀ c ∈ detect_newline t, isWS c = true := by
  rcases detect_newline_cases t with h | h <;> rw [h] <;> decide

theorem newline_ends_nl (t : Str) : (detect_newline t).getLast? = some '\n' := by
  rcases detect_newline_cases t with h | h <;> rw [h] <;> decide

theorem newline_ne_nil (t : Str) : detect_newline t ≠ [] := by
  rcases detect_newline_cases t with h | h <;> rw [h] <;> decide

end ScanLemmas

section ListFileLemmas

theorem indentOf_cases (line : Str) :
    (∃ r1, stripPrefix? nullKw (line.dropWhile isWS) = some r1 ∧
       indentOf line = line.takeWhile isWS) ∨
    indentOf line = ("    ").data := by
  unfold indentOf
  cases h : stripPrefix? nullKw (line.dropWhile isWS) with
  | none => exact Or.inr rfl
  | some r1 =>
    by_cases hb : boundaryAfterZero r1 = true
    · exact Or.inl ⟨r1, rfl, by simp [hb]⟩
    · exact Or.inr (by simp [hb])

theorem indentOf_ws (line : Str) : ∀ c ∈ indentOf line, isWS c = true := by
  rcases indentOf_cases line with ⟨r1, _, he⟩ | he
  · rw [he]
    intro c hc
    exact List.mem_takeWhile_imp hc
  · rw [he]
    decide

theorem indentOf_no_nl (line : Str) (hwf : WFLine line) : '\n' ∉ indentOf line := by
  rcases indentOf_cases line with ⟨r1, h, he⟩ | he
  · rw [he]
    intro hmem
    have hsplit := List.takeWhile_append_dropWhile (p := isWS) (l := line)
    have hdw := stripPrefix?_eq_some nullKw _ r1 h
    have hdne : line.dropWhile isWS ≠ [] := by
      rw [hdw]
      simp [nullKw]
    have hdl : line.dropLast = line.takeWhile isWS ++ (line.dropWhile isWS).dropLast := by
      conv_lhs => rw [← hsplit]
      exact List.dropLast_append_of_ne_nil _ hdne
    have hin : '\n' ∈ line.dropLast := by
      rw [hdl]
      exact List.mem_append_left _ hmem
    exact hwf.2 '\n' hin rfl
  · rw [he]
    decide

/-- The inserted line `indent + entry + "," + newline` satisfies the
per-line presence pattern when the entry is nonempty and
whitespace-free. -/
theorem entryLineMatch_entryLine (e indent newline : Str)
    (he : GoodEntry e)
    (hi : ∀ c ∈ indent, isWS c = true) (hn : ∀ c ∈ newline, isWS c = true) :
    entryLineMatch e (entryLine indent e newline) = true := by
  obtain ⟨hne, hwsf⟩ := he
  obtain ⟨c, e', rfl⟩ := List.exists_cons_of_ne_nil hne
  unfold entryLineMatch entryLine
  rw [show indent ++ (c :: e') ++ ',' :: newline = indent ++ ((c :: e') ++ ',' :: newline)
    by simp]
  rw [dropWhile_ws_append indent hi]
  rw [List.cons_append]
  rw [dropWhile_neg_head c _ (hwsf c (List.mem_cons_self c e'))]
  rw [← List.cons_append]
  rw [stripPrefix?_self_append]
  dsimp only
  rw [dropWhile_neg_head ',' newline (by decide)]
  simpa using fun c hc => hn c hc

theorem findIdx?_lt_length {α : Type} (p : α → Bool) (ls : List α) :
    ∀ i, ls.findIdx? p = some i → i < ls.length := fun _ h =>
  (List.findIdx?_eq_some_iff_findIdx_eq.mp h).1

/-- The unfolding of `patch_list_file` on the insertion path. -/
theorem patch_list_file_insert (text : Str) (entries : List Str) (i : Nat)
    (hm : ¬ entries.filter (fun e => !hasEntryLine text e) = [])
    (hidx : (splitNl text).findIdx? isNullLine = some i) :
    patch_list_file text entries =
      some (joinLines ((splitNl text).take i
          ++ (entries.filter (fun e => !hasEntryLine text e)).map
              (fun e =>
                entryLine (indentOf ((splitNl text).getD i [])) e (detect_newline text))
          ++ (splitNl text).drop i),
        (entries.filter (fun e => !hasEntryLine text e)).length) := by
  simp only [patch_list_file, if_neg hm, hidx]

theorem patch_list_file_noop (text : Str) (entries : List Str)
    (hm : entries.filter (fun e => !hasEntryLine text e) = []) :
    patch_list_file text entries = some (text, 0) := by
  simp only [patch_list_file, if_pos hm]

/-- Inserting well-formed newline-terminated lines at a position strictly
inside a well-formed line list keeps it well-formed. -/
theorem insertedLines_wf (lines : List Str) (hwf : WFLines lines) (i : Nat)
    (hi : i < lines.length) (ins : List Str)
    (hins : ∀ l ∈ ins, WFLine l ∧ l.getLast? = some '\n') :
    WFLines (lines.take i ++ ins ++ lines.drop i) := by
  have hdrop_ne : lines.drop i ≠ [] := by
    intro h
    rw [List.drop_eq_nil_iff] at h
    omega
  have hsplit := List.take_append_drop i lines
  have h1 : (∀ l ∈ lines.take i, l.getLast? = some '\n') ∧ WFLines (lines.drop i) := by
    apply wfLines_split _ _ hdrop_ne
    rw [hsplit]
    exact hwf
  rw [List.append_assoc]
  apply wfLines_append
  · intro l hl
    exact ⟨wfLines_mem lines hwf l (List.take_subset i lines hl), h1.1 l hl⟩
  · exact wfLines_append ins (lines.drop i) hins h1.2

theorem entryLine_wf (indent e nl : Str)
    (hind : '\n' ∉ indent) (he : GoodEntry e) (hnl : nl = lf ∨ nl = crlf) :
    WFLine (entryLine indent e nl) ∧ (entryLine indent e nl).getLast? = some '\n' := by
  have hnl_ne : nl ≠ [] := by rcases hnl with h | h <;> rw [h] <;> decide
  have hnl_last : nl.getLast? = some '\n' := by rcases hnl with h | h <;> rw [h] <;> decide
  have hnl_dl : ∀ c ∈ nl.dropLast, c ≠ '\n' := by
    rcases hnl with h | h <;> rw [h] <;> decide
  constructor
  · constructor
    · unfold entryLine
      intro hcontra
      have : (',' :: nl) = [] := (List.append_eq_nil.mp hcontra).2
      exact absurd this (by simp)
    · unfold entryLine
      intro c hc
      have hcomma : (',' :: nl) ≠ [] := by simp
      rw [show indent ++ e ++ ',' :: nl = (indent ++ e) ++ ([','] ++ nl) by simp] at hc
      rw [List.dropLast_append_of_ne_nil _ (show ([','] ++ nl) ≠ [] by simp)] at hc
      rcases List.mem_append.mp hc with h | h
      · rcases List.mem_append.mp h with h2 | h2
        · intro hceq
          subst hceq
          exact hind h2
        · intro hceq
          subst hceq
          have := he.2 '\n' h2
          exact absurd this (by decide)
      · rw [List.dropLast_append_of_ne_nil _ hnl_ne] at h
        rcases List.mem_append.mp h with h2 | h2
        · rcases List.mem_singleton.mp h2 with rfl
          decide
        · exact hnl_dl c h2
  · unfold entryLine
    rw [show indent ++ e ++ ',' :: nl = (indent ++ e ++ [',']) ++ nl by simp]
    rw [List.getLast?_append, hnl_last]
    rfl

/-- Insertion makes every required entry present, hence a second run
reports zero additions and leaves the text unchanged. -/
theorem patch_list_file_idem (text : Str) (entries : List Str)
    (hgood : ∀ e ∈ entries, hasEntryLine text e = false → GoodEntry e) :
    ∀ t' n, patch_list_file text entries = some (t', n) →
      patch_list_file t' entries = some (t', 0) := by
  intro t' n h
  by_cases hm : entries.filter (fun e => !hasEntryLine text e) = []
  · rw [patch_list_file_noop text entries hm] at h
    have ht := congrArg Prod.fst (Option.some.inj h)
    simp only at ht
    subst ht
    exact patch_list_file_noop text entries hm
  · cases hidx : (splitNl text).findIdx? isNullLine with
    | none =>
      have hnone : patch_list_file text entries = none := by
        simp only [patch_list_file, if_neg hm, hidx]
      rw [hnone] at h
      exact absurd h (by simp)
    | some i =>
      rw [patch_list_file_insert text entries i hm hidx] at h
      have ht := congrArg Prod.fst (Option.some.inj h)
      simp only at ht
      subst ht
      set lines := splitNl text with hlines
      set missing := entries.filter (fun e => !hasEntryLine text e) with hmissing
      set ind := indentOf (lines.getD i []) with hind
      set nl := detect_newline text with hnl
      set ins := missing.map (fun e => entryLine ind e nl) with hins
      set lines' := lines.take i ++ ins ++ lines.drop i with hlines'
      have hwfl : WFLines lines := splitNl_wf text
      have hi : i < lines.length := findIdx?_lt_length _ _ i hidx
      have hnull_mem : lines.getD i [] ∈ lines := by
        rw [List.getD_eq_getElem?_getD, List.getElem?_eq_getElem hi]
        exact List.getElem_mem hi
      have hind_nl : '\n' ∉ ind :=
        indentOf_no_nl _ (wfLines_mem lines hwfl _ hnull_mem)
      have hins_wf : ∀ l ∈ ins, WFLine l ∧ l.getLast? = some '\n' := by
        intro l hl
        rw [hins] at hl
        rcases List.mem_map.mp hl with ⟨e, he, rfl⟩
        have hge : GoodEntry e := by
          have hmem := List.mem_filter.mp (hmissing ▸ he)
          refine hgood e hmem.1 ?_
          simpa using hmem.2
        exact entryLine_wf ind e nl hind_nl hge (detect_newline_cases text)
      have hwf' : WFLines lines' := insertedLines_wf lines hwfl i hi ins hins_wf
      have hsplit' : splitNl (joinLines lines') = lines' := splitNl_joinLines lines' hwf'
      have hall : ∀ e ∈ entries, hasEntryLine (joinLines lines') e = true := by
        intro e he
        unfold hasEntryLine
        rw [hsplit']
        rw [List.any_eq_true]
        cases hfe : hasEntryLine text e with
        | false =>
          refine ⟨entryLine ind e nl, ?_, ?_⟩
          · rw [hlines']
            refine List.mem_append_left _ (List.mem_append_right _ ?_)
            rw [hins]
            exact List.mem_map_of_mem _ (by
              rw [hmissing]
              exact List.mem_filter.mpr ⟨he, by simp [hfe]⟩)
          · exact entryLineMatch_entryLine e ind nl (hgood e he hfe)
              (indentOf_ws _) (hnl ▸ newline_ws text)
        | true =>
          unfold hasEntryLine at hfe
          rw [List.any_eq_true] at hfe
          rcases hfe with ⟨l, hl, hmatch⟩
          refine ⟨l, ?_, hmatch⟩
          rw [← hlines] at hl
          rw [← List.take_append_drop i lines] at hl
          rw [hlines']
          rcases List.mem_append.mp hl with h2 | h2
          · exact List.mem_append_left _ (List.mem_append_left _ h2)
          · exact List.mem_append_right _ h2
      have hm2 : entries.filter (fun e => !hasEntryLine (joinLines lines') e) = [] := by
        rw [List.filter_eq_nil_iff]
        intro e he
        simp [hall e he]
      exact patch_list_file_noop _ entries hm2

end ListFileLemmas

section ToggleLemmas

theorem stripPrefix?_append_split (G : Str) :
    ∀ (F rest r : Str), stripPrefix? G (F ++ rest) = some r →
      (∃ F2, F = G ++ F2 ∧ r = F2 ++ rest) ∨
      (∃ G2, G = F ++ G2 ∧ stripPrefix? G2 rest = some r) := by
  induction G with
  | nil =>
    intro F rest r h
    have h' : some (F ++ rest) = some r := h
    exact Or.inl ⟨F, rfl, (Option.some.inj h').symm⟩
  | cons g G ih =>
    intro F rest r h
    cases F with
    | nil => exact Or.inr ⟨g :: G, rfl, h⟩
    | cons f F' =>
      have hgf : g = f := by
        by_contra hne
        rw [show stripPrefix? (g :: G) ((f :: F') ++ rest) = none by
          simp [stripPrefix?, hne]] at h
        exact absurd h (by simp)
      subst hgf
      have h2 : stripPrefix? G (F' ++ rest) = some r := by
        rw [show stripPrefix? (g :: G) ((g :: F') ++ rest)
            = stripPrefix? G (F' ++ rest) by simp [stripPrefix?]] at h
        exact h
      rcases ih F' rest r h2 with ⟨F2, hF, hr⟩ | ⟨G2, hG, hs⟩
      · refine Or.inl ⟨F2, ?_, hr⟩
        rw [hF]
        rfl
      · refine Or.inr ⟨G2, ?_, hs⟩
        rw [hG]
        rfl

theorem dropWhile_defineKw (X : Str) :
    (defineKw ++ X).dropWhile isWS = defineKw ++ X := by
  show (('#' : Char) :: ((("define").data) ++ X)).dropWhile isWS = _
  rw [dropWhile_neg_head _ _ (by decide)]
  rfl

/-- The structure of a line accepted by a flag toggle, together with the
rewritten output. -/
theorem toggleLine_spec (F l l' : Str) (h : toggleLine F l = some l') :
    ∃ w0 w1 w2 rest,
      (∀ ch ∈ w0, isWS ch = true) ∧
      (∀ ch ∈ w1, isWS ch = true) ∧ w1 ≠ [] ∧
      (∀ ch ∈ w2, isWS ch = true) ∧ w2 ≠ [] ∧ boundaryAfterZero rest = true ∧
      l = w0 ++ defineKw ++ w1 ++ F ++ w2 ++ '0' :: rest ∧
      l' = w0 ++ defineKw ++ w1 ++ F ++ w2 ++ '1' :: rest := by
  unfold toggleLine at h
  cases h1 : stripPrefix? defineKw (l.dropWhile isWS) with
  | none => rw [h1] at h; exact absurd h (by simp)
  | some r1 =>
    rw [h1] at h
    dsimp only at h
    by_cases hw1 : r1.takeWhile isWS = []
    · rw [if_pos hw1] at h; exact absurd h (by simp)
    · rw [if_neg hw1] at h
      cases h2 : stripPrefix? F (r1.dropWhile isWS) with
      | none => rw [h2] at h; exact absurd h (by simp)
      | some r3 =>
        rw [h2] at h
        dsimp only at h
        by_cases hw2 : r3.takeWhile isWS = []
        · rw [if_pos hw2] at h; exact absurd h (by simp)
        · rw [if_neg hw2] at h
          cases h3 : r3.dropWhile isWS with
          | nil => rw [h3] at h; exact absurd h (by simp)
          | cons c0 rest =>
            rw [h3] at h
            dsimp only at h
            by_cases hcb : c0 = '0' ∧ boundaryAfterZero rest = true
            · rw [if_pos hcb] at h
              refine ⟨l.takeWhile isWS, r1.takeWhile isWS, r3.takeWhile isWS, rest,
                fun ch hc => List.mem_takeWhile_imp hc,
                fun ch hc => List.mem_takeWhile_imp hc, hw1,
                fun ch hc => List.mem_takeWhile_imp hc, hw2, hcb.2, ?_, ?_⟩
              · have e1 : l = l.takeWhile isWS ++ (defineKw ++ r1) := by
                  rw [← stripPrefix?_eq_some defineKw _ r1 h1]
                  exact (List.takeWhile_append_dropWhile isWS l).symm
                have e2 : r1 = r1.takeWhile isWS ++ (F ++ r3) := by
                  rw [← stripPrefix?_eq_some F _ r3 h2]
                  exact (List.takeWhile_append_dropWhile isWS r1).symm
                have e3 : r3 = r3.takeWhile isWS ++ ('0' :: rest) := by
                  rw [← hcb.1, ← h3]
                  exact (List.takeWhile_append_dropWhile isWS r3).symm
                have E : l = l.takeWhile isWS
                    ++ (defineKw ++ (r1.takeWhile isWS
                      ++ (F ++ (r3.takeWhile isWS ++ '0' :: rest)))) := by
                  conv_lhs => rw [e1]
                  conv_lhs => rw [e2]
                  conv_lhs => rw [e3]
                exact E.trans (by simp)
              · exact (Option.some.inj h).symm
            · rw [if_neg hcb] at h
              exact absurd h (by simp)

/-- A just-toggled line matches no whitespace-free flag pattern: the
second pass over it reports nothing. -/
theorem toggled_none (G : Str) (hG : GoodEntry G) (l' : Str) (h : ToggledForm l') :
    toggleLine G l' = none := by
  rcases h with ⟨F, w0, w1, w2, rest, hFne, hFws, hw0, hw1, hw1ne, hw2, hw2ne, hl⟩
  obtain ⟨f0, F', rfl⟩ := List.exists_cons_of_ne_nil hFne
  obtain ⟨v0, w2', rfl⟩ := List.exists_cons_of_ne_nil hw2ne
  subst hl
  unfold toggleLine
  have hre : w0 ++ defineKw ++ w1 ++ (f0 :: F') ++ (v0 :: w2') ++ '1' :: rest
      = w0 ++ (defineKw ++ (w1 ++ ((f0 :: F') ++ ((v0 :: w2') ++ '1' :: rest)))) := by
    simp
  rw [hre, dropWhile_ws_append w0 hw0, dropWhile_defineKw, stripPrefix?_self_append]
  dsimp only
  have hf0 : isWS f0 = false := hFws f0 (List.mem_cons_self f0 F')
  have htk : (w1 ++ ((f0 :: F') ++ ((v0 :: w2') ++ '1' :: rest))).takeWhile isWS = w1 := by
    rw [takeWhile_ws_append w1 hw1, List.cons_append, takeWhile_neg_head f0 _ hf0]
    simp
  have hdr : (w1 ++ ((f0 :: F') ++ ((v0 :: w2') ++ '1' :: rest))).dropWhile isWS
      = (f0 :: F') ++ ((v0 :: w2') ++ '1' :: rest) := by
    rw [dropWhile_ws_append w1 hw1, List.cons_append, dropWhile_neg_head f0 _ hf0]
  rw [htk, if_neg hw1ne, hdr]
  cases hstrip : stripPrefix? G ((f0 :: F') ++ ((v0 :: w2') ++ '1' :: rest)) with
  | none => rfl
  | some r3 =>
    dsimp only
    rcases stripPrefix?_append_split G (f0 :: F') _ r3 hstrip with
      ⟨F2, hF, hr⟩ | ⟨G2, hGeq, hs⟩
    · cases F2 with
      | nil =>
        rw [List.append_nil] at hF
        rw [hr]
        have hv0 : isWS v0 = true := hw2 v0 (List.mem_cons_self v0 w2')
        have htk2 : (([] : Str) ++ ((v0 :: w2') ++ '1' :: rest)).takeWhile isWS
            = v0 :: w2' := by
          rw [List.nil_append, takeWhile_ws_append (v0 :: w2') hw2,
            takeWhile_neg_head '1' _ (by decide)]
          simp
        have hdr2 : (([] : Str) ++ ((v0 :: w2') ++ '1' :: rest)).dropWhile isWS
            = '1' :: rest := by
          rw [List.nil_append, dropWhile_ws_append (v0 :: w2') hw2,
            dropWhile_neg_head '1' _ (by decide)]
        rw [htk2, if_neg (by simp), hdr2]
        dsimp only
        rw [if_neg (by
          intro hcontra
          exact absurd hcontra.1 (by decide))]
      | cons c2 F2' =>
        rw [hr]
        have hc2 : isWS c2 = false := by
          refine hFws c2 ?_
          rw [hF]
          exact List.mem_append_right _ (List.mem_cons_self c2 F2')
        rw [show ((c2 :: F2') ++ ((v0 :: w2') ++ '1' :: rest)).takeWhile isWS = []
          from takeWhile_neg_head c2 _ hc2]
        rw [if_pos rfl]
    · cases G2 with
      | nil =>
        rw [List.append_nil] at hGeq
        have hr3 : r3 = (v0 :: w2') ++ '1' :: rest := by
          have h' : some ((v0 :: w2') ++ '1' :: rest) = some r3 := hs
          exact (Option.some.inj h').symm
        rw [hr3]
        have htk2 : ((v0 :: w2') ++ '1' :: rest).takeWhile isWS = v0 :: w2' := by
          rw [takeWhile_ws_append (v0 :: w2') hw2, takeWhile_neg_head '1' _ (by decide)]
          simp
        have hdr2 : ((v0 :: w2') ++ '1' :: rest).dropWhile isWS = '1' :: rest := by
          rw [dropWhile_ws_append (v0 :: w2') hw2, dropWhile_neg_head '1' _ (by decide)]
        rw [htk2, if_neg (by simp), hdr2]
        dsimp only
        rw [if_neg (by
          intro hcontra
          exact absurd hcontra.1 (by decide))]
      | cons g2 G2' =>
        have hg2 : isWS g2 = false := by
          refine (hG.2) g2 ?_
          rw [hGeq]
          exact List.mem_append_right _ (List.mem_cons_self g2 G2')
        have hv0 : isWS v0 = true := hw2 v0 (List.mem_cons_self v0 w2')
        have hne : g2 ≠ v0 := by
          intro hcontra
          rw [hcontra, hv0] at hg2
          exact absurd hg2 (by simp)
        rw [show stripPrefix? (g2 :: G2') ((v0 :: w2') ++ '1' :: rest) = none by
          simp [stripPrefix?, hne]] at hs
        exact absurd hs (by simp)

theorem toggleLine_toggledForm (F l l' : Str) (hF : GoodEntry F)
    (h : toggleLine F l = some l') : ToggledForm l' := by
  rcases toggleLine_spec F l l' h with
    ⟨w0, w1, w2, rest, hw0, hw1, hw1ne, hw2, hw2ne, _, _, hl'⟩
  exact ⟨F, w0, w1, w2, rest, hF.1, hF.2, hw0, hw1, hw1ne, hw2, hw2ne, hl'⟩

theorem ccLineFold_of_toggled (flags : List Str) (hf : ∀ F ∈ flags, GoodEntry F)
    (x : Str) (hx : ToggledForm x) : ccLineFold flags x = x := by
  induction flags with
  | nil => rfl
  | cons F flags ih =>
    show ccLineFold flags ((toggleLine F x).getD x) = x
    rw [toggled_none F (hf F (List.mem_cons_self F flags)) x hx]
    exact ih (fun G hG => hf G (List.mem_cons_of_mem F hG))

theorem ccLineFold_cases (flags : List Str) :
    (∀ F ∈ flags, GoodEntry F) → ∀ l,
      (ccLineFold flags l = l ∧ ∀ F ∈ flags, toggleLine F l = none) ∨
      ToggledForm (ccLineFold flags l) := by
  induction flags with
  | nil =>
    intro _ l
    exact Or.inl ⟨rfl, by simp⟩
  | cons F flags ih =>
    intro hf l
    have hF := hf F (List.mem_cons_self F flags)
    have hf' : ∀ G ∈ flags, GoodEntry G := fun G hG => hf G (List.mem_cons_of_mem F hG)
    cases htog : toggleLine F l with
    | none =>
      have hstep : ccLineFold (F :: flags) l = ccLineFold flags l := by
        show ccLineFold flags ((toggleLine F l).getD l) = _
        rw [htog]
        rfl
      rcases ih hf' l with ⟨heq, hnone⟩ | htf
      · refine Or.inl ⟨by rw [hstep, heq], ?_⟩
        intro G hG
        rcases List.mem_cons.mp hG with rfl | hG'
        · exact htog
        · exact hnone G hG'
      · exact Or.inr (hstep ▸ htf)
    | some l1 =>
      have htf1 : ToggledForm l1 := toggleLine_toggledForm F l l1 hF htog
      have hstep : ccLineFold (F :: flags) l = ccLineFold flags l1 := by
        show ccLineFold flags ((toggleLine F l).getD l) = _
        rw [htog]
        rfl
      rw [hstep, ccLineFold_of_toggled flags hf' l1 htf1]
      exact Or.inr htf1

theorem ccLineFold_untouched (flags : List Str) (hf : ∀ F ∈ flags, GoodEntry F)
    (l : Str) : ∀ F ∈ flags, toggleLine F (ccLineFold flags l) = none := by
  rcases ccLineFold_cases flags hf l with ⟨heq, hnone⟩ | htf
  · rw [heq]
    exact hnone
  · intro F hF
    exact toggled_none F (hf F hF) _ htf

theorem toggleLine_decomp (F l l' : Str) (h : toggleLine F l = some l') :
    ∃ A rest, l = A ++ '0' :: rest ∧ l' = A ++ '1' :: rest := by
  rcases toggleLine_spec F l l' h with ⟨w0, w1, w2, rest, _, _, _, _, _, _, hl, hl'⟩
  exact ⟨w0 ++ defineKw ++ w1 ++ F ++ w2, rest, hl, hl'⟩

theorem toggleGetD_wf (F l : Str) (hwf : WFLine l) :
    WFLine ((toggleLine F l).getD l) := by
  cases h : toggleLine F l with
  | none => exact hwf
  | some l' =>
    rcases toggleLine_decomp F l l' h with ⟨A, rest, hl, hl'⟩
    show WFLine l'
    constructor
    · rw [hl']
      simp
    · intro c hc hceq
      subst hceq
      rw [hl'] at hc
      rw [hl] at hwf
      cases rest with
      | nil =>
        rw [List.dropLast_concat] at hc
        exact hwf.2 '\n' (by rw [List.dropLast_concat]; exact hc) rfl
      | cons r rs =>
        rw [List.dropLast_append_of_ne_nil _ (by simp)] at hc
        rcases List.mem_append.mp hc with h1 | h1
        · refine hwf.2 '\n' ?_ rfl
          rw [List.dropLast_append_of_ne_nil _ (by simp)]
          exact List.mem_append_left _ h1
        · rw [List.dropLast_cons₂] at h1
          rcases List.mem_cons.mp h1 with h2 | h2
          · exact absurd h2 (by decide)
          · refine hwf.2 '\n' ?_ rfl
            rw [List.dropLast_append_of_ne_nil _ (by simp), List.dropLast_cons₂]
            exact List.mem_append_right _ (List.mem_cons_of_mem _ h2)

theorem toggleGetD_ends (F l : Str) (hend : l.getLast? = some '\n') :
    ((toggleLine F l).getD l).getLast? = some '\n' := by
  cases h : toggleLine F l with
  | none => exact hend
  | some l' =>
    rcases toggleLine_decomp F l l' h with ⟨A, rest, hl, hl'⟩
    show l'.getLast? = some '\n'
    cases rest with
    | nil =>
      rw [hl, List.getLast?_concat] at hend
      exact absurd (Option.some.inj hend) (by decide)
    | cons r rs =>
      rw [hl']
      rw [hl] at hend
      rw [List.getLast?_append] at hend ⊢
      rw [List.getLast?_cons_cons] at hend ⊢
      exact hend

theorem wfLines_map (g : Str → Str)
    (hg1 : ∀ l, WFLine l → WFLine (g l))
    (hg2 : ∀ l, l.getLast? = some '\n' → (g l).getLast? = some '\n') :
    ∀ ls, WFLines ls → WFLines (ls.map g) := by
  intro ls
  induction ls with
  | nil => intro _; exact trivial
  | cons l ls ih =>
    intro h
    rcases (wfLines_cons l ls).mp h with ⟨hl, hrest⟩
    rw [List.map_cons]
    refine (wfLines_cons _ _).mpr ⟨hg1 l hl, ?_⟩
    rcases hrest with hnil | ⟨hend, hwf⟩
    · subst hnil
      exact Or.inl rfl
    · by_cases hmapnil : ls.map g = []
      · exact Or.inl hmapnil
      · exact Or.inr ⟨hg2 l hend, ih hwf⟩

theorem toggleFlagText_fst (F text : Str) :
    (toggleFlagText F text).1
      = joinLines ((splitNl text).map (fun l => (toggleLine F l).getD l)) := rfl

theorem splitNl_toggleFlagText (F text : Str) :
    splitNl (toggleFlagText F text).1
      = (splitNl text).map (fun l => (toggleLine F l).getD l) := by
  rw [toggleFlagText_fst]
  exact splitNl_joinLines _
    (wfLines_map _ (toggleGetD_wf F) (toggleGetD_ends F) _ (splitNl_wf text))

theorem ccLineFold_wf (flags : List Str) :
    ∀ l, WFLine l → WFLine (ccLineFold flags l) := by
  induction flags with
  | nil => intro l h; exact h
  | cons F flags ih =>
    intro l h
    show WFLine (ccLineFold flags ((toggleLine F l).getD l))
    exact ih _ (toggleGetD_wf F l h)

theorem ccLineFold_ends (flags : List Str) :
    ∀ l, l.getLast? = some '\n' →
      (ccLineFold flags l).getLast? = some '\n' := by
  induction flags with
  | nil => intro l h; exact h
  | cons F flags ih =>
    intro l h
    show ((ccLineFold flags ((toggleLine F l).getD l))).getLast? = some '\n'
    exact ih _ (toggleGetD_ends F l h)

theorem patchFold_fst (flags : List Str) :
    ∀ (text : Str) (n0 : Nat),
      (flags.foldl (fun acc flag =>
        let r := toggleFlagText flag acc.1
        (r.1, acc.2 + r.2)) (text, n0)).1
      = joinLines ((splitNl text).map (ccLineFold flags)) := by
  induction flags with
  | nil =>
    intro text n0
    show text = _
    have hmap : (splitNl text).map (ccLineFold []) = splitNl text := by
      have h1 : ∀ l ∈ splitNl text, ccLineFold [] l = id l := fun l _ => rfl
      rw [List.map_congr_left h1, List.map_id]
    rw [hmap, joinLines_splitNl]
  | cons F flags ih =>
    intro text n0
    rw [List.foldl_cons]
    have hstep := ih (toggleFlagText F text).1 (n0 + (toggleFlagText F text).2)
    refine Eq.trans hstep ?_
    rw [splitNl_toggleFlagText, List.map_map]
    rfl

theorem patchFold_zero (flags : List Str) :
    ∀ (text2 : Str),
      (∀ l ∈ splitNl text2, ∀ F ∈ flags, toggleLine F l = none) →
      flags.foldl (fun acc flag =>
        let r := toggleFlagText flag acc.1
        (r.1, acc.2 + r.2)) (text2, 0) = (text2, 0) := by
  induction flags with
  | nil =>
    intro text2 _
    rfl
  | cons F flags ih =>
    intro text2 hall
    rw [List.foldl_cons]
    have hmap : (splitNl text2).map (fun l => (toggleLine F l).getD l) = splitNl text2 := by
      have h1 : ∀ l ∈ splitNl text2, (toggleLine F l).getD l = id l := by
        intro l hl
        rw [hall l hl F (List.mem_cons_self F flags)]
        rfl
      rw [List.map_congr_left h1, List.map_id]
    have hfst : (toggleFlagText F text2).1 = text2 := by
      rw [toggleFlagText_fst, hmap, joinLines_splitNl]
    have hsnd : (toggleFlagText F text2).2 = 0 := by
      show ((splitNl text2).filter (fun l => (toggleLine F l).isSome)).length = 0
      rw [List.length_eq_zero, List.filter_eq_nil_iff]
      intro l hl
      rw [hall l hl F (List.mem_cons_self F flags)]
      simp
    have hstep : ((toggleFlagText F text2).1, 0 + (toggleFlagText F text2).2)
        = ((text2, 0) : Str × Nat) := by
      rw [hfst, hsnd]
    refine Eq.trans ?_ (ih text2 (fun l hl G hG => hall l hl G (List.mem_cons_of_mem F hG)))
    show flags.foldl _ ((toggleFlagText F text2).1, 0 + (toggleFlagText F text2).2)
        = flags.foldl _ (text2, 0)
    rw [hstep]

/-- The flag-toggling pass is idempotent: a second pass returns the same
text and zero replacements. -/
theorem patch_config_components_idem (text : Str) :
    patch_config_components (patch_config_components text).1
      = ((patch_config_components text).1, 0) := by
  have hgood : ∀ F ∈ CONFIG_FLAGS, GoodEntry F := by decide
  have h1 := patchFold_fst CONFIG_FLAGS text 0
  have hwf2 : WFLines ((splitNl text).map (ccLineFold CONFIG_FLAGS)) :=
    wfLines_map _ (ccLineFold_wf CONFIG_FLAGS) (ccLineFold_ends CONFIG_FLAGS)
      _ (splitNl_wf text)
  have hsplit2 : splitNl (patch_config_components text).1
      = (splitNl text).map (ccLineFold CONFIG_FLAGS) := by
    show splitNl (CONFIG_FLAGS.foldl _ (text, 0)).1 = _
    rw [h1]
    exact splitNl_joinLines _ hwf2
  have huntouched : ∀ l ∈ splitNl (patch_config_components text).1,
      ∀ F ∈ CONFIG_FLAGS, toggleLine F l = none := by
    rw [hsplit2]
    intro l hl F hF
    rcases List.mem_map.mp hl with ⟨l0, _, rfl⟩
    exact ccLineFold_untouched CONFIG_FLAGS hgood l0 F hF
  exact patchFold_zero CONFIG_FLAGS (patch_config_components text).1 huntouched

end ToggleLemmas

section FsLemmas

theorem lookup_write (fs : FS) (p c q : Str) :
    (fs.write p c).lookup q = if q = p then some c else fs.lookup q := by
  by_cases h : q = p
  · rw [if_pos h]
    subst h
    show (List.find? (fun e => e.1 == q) ((q, c) :: fs.files)).map (fun e => e.2) = some c
    rw [List.find?_cons_of_pos _ (by simp)]
    rfl
  · rw [if_neg h]
    show (List.find? (fun e => e.1 == q) ((p, c) :: fs.files)).map (fun e => e.2)
      = FS.lookup fs q
    rw [List.find?_cons_of_neg _ (by
      simp only [beq_iff_eq]
      exact fun hh => h hh.symm)]
    rfl

theorem create_wrapper_dry (ws : List (Str × Str)) :
    ∀ fs, create_wrapper_files ws true fs = fs := by
  induction ws with
  | nil => intro fs; rfl
  | cons w ws ih => intro fs; exact ih fs

theorem patchGni_check_fs (text : Str) (fs : FS) :
    (patch_ffmpeg_generated_gni text true fs).2 = fs := by
  simp only [patch_ffmpeg_generated_gni]
  split
  · exact create_wrapper_dry _ fs
  · exact create_wrapper_dry _ fs

theorem apply_patch_check (path : Str) (patcher : Str → Option (Str × Nat)) (fs : FS) :
    ∀ r, apply_patch path patcher true fs = some r → r.2 = fs := by
  intro r h
  unfold apply_patch at h
  cases h0 : fs.lookup path with
  | none => rw [h0] at h; exact absurd h (by simp)
  | some original =>
    rw [h0] at h
    dsimp only at h
    cases h1 : patcher original with
    | none => rw [h1] at h; exact absurd h (by simp)
    | some pr =>
      rw [h1] at h
      dsimp only at h
      rw [if_neg (by simp)] at h
      have := Option.some.inj h
      rw [← this]

theorem fileStep_check (os a path : Str) (patcher : Str → Option (Str × Nat))
    (bump : MState → Nat → MState) (st : MState) :
    exceptFs (fileStep true os a path patcher bump st) = st.fs := by
  unfold fileStep
  split
  · split
    · rfl
    next r heq =>
      show r.2 = st.fs
      exact apply_patch_check path patcher st.fs r heq
  · rfl

theorem perTarget_check (st : MState) (os a : Str) :
    exceptFs (perTarget true st os a) = st.fs := by
  unfold perTarget
  dsimp only
  split
  · rfl
  · split
    next e heq =>
      have h := congrArg exceptFs heq
      rw [fileStep_check] at h
      exact h.symm
    next s1 heq1 =>
      have h1 : s1.fs = st.fs := by
        have h := congrArg exceptFs heq1
        rw [fileStep_check] at h
        exact h.symm
      split
      next e heq =>
        have h := congrArg exceptFs heq
        rw [fileStep_check] at h
        exact h.symm.trans h1
      next s2 heq2 =>
        have h2 : s2.fs = st.fs := by
          have h := congrArg exceptFs heq2
          rw [fileStep_check] at h
          exact (h.symm.trans h1)
        split
        next e heq =>
          have h := congrArg exceptFs heq
          rw [fileStep_check] at h
          exact h.symm.trans h2
        next s3 heq3 =>
          have h3 : s3.fs = st.fs := by
            have h := congrArg exceptFs heq3
            rw [fileStep_check] at h
            exact h.symm.trans h2
          rw [fileStep_check]
          exact h3

theorem ffmpegLoop_check (targets : List (Str × Str)) :
    ∀ st, exceptFs (ffmpegLoop true targets st) = st.fs := by
  induction targets with
  | nil => intro st; rfl
  | cons t rest ih =>
    intro st
    simp only [ffmpegLoop]
    cases hp : perTarget true st t.1 t.2 with
    | error e =>
      have h := congrArg exceptFs hp
      rw [perTarget_check] at h
      exact h.symm
    | ok st' =>
      have h := congrArg exceptFs hp
      rw [perTarget_check] at h
      show exceptFs (ffmpegLoop true rest st') = st.fs
      rw [ih st']
      exact h.symm

theorem buildGn_check_fs (fs : FS) : (patch_ffmpeg_build_gn true fs).2 = fs := by
  simp only [patch_ffmpeg_build_gn]
  split
  · rfl
  · split
    · rfl
    · split
      · rfl
      · split
        · rfl
        · split
          · rfl
          · split
            · rfl
            · rfl

theorem ffmpegMain_check_fs (fs : FS) : (ffmpegMain true fs).2 = fs := by
  simp only [ffmpegMain]
  split
  · rfl
  · split
    · rfl
    · split
      next st heq =>
        have h := congrArg exceptFs heq
        rw [ffmpegLoop_check] at h
        exact h.symm
      next st heq =>
        have h : st.fs = fs := by
          have h0 := congrArg exceptFs heq
          rw [ffmpegLoop_check] at h0
          exact h0.symm
        split
        · exact h
        next gni_text heq2 =>
          dsimp only
          rw [show ((patch_ffmpeg_generated_gni gni_text true st.fs).1.1 != gni_text
              && !true) = false from by simp]
          rw [if_neg Bool.false_ne_true]
          rw [buildGn_check_fs, patchGni_check_fs]
          exact h

theorem chromiumMain_dry_fs (targets : List (Str × (Str → Option (Str × List Str))))
    (fs : FS) : (chromiumMain true targets fs).2 = fs := by
  simp only [chromiumMain]
  split
  · rfl
  · split
    · rfl
    · split
      · rfl
      · split
        · rfl
        next hdry => exact absurd trivial hdry

theorem append_orig_ne_self (p : Str) : p ++ (".orig").data ≠ p := by
  intro h
  have := congrArg List.length h
  simp at this

theorem backup_once_lookup (p q : Str) (fs : FS) (hq : q ≠ p ++ (".orig").data) :
    (backup_once p fs).lookup q = fs.lookup q := by
  unfold backup_once
  dsimp only
  split
  · rfl
  · split
    · rw [lookup_write, if_neg hq]
    · rfl

theorem backup_once_exists (p : Str) (fs : FS)
    (h : fs.isFile (p ++ (".orig").data) = true) : backup_once p fs = fs := by
  unfold backup_once
  dsimp only
  rw [if_pos h]

theorem backup_once_absent (p c : Str) (fs : FS)
    (hb : fs.lookup (p ++ (".orig").data) = none)
    (hc : fs.lookup p = some c) :
    backup_once p fs = fs.write (p ++ (".orig").data) c := by
  unfold backup_once
  dsimp only
  rw [if_neg (by rw [FS.isFile, hb]; simp), hc]

theorem applyEdits_cons (e : MEdit) (rest : List MEdit) (fs : FS) :
    applyEdits (e :: rest) fs =
      applyEdits rest (if e.original = e.patched then fs
        else (backup_once e.path fs).write e.path e.patched) := rfl

theorem applyEdits_lookup_preserved (edits : List MEdit) (q : Str) :
    ∀ fs, (∀ f ∈ edits, f.path ≠ q ∧ f.path ++ (".orig").data ≠ q) →
    (applyEdits edits fs).lookup q = fs.lookup q := by
  induction edits with
  | nil => intro fs _; rfl
  | cons f rest ih =>
    intro fs h
    rw [applyEdits_cons]
    have hf := h f (List.mem_cons_self f rest)
    by_cases hc : f.original = f.patched
    · rw [if_pos hc]
      exact ih fs (fun g hg => h g (List.mem_cons_of_mem f hg))
    · rw [if_neg hc]
      rw [ih _ (fun g hg => h g (List.mem_cons_of_mem f hg))]
      rw [lookup_write, if_neg (fun hh => hf.1 hh.symm)]
      exact backup_once_lookup f.path q fs (fun hh => hf.2 hh.symm)

theorem applyEdits_unchanged (edits : List MEdit) :
    ∀ fs, (∀ e ∈ edits, e.original = e.patched) → applyEdits edits fs = fs := by
  induction edits with
  | nil => intro fs _; rfl
  | cons f rest ih =>
    intro fs h
    rw [applyEdits_cons, if_pos (h f (List.mem_cons_self f rest))]
    exact ih fs (fun g hg => h g (List.mem_cons_of_mem f hg))

theorem applyEdits_backup_preserved (edits : List MEdit) (p b : Str) :
    ∀ fs, (∀ e ∈ edits, e.path ≠ p ++ (".orig").data) →
    fs.lookup (p ++ (".orig").data) = some b →
    (applyEdits edits fs).lookup (p ++ (".orig").data) = some b := by
  induction edits with
  | nil => intro fs _ hb; exact hb
  | cons f rest ih =>
    intro fs h hb
    rw [applyEdits_cons]
    have hrest : ∀ g ∈ rest, g.path ≠ p ++ (".orig").data :=
      fun g hg => h g (List.mem_cons_of_mem f hg)
    by_cases hc : f.original = f.patched
    · rw [if_pos hc]
      exact ih fs hrest hb
    · rw [if_neg hc]
      apply ih _ hrest
      rw [lookup_write, if_neg (fun hh => h f (List.mem_cons_self f rest) hh.symm)]
      by_cases hfp : f.path = p
      · subst hfp
        rw [backup_once_exists f.path fs (by rw [FS.isFile, hb]; rfl)]
        exact hb
      · rw [backup_once_lookup f.path (p ++ (".orig").data) fs
          (fun hh => hfp (List.append_cancel_right hh.symm))]
        exact hb

theorem applyEdits_backup_created (edits : List MEdit) (e : MEdit) :
    ∀ fs, (edits.map (fun x => x.path)).Nodup →
    (∀ f ∈ edits, ¬ ((".orig").data : Str) <:+ f.path) →
    e ∈ edits → e.original ≠ e.patched →
    fs.lookup (e.path ++ (".orig").data) = none →
    fs.lookup e.path = some e.original →
    (applyEdits edits fs).lookup (e.path ++ (".orig").data) = some e.original ∧
    (applyEdits edits fs).lookup e.path = some e.patched := by
  induction edits with
  | nil =>
    intro fs _ _ he
    exact absurd he (List.not_mem_nil e)
  | cons f rest ih =>
    intro fs hnd hno he hch hb horig
    rw [applyEdits_cons]
    have hnd' : (rest.map (fun x => x.path)).Nodup := (List.nodup_cons.mp hnd).2
    have hno' : ∀ g ∈ rest, ¬ ((".orig").data : Str) <:+ g.path :=
      fun g hg => hno g (List.mem_cons_of_mem f hg)
    rcases List.mem_cons.mp he with rfl | he'
    · rw [if_neg hch]
      rw [backup_once_absent e.path e.original fs hb horig]
      have hnotin : e.path ∉ rest.map (fun x => x.path) := (List.nodup_cons.mp hnd).1
      constructor
      · rw [applyEdits_lookup_preserved rest _ _ (fun g hg => ⟨?_, ?_⟩)]
        · rw [lookup_write, if_neg (fun hh => append_orig_ne_self e.path hh),
            lookup_write, if_pos rfl]
        · intro hh
          exact hno' g hg (hh.symm ▸ List.suffix_append e.path (".orig").data)
        · intro hh
          exact hnotin (List.mem_map.mpr
            ⟨g, hg, List.append_cancel_right hh⟩)
      · rw [applyEdits_lookup_preserved rest _ _ (fun g hg => ⟨?_, ?_⟩)]
        · rw [lookup_write, if_pos rfl]
        · intro hh
          exact hnotin (List.mem_map.mpr ⟨g, hg, hh⟩)
        · intro hh
          exact hno e (List.mem_cons_self e rest)
            (hh ▸ List.suffix_append g.path (".orig").data)
    · have hfe : f.path ≠ e.path := by
        intro hh
        apply (List.nodup_cons.mp hnd).1
        show f.path ∈ List.map (fun x => x.path) rest
        rw [hh]
        exact List.mem_map.mpr ⟨e, he', rfl⟩
      by_cases hc : f.original = f.patched
      · rw [if_pos hc]
        exact ih fs hnd' hno' he' hch hb horig
      · rw [if_neg hc]
        apply ih _ hnd' hno' he' hch
        · rw [lookup_write, if_neg
            (fun (hh : e.path ++ (".orig").data = f.path) =>
              hno f (List.mem_cons_self f rest)
                (hh ▸ List.suffix_append e.path (".orig").data))]
          rw [backup_once_lookup f.path (e.path ++ (".orig").data) fs
            (fun hh => hfe (List.append_cancel_right hh.symm))]
          exact hb
        · rw [lookup_write, if_neg (fun hh => hfe hh.symm)]
          rw [backup_once_lookup f.path e.path fs
            (fun (hh : e.path = f.path ++ (".orig").data) =>
              hno e he (hh.symm ▸ List.suffix_append f.path (".orig").data))]
          exact horig

theorem apply_patch_writes (path : Str) (patcher : Str → Option (Str × Nat))
    (check : Bool) (fs : FS) (r : (Nat × Bool) × FS) :
    apply_patch path patcher check fs = some r →
    (r.1.2 = false → r.2 = fs) ∧
    (∀ q, q ≠ path → r.2.lookup q = fs.lookup q) := by
  intro h
  unfold apply_patch at h
  cases h0 : fs.lookup path with
  | none => rw [h0] at h; exact absurd h (by simp)
  | some original =>
    rw [h0] at h
    dsimp only at h
    cases h1 : patcher original with
    | none => rw [h1] at h; exact absurd h (by simp)
    | some pr =>
      rw [h1] at h
      dsimp only at h
      by_cases hc : (pr.1 != original && !check) = true
      · rw [if_pos hc] at h
        have hr := Option.some.inj h
        rw [← hr]
        constructor
        · intro hfalse
          have hf2 : (pr.1 != original) = false := hfalse
          have := (Bool.and_eq_true _ _).mp hc
          rw [hf2] at this
          exact absurd this.1 Bool.false_ne_true
        · intro q hq
          rw [lookup_write, if_neg hq]
      · rw [if_neg hc] at h
        have hr := Option.some.inj h
        rw [← hr]
        exact ⟨fun _ => rfl, fun q _ => rfl⟩

end FsLemmas

/-- Claim C4: check/dry-run mode never changes any file content and never
creates wrapper files, for every input filesystem state: the whole ffmpeg
config run with `--check`, the whole chromium media run with `--dry-run`,
and the wrapper-creation step with check mode on all return the
filesystem exactly as given. -/
theorem claim4_check_mode_purity :
    (∀ fs : FS, (ffmpegMain true fs).2 = fs) ∧
    (∀ (targets : List (Str × (Str → Option (Str × List Str)))) (fs : FS),
      (chromiumMain true targets fs).2 = fs) ∧
    (∀ (ws : List (Str × Str)) (fs : FS), create_wrapper_files ws true fs = fs) :=
  ⟨ffmpegMain_check_fs, chromiumMain_dry_fs, create_wrapper_dry⟩

set_option maxRecDepth 16384 in
/-- Claim C1 counterexample: on a text ending in three newlines the
managed-GNI-block rebuild is not idempotent: the second application
(same catalog, same filesystem) returns a different text (the trailing
newline run is shortened to two) and reports the same nonzero added
count instead of zero. -/
theorem claim1_counterexample :
    (patch_ffmpeg_generated_gni
        (patch_ffmpeg_generated_gni c1text false c1fs).1.1 false c1fs).1.1
      ≠ (patch_ffmpeg_generated_gni c1text false c1fs).1.1 ∧
    (patch_ffmpeg_generated_gni
        (patch_ffmpeg_generated_gni c1text false c1fs).1.1 false c1fs).1.2.1
      ≠ 0 := by
  refine ⟨by decide, by decide⟩

/-- Claim C2 counterexample: running the ffmpeg patcher on `c2fs` hits a
structural error (missing-entry `codec_list.c` with no `NULL` terminator
line) and aborts with an uncaught exception, yet `config_components.h`
of the same target has already been rewritten: the failing run *did*
write a file, because the script writes each file as it processes it
rather than computing all content before any write. -/
theorem claim2_counterexample :
    (ffmpegMain false c2fs).1 = none ∧
    (ffmpegMain false c2fs).2.lookup c2cc ≠ c2fs.lookup c2cc := by
  constructor
  · rfl
  · decide

/-- Claim C2 (amended): on a structural error the run terminates
unsuccessfully.  The chromium script computes every file's new content
before writing anything, so a structural error (a raising patcher)
makes it exit 1 with the filesystem untouched.  The ffmpeg script lets
the error propagate as an uncaught exception (non-zero exit, modelled
as exit-code `none`), but files patched earlier in the run may already
have been written. -/
theorem claim2_amended :
    (∀ (dry : Bool) (targets : List (Str × (Str → Option (Str × List Str)))) (fs : FS),
       targets.any (fun t => !fs.isFile t.1) = false →
       chromium_compute fs targets = none →
       chromiumMain dry targets fs = (some 1, fs)) ∧
    (∀ (check : Bool) (fs : FS),
       fs.isDir chromeConfigRoot = true →
       fs.isFile ffmpegGeneratedGni = true →
       exceptIsError (ffmpegLoop check TARGETS ⟨[], 0, 0, 0, 0, 0, fs⟩) = true →
       (ffmpegMain check fs).1 = none) := by
  constructor
  · intro dry targets fs h1 h2
    unfold chromiumMain
    rw [if_neg (by simp [h1]), h2]
  · intro check fs h1 h2 h3
    unfold ffmpegMain
    rw [if_neg (by simp [h1]), if_neg (by simp [h2])]
    cases hl : ffmpegLoop check TARGETS ⟨[], 0, 0, 0, 0, 0, fs⟩ with
    | error st => rfl
    | ok st =>
      rw [hl] at h3
      simp only [exceptIsError] at h3
      exact absurd h3 Bool.false_ne_true

/-- Witness for the amended C2 theorem: a chromium run whose only
patcher raises exits 1 and leaves the filesystem untouched; the ffmpeg
run on `c2fs` terminates with an uncaught exception. -/
theorem claim2_witness :
    chromiumMain true c2targets c2wfs = (some 1, c2wfs) ∧
    (ffmpegMain false c2fs).1 = none := by
  constructor
  · exact claim2_amended.1 true c2targets c2wfs (by rfl) (by rfl)
  · exact claim2_amended.2 false c2fs (by rfl) (by rfl) (by rfl)

/-- Claim C5 counterexample: a successful ffmpeg run on `c5fs` rewrites
`config_components.h` but creates no `.orig` backup of it: the ffmpeg
config patcher never backs up the files it writes. -/
theorem claim5_counterexample :
    (ffmpegMain false c5fs).1 = some 0 ∧
    (ffmpegMain false c5fs).2.lookup c2cc ≠ c5fs.lookup c2cc ∧
    (ffmpegMain false c5fs).2.lookup (c2cc ++ (".orig").data) = none := by
  refine ⟨rfl, by decide, by decide⟩

/-- Claim C5 (amended): the `.orig` backup discipline belongs to the
chromium media patcher alone.  There, an existing backup is never
overwritten, a changed file gets a backup of its original before its
first write, and unchanged files are not written at all.  The ffmpeg
config patcher writes a file only when the patched text differs
byte-for-byte, but it creates no backups: apart from the patched path
itself it touches nothing. -/
theorem claim5_amended :
    (∀ (path : Str) (patcher : Str → Option (Str × Nat)) (check : Bool) (fs : FS)
       (r : (Nat × Bool) × FS), apply_patch path patcher check fs = some r →
       (r.1.2 = false → r.2 = fs) ∧
       (∀ q, q ≠ path → r.2.lookup q = fs.lookup q)) ∧
    (∀ (edits : List MEdit) (fs : FS) (p b : Str),
       (∀ e ∈ edits, e.path ≠ p ++ (".orig").data) →
       fs.lookup (p ++ (".orig").data) = some b →
       (applyEdits edits fs).lookup (p ++ (".orig").data) = some b) ∧
    (∀ (edits : List MEdit) (e : MEdit) (fs : FS),
       (edits.map (fun x => x.path)).Nodup →
       (∀ f ∈ edits, ¬ ((".orig").data : Str) <:+ f.path) →
       e ∈ edits → e.original ≠ e.patched →
       fs.lookup (e.path ++ (".orig").data) = none →
       fs.lookup e.path = some e.original →
       (applyEdits edits fs).lookup (e.path ++ (".orig").data) = some e.original ∧
       (applyEdits edits fs).lookup e.path = some e.patched) ∧
    (∀ (edits : List MEdit) (fs : FS),
       (∀ e ∈ edits, e.original = e.patched) → applyEdits edits fs = fs) :=
  ⟨apply_patch_writes,
   fun edits fs p b => applyEdits_backup_preserved edits p b fs,
   fun edits e fs => applyEdits_backup_created edits e fs,
   fun edits fs => applyEdits_unchanged edits fs⟩

/-- Witness for the amended C5 theorem: an unchanged `apply_patch`
returns the filesystem as is; an existing backup survives an edit of
its file; a changed edit creates the backup and writes the new text;
all-unchanged edit lists write nothing. -/
theorem claim5_witness :
    ((((0, false), c5fsA) : (Nat × Bool) × FS).2 = c5fsA) ∧
    ((applyEdits [c5edit] c5fsB).lookup ((("f").data : Str) ++ (".orig").data)
       = some (("b").data)) ∧
    ((applyEdits [c5edit] c5fsA).lookup (c5edit.path ++ (".orig").data)
       = some c5edit.original ∧
     (applyEdits [c5edit] c5fsA).lookup c5edit.path = some c5edit.patched) ∧
    (applyEdits [c5editId] c5fsA = c5fsA) := by
  refine ⟨?_, ?_, ?_, ?_⟩
  · exact (claim5_amended.1 (("f").data) (fun t => some (t, 0)) false c5fsA
      ((0, false), c5fsA) rfl).1 rfl
  · exact claim5_amended.2.1 [c5edit] c5fsB (("f").data) (("b").data)
      (by decide) (by rfl)
  · exact claim5_amended.2.2.1 [c5edit] c5edit c5fsA (by decide) (by decide)
      (List.mem_cons_self c5edit []) (by decide) (by rfl) (by rfl)
  · exact claim5_amended.2.2.2 [c5editId] c5fsA (by decide)


/-- Claim C8: for required entries `[a, b, c]` with only `b` present as
an exact entry line, the list mutator inserts exactly `a` and `c` (in
that order) as new lines immediately before the first `NULL` terminator
line, reusing the terminator's indentation and the detected line-ending
style, and reports 2 added; a second run reports 0 added and leaves the
text unchanged; with missing entries but no terminator line it fails
(raises, modelled by `none`). -/
theorem claim8_list_mutator :
    ∀ (text a b c : Str),
      GoodEntry a → GoodEntry c →
      hasEntryLine text a = false → hasEntryLine text b = true →
      hasEntryLine text c = false →
      (∀ i, (splitNl text).findIdx? isNullLine = some i →
        patch_list_file text [a, b, c] =
          some (joinLines ((splitNl text).take i
              ++ [entryLine (indentOf ((splitNl text).getD i [])) a (detect_newline text),
                  entryLine (indentOf ((splitNl text).getD i [])) c (detect_newline text)]
              ++ (splitNl text).drop i), 2)) ∧
      (∀ t' n, patch_list_file text [a, b, c] = some (t', n) →
        patch_list_file t' [a, b, c] = some (t', 0)) ∧
      ((splitNl text).findIdx? isNullLine = none →
        patch_list_file text [a, b, c] = none) := by
  intro text a b c hga hgc ha hb hc
  have hm : [a, b, c].filter (fun e => !hasEntryLine text e) = [a, c] := by
    simp [List.filter_cons, ha, hb, hc]
  have hm_ne : ¬ [a, b, c].filter (fun e => !hasEntryLine text e) = [] := by
    rw [hm]
    simp
  refine ⟨?_, ?_, ?_⟩
  · intro i hidx
    rw [patch_list_file_insert text [a, b, c] i hm_ne hidx, hm]
    rfl
  · refine patch_list_file_idem text [a, b, c] ?_
    intro e he hfe
    rcases List.mem_cons.mp he with rfl | he1
    · exact hga
    · rcases List.mem_cons.mp he1 with rfl | he2
      · rw [hb] at hfe
        exact absurd hfe (by simp)
      · rcases List.mem_cons.mp he2 with rfl | he3
        · exact hgc
        · exact absurd he3 (List.not_mem_nil e)
  · intro hnone
    simp only [patch_list_file, if_neg hm_ne, hnone]

/-- Witness for claim C8 on a concrete list file. -/
theorem claim8_witness :
    patch_list_file (("static x[] = \x7b\n  &ff_b,\n  NULL\x7d;\n").data)
        [("&ff_a").data, ("&ff_b").data, ("&ff_c").data] =
      some ((("static x[] = \x7b\n  &ff_b,\n  &ff_a,\n  &ff_c,\n  NULL\x7d;\n").data), 2) := by
  have h := (claim8_list_mutator (("static x[] = \x7b\n  &ff_b,\n  NULL\x7d;\n").data)
      (("&ff_a").data) (("&ff_b").data) (("&ff_c").data)
      (by decide) (by decide) (by decide) (by decide) (by decide)).1 2 (by decide)
  exact h.trans (by decide)

/-- Claim C7: on candidates `["a/data.c", "b/data.c"]` with an empty
claimed set the resolver accepts `"a/data.c"` verbatim, resolves
`"b/data.c"` to the wrapper path `"b_data.c"` (parent-directory prefix,
one level up), and records the wrapper spec `("b_data.c", "b/data.c")`.
The resolver is a pure function, so a second run on the same inputs with
a fresh claimed set returns this very output (determinism). -/
theorem claim7_collision_resolution :
    resolve_basename_collisions [("a/data.c").data, ("b/data.c").data] [] =
      ([("a/data.c").data, ("b_data.c").data],
       [(("b_data.c").data, ("b/data.c").data)],
       [("b_data.c").data, ("data.c").data]) := by
  decide

/-- Claim C10: the resolver is total and structure-preserving — for every
candidate list and every initial claimed set it returns exactly one
resolved path per candidate, in the same relative order, each being the
original candidate or the wrapper synthesized from it. -/
theorem claim10_resolver_structure :
    ∀ (sources pool : List Str),
      List.Forall₂ (fun s r => r = s ∨ r = wrapperPathOf s) sources
        (resolve_basename_collisions sources pool).1 :=
  fun sources pool => (resolver_structure sources pool).1

/-- Claim C6, counterexample: with candidates
`["p/a/x.c", "q/a/x.c", "r/a/x.c"]` and an empty claimed set, the second
and third candidates both resolve to wrapper paths with base name
`"a_x.c"` — two accepted sources share a base name, because a wrapper
name is added to the pool without being checked against it. -/
theorem claim6_counterexample :
    ¬ List.Nodup
      (((resolve_basename_collisions
          [("p/a/x.c").data, ("q/a/x.c").data, ("r/a/x.c").data] []).1).map pathName) := by
  decide

section BlockEndLemmas

theorem braceDelta_cons (c : Char) (cs : Str) :
    braceDelta (c :: cs)
      = (if c = '\x7b' then 1 else if c = '\x7d' then -1 else 0) + braceDelta cs := rfl

theorem braceDelta_open (cs : Str) : braceDelta ('\x7b' :: cs) = 1 + braceDelta cs := rfl

theorem braceDelta_close (cs : Str) :
    braceDelta ('\x7d' :: cs) = -1 + braceDelta cs := rfl

theorem braceDelta_other (c : Char) (cs : Str) (h1 : ¬ c = '\x7b') (h2 : ¬ c = '\x7d') :
    braceDelta (c :: cs) = braceDelta cs := by
  rw [braceDelta_cons, if_neg h1, if_neg h2]
  omega

/-- Characterization of the scanning loop: it returns `none` exactly when
no closing brace is reached at running depth zero. -/
theorem fbeAux_none_iff (cs : Str) :
    ∀ (d : Int) (i : Nat),
      fbeAux cs d i = none ↔
        ∀ p suffix, cs = p ++ '\x7d' :: suffix → d + braceDelta p ≠ 1 := by
  induction cs with
  | nil =>
    intro d i
    constructor
    · intro _ p suffix hp
      exact absurd hp (by simp)
    · intro _
      rfl
  | cons c cs ih =>
    intro d i
    by_cases hc1 : c = '\x7b'
    · subst hc1
      rw [show fbeAux ('\x7b' :: cs) d i = fbeAux cs (d + 1) (i + 1) from by
        simp [fbeAux]]
      rw [ih (d + 1) (i + 1)]
      constructor
      · intro h p suffix hp
        match p, hp with
        | [], hp => simp at hp
        | a :: p', hp =>
          have h1 := List.cons.inj hp
          have h2 := h p' suffix h1.2
          rw [← h1.1, braceDelta_open]
          intro hcontra
          exact h2 (by omega)
      · intro h p' suffix hp
        have h2 := h ('\x7b' :: p') suffix (by rw [hp]; rfl)
        rw [braceDelta_open] at h2
        intro hcontra
        exact h2 (by omega)
    · by_cases hc2 : c = '\x7d'
      · subst hc2
        rw [show fbeAux ('\x7d' :: cs) d i
            = if d - 1 = 0 then some (i + 1) else fbeAux cs (d - 1) (i + 1) from by
          simp [fbeAux]]
        by_cases hd : d - 1 = 0
        · rw [if_pos hd]
          constructor
          · intro h
            exact absurd h (by simp)
          · intro h
            exact absurd (h [] cs rfl) (by simp [braceDelta]; omega)
        · rw [if_neg hd, ih (d - 1) (i + 1)]
          constructor
          · intro h p suffix hp
            match p, hp with
            | [], hp =>
              simp only [braceDelta]
              omega
            | a :: p', hp =>
              have h1 := List.cons.inj hp
              have h2 := h p' suffix h1.2
              rw [← h1.1, braceDelta_close]
              intro hcontra
              exact h2 (by omega)
          · intro h p' suffix hp
            have h2 := h ('\x7d' :: p') suffix (by rw [hp]; rfl)
            rw [braceDelta_close] at h2
            intro hcontra
            exact h2 (by omega)
      · rw [show fbeAux (c :: cs) d i = fbeAux cs d (i + 1) from by
          simp [fbeAux, hc1, hc2]]
        rw [ih d (i + 1)]
        constructor
        · intro h p suffix hp
          match p, hp with
          | [], hp =>
            exact absurd (List.cons.inj hp).1 hc2
          | a :: p', hp =>
            have h1 := List.cons.inj hp
            have h2 := h p' suffix h1.2
            rw [← h1.1, braceDelta_other c p' hc1 hc2]
            intro hcontra
            exact h2 (by omega)
        · intro h p' suffix hp
          have h2 := h (c :: p') suffix (by rw [hp]; rfl)
          rw [braceDelta_other c p' hc1 hc2] at h2
          intro hcontra
          exact h2 (by omega)

/-- `remove_managed_block` silently returns its input when the marker and
an opening brace are found but the block has no matching close. -/
theorem remove_unterminated (text : Str) (marker_pos brace_pos : Nat)
    (h1 : findSub text gniMarker = some marker_pos)
    (h2 : findSubFrom text ['\x7b'] marker_pos = some brace_pos)
    (h3 : find_block_end text brace_pos = none) :
    remove_managed_block text = text := by
  unfold remove_managed_block
  rw [h1]
  simp only [h2, h3]

end BlockEndLemmas

section GniRebuildLemmas

theorem stripPrefix?_isSome_iff (p t : Str) :
    (stripPrefix? p t).isSome = true ↔ p <+: t := by
  constructor
  · intro h
    cases hs : stripPrefix? p t with
    | none => rw [hs] at h; exact absurd h (by simp)
    | some r => exact ⟨r, (stripPrefix?_eq_some p t r hs).symm⟩
  · rintro ⟨r, hr⟩
    rw [← hr, stripPrefix?_self_append]
    rfl

theorem findSub_none_no_occ (t pat : Str) :
    findSub t pat = none →
    ∀ i, (stripPrefix? pat (t.drop i)).isSome = false := by
  induction t with
  | nil =>
    intro h i
    simp only [List.drop_nil]
    unfold findSub at h
    cases pat with
    | nil => exact absurd h (by simp)
    | cons c cs => rfl
  | cons c cs ih =>
    intro h i
    unfold findSub at h
    by_cases hh : (stripPrefix? pat (c :: cs)).isSome = true
    · rw [if_pos hh] at h
      exact absurd h (by simp)
    · rw [if_neg hh] at h
      have htail : findSub cs pat = none := by
        cases hf : findSub cs pat with
        | none => rfl
        | some j => rw [hf] at h; exact absurd h (by simp)
      cases i with
      | zero =>
        simp only [List.drop_zero]
        exact Bool.eq_false_iff.mpr hh
      | succ j =>
        rw [List.drop_succ_cons]
        exact ih htail j

theorem findSub_append (pat : Str) :
    ∀ (a t : Str),
      (∀ i, i < a.length → (stripPrefix? pat ((a ++ t).drop i)).isSome = false) →
      (stripPrefix? pat t).isSome = true →
      findSub (a ++ t) pat = some a.length := by
  intro a
  induction a with
  | nil =>
    intro t _ h0
    cases t with
    | nil =>
      have : pat = [] := by
        cases pat with
        | nil => rfl
        | cons c cs => exact absurd h0 (by simp [stripPrefix?])
      subst this
      rfl
    | cons c cs =>
      show findSub (c :: cs) pat = some 0
      unfold findSub
      rw [if_pos h0]
  | cons c a' ih =>
    intro t h h0
    show findSub (c :: (a' ++ t)) pat = some (a'.length + 1)
    unfold findSub
    rw [if_neg (by
      have h0' := h 0 (by simp)
      simp only [List.drop_zero, List.cons_append] at h0'
      simp [h0'])]
    rw [ih t (fun i hi => by
      have := h (i + 1) (by simp; omega)
      rwa [List.cons_append, List.drop_succ_cons] at this) h0]
    rfl

theorem stripPrefix?_isSome_append_nl (pat : Str) (hp : '\n' ∉ pat) :
    ∀ (s L : Str), (∀ c ∈ L, c = '\n') →
      (stripPrefix? pat (s ++ L)).isSome = (stripPrefix? pat s).isSome := by
  induction pat with
  | nil => intro s L _; rfl
  | cons p ps ih =>
    intro s L hL
    cases s with
    | nil =>
      simp only [List.nil_append]
      cases L with
      | nil => rfl
      | cons c L' =>
        have hc : c = '\n' := hL c (List.mem_cons_self c L')
        show (if p = c then stripPrefix? ps L' else none).isSome = false
        rw [if_neg (by
          intro hpc
          exact hp (by rw [hpc, hc]; exact List.mem_cons_self _ _))]
        rfl
    | cons d s' =>
      show (if p = d then stripPrefix? ps (s' ++ L) else none).isSome
        = (if p = d then stripPrefix? ps s' else none).isSome
      by_cases hpd : p = d
      · rw [if_pos hpd, if_pos hpd]
        exact ih (fun hm => hp (List.mem_cons_of_mem p hm)) s' L hL
      · rw [if_neg hpd, if_neg hpd]

theorem containsSub_nl (pat : Str) (hp : '\n' ∉ pat) (hne : pat ≠ []) :
    ∀ L : Str, (∀ c ∈ L, c = '\n') → containsSub L pat = false := by
  intro L
  induction L with
  | nil =>
    intro _
    unfold containsSub
    cases pat with
    | nil => exact absurd rfl hne
    | cons c cs => simp
  | cons c L' ih =>
    intro hL
    unfold containsSub
    have hc : c = '\n' := hL c (List.mem_cons_self c L')
    rw [ih (fun d hd => hL d (List.mem_cons_of_mem c hd))]
    cases pat with
    | nil => exact absurd rfl hne
    | cons p ps =>
      show ((if p = c then stripPrefix? ps L' else none).isSome || false) = false
      rw [if_neg (by
        intro hpc
        exact hp (by rw [hpc, hc]; exact List.mem_cons_self _ _))]
      rfl

theorem containsSub_append_nl (pat : Str) (hp : '\n' ∉ pat) (hne : pat ≠ []) :
    ∀ (s L : Str), (∀ c ∈ L, c = '\n') →
      containsSub (s ++ L) pat = containsSub s pat := by
  intro s
  induction s with
  | nil =>
    intro L hL
    rw [List.nil_append, containsSub_nl pat hp hne L hL]
    unfold containsSub
    cases pat with
    | nil => exact absurd rfl hne
    | cons p ps => simp
  | cons c s' ih =>
    intro L hL
    rw [List.cons_append]
    unfold containsSub
    rw [ih L hL]
    have hh := stripPrefix?_isSome_append_nl pat hp (c :: s') L hL
    rw [List.cons_append] at hh
    rw [hh]

theorem containsSub_crlf_false (u : Str) (h : '\r' ∉ u) :
    containsSub u crlf = false := by
  induction u with
  | nil => rfl
  | cons c cs ih =>
    unfold containsSub
    rw [ih (fun hm => h (List.mem_cons_of_mem c hm))]
    show ((if '\r' = c then stripPrefix? ['\n'] cs else none).isSome || false) = false
    rw [if_neg (by
      intro hrc
      exact h (by rw [← hrc]; exact List.mem_cons_self _ _))]
    rfl

theorem detect_newline_no_cr (u : Str) (h : '\r' ∉ u) : detect_newline u = lf := by
  unfold detect_newline
  rw [containsSub_crlf_false u h]
  simp

theorem rfindSub_last_nl (u : Str) : rfindSub (u ++ ['\n']) lf = some u.length := by
  induction u with
  | nil => decide
  | cons c u' ih =>
    show rfindSub (c :: (u' ++ ['\n'])) lf = some (u'.length + 1)
    unfold rfindSub
    rw [ih]

theorem dropWhile_all (P : Char → Bool) (a b : Str) (h : ∀ c ∈ a, P c = true) :
    (a ++ b).dropWhile P = b.dropWhile P := by
  induction a with
  | nil => rfl
  | cons c a' ih =>
    rw [List.cons_append, List.dropWhile_cons_of_pos (h c (List.mem_cons_self c a'))]
    exact ih (fun d hd => h d (List.mem_cons_of_mem c hd))

theorem rstrip_append_strip (x L : Str) (hL : ∀ c ∈ L, lf.contains c = true) :
    rstripChars lf (x ++ L) = rstripChars lf x := by
  unfold rstripChars
  rw [List.reverse_append,
    dropWhile_all _ L.reverse x.reverse (fun c hc => hL c (List.mem_reverse.mp hc))]

theorem head?_dropWhile_neg (P : Char → Bool) (v : Str) :
    ∀ c, (v.dropWhile P).head? = some c → P c = false := by
  induction v with
  | nil => intro c h; exact absurd h (by simp)
  | cons d v' ih =>
    intro c h
    by_cases hd : P d = true
    · rw [List.dropWhile_cons_of_pos hd] at h
      exact ih c h
    · rw [List.dropWhile_cons_of_neg hd] at h
      have hdc : d = c := by simpa using h
      subst hdc
      exact Bool.eq_false_iff.mpr hd

theorem dropWhile_idem (P : Char → Bool) (v : Str) :
    (v.dropWhile P).dropWhile P = v.dropWhile P := by
  cases hv : v.dropWhile P with
  | nil => rfl
  | cons c cs =>
    have hc : P c = false := head?_dropWhile_neg P v c (by rw [hv]; rfl)
    rw [List.dropWhile_cons_of_neg (by simp [hc])]

theorem rstrip_idem (x : Str) :
    rstripChars lf (rstripChars lf x) = rstripChars lf x := by
  unfold rstripChars
  rw [List.reverse_reverse, dropWhile_idem]

theorem rstrip_decomp (t : Str) :
    ∃ L, (∀ c ∈ L, c = '\n') ∧ t = rstripChars lf t ++ L := by
  refine ⟨(t.reverse.takeWhile (fun c => lf.contains c)).reverse, ?_, ?_⟩
  · intro c hc
    have hc' := List.mem_reverse.mp hc
    have hP := List.mem_takeWhile_imp hc'
    simpa [lf] using hP
  · conv_lhs => rw [← List.reverse_reverse t,
      ← List.takeWhile_append_dropWhile (fun c => lf.contains c) t.reverse]
    rw [List.reverse_append]
    rfl

theorem rstrip_no_trailing (t : Str) :
    ∀ c, (rstripChars lf t).getLast? = some c → c ≠ '\n' := by
  intro c h
  unfold rstripChars at h
  rw [List.getLast?_reverse] at h
  have hc := head?_dropWhile_neg _ t.reverse c h
  intro hcn
  subst hcn
  exact absurd hc (by decide)

theorem not_nl_suffix (s₀ : Str) (hlast : ∀ c, s₀.getLast? = some c → c ≠ '\n') :
    ¬ ['\n'] <:+ s₀ := by
  rintro ⟨w, hw⟩
  exact hlast '\n' (by rw [← hw]; exact List.getLast?_concat w) rfl

theorem not_nlnl_suffix_bare (s₀ : Str)
    (hlast : ∀ c, s₀.getLast? = some c → c ≠ '\n') :
    ¬ ['\n', '\n'] <:+ s₀ := by
  rintro ⟨w, hw⟩
  have h2 : (w ++ ['\n']) ++ ['\n'] = s₀ := by simpa using hw
  exact hlast '\n' (by rw [← h2]; exact List.getLast?_concat _) rfl

theorem not_nlnl_suffix (s₀ : Str)
    (hlast : ∀ c, s₀.getLast? = some c → c ≠ '\n') :
    ¬ ['\n', '\n'] <:+ s₀ ++ ['\n'] := by
  rintro ⟨w, hw⟩
  have h2 : (w ++ ['\n']) ++ ['\n'] = s₀ ++ ['\n'] := by simpa using hw
  have h3 : w ++ ['\n'] = s₀ := List.append_cancel_right h2
  exact hlast '\n' (by rw [← h3]; exact List.getLast?_concat _) rfl

theorem nl_run_cases (L : Str) (hL : ∀ c ∈ L, c = '\n') (hlen : L.length ≤ 2) :
    L = [] ∨ L = ['\n'] ∨ L = ['\n', '\n'] := by
  cases L with
  | nil => exact Or.inl rfl
  | cons a L1 =>
    cases L1 with
    | nil =>
      exact Or.inr (Or.inl (by rw [hL a (by simp)]))
    | cons b L2 =>
      cases L2 with
      | nil =>
        exact Or.inr (Or.inr (by rw [hL a (by simp), hL b (by simp)]))
      | cons d L3 => simp at hlen

theorem nl_run_le_two (t L : Str) (hL : ∀ c ∈ L, c = '\n')
    (hdecomp : t = rstripChars lf t ++ L)
    (h3 : ¬ ['\n', '\n', '\n'] <:+ t) : L.length ≤ 2 := by
  by_contra hcon
  push_neg at hcon
  apply h3
  have hrep : L = List.replicate L.length '\n' := List.eq_replicate_of_mem hL
  have h1 : ['\n', '\n', '\n'] <:+ L := by
    rw [hrep, show L.length = (L.length - 3) + 3 by omega, List.replicate_add]
    exact ⟨_, rfl⟩
  exact h1.trans (hdecomp.symm ▸ List.suffix_append _ L)

theorem joinWith_cons_ne (sep x : Str) (ys : List Str) (h : ys ≠ []) :
    joinWith sep (x :: ys) = x ++ sep ++ joinWith sep ys := by
  cases ys with
  | nil => exact absurd rfl h
  | cons y ys' => rfl

theorem joinWith_append (sep : Str) :
    ∀ (xs ys : List Str), xs ≠ [] → ys ≠ [] →
      joinWith sep (xs ++ ys) = joinWith sep xs ++ sep ++ joinWith sep ys := by
  intro xs
  induction xs with
  | nil => intro ys h _; exact absurd rfl h
  | cons x xs' ih =>
    intro ys _ hys
    cases xs' with
    | nil =>
      show joinWith sep (x :: ys) = joinWith sep [x] ++ sep ++ joinWith sep ys
      rw [joinWith_cons_ne sep x ys hys]
      rfl
    | cons z zs =>
      show joinWith sep (x :: ((z :: zs) ++ ys)) = _
      rw [joinWith_cons_ne sep x ((z :: zs) ++ ys) (by simp),
        joinWith_cons_ne sep x (z :: zs) (by simp),
        ih ys (by simp) hys]
      simp [List.append_assoc]

theorem mem_joinWith (sep : Str) :
    ∀ (ls : List Str) (c : Char), c ∈ joinWith sep ls →
      c ∈ sep ∨ ∃ l ∈ ls, c ∈ l := by
  intro ls
  induction ls with
  | nil => intro c hc; exact absurd hc (List.not_mem_nil c)
  | cons l ls' ih =>
    intro c hc
    cases ls' with
    | nil => exact Or.inr ⟨l, List.mem_cons_self _ _, hc⟩
    | cons m rest =>
      rw [joinWith_cons_ne sep l (m :: rest) (by simp)] at hc
      rcases List.mem_append.mp hc with h1 | h2
      · rcases List.mem_append.mp h1 with ha | hb
        · exact Or.inr ⟨l, List.mem_cons_self _ _, ha⟩
        · exact Or.inl hb
      · rcases ih c h2 with h | ⟨g, hg, hcg⟩
        · exact Or.inl h
        · exact Or.inr ⟨g, List.mem_cons_of_mem l hg, hcg⟩

theorem braceDelta_append (a b : Str) :
    braceDelta (a ++ b) = braceDelta a + braceDelta b := by
  induction a with
  | nil => simp [braceDelta]
  | cons c a' ih =>
    rw [List.cons_append, braceDelta_cons, ih, braceDelta_cons]
    omega

theorem braceDelta_filter (s : Str) : braceDelta (braces s) = braceDelta s := by
  induction s with
  | nil => rfl
  | cons c s' ih =>
    show braceDelta (List.filter isBrace (c :: s')) = _
    by_cases hb : isBrace c = true
    · rw [List.filter_cons_of_pos hb, braceDelta_cons, braceDelta_cons]
      rw [show braceDelta (List.filter isBrace s') = braceDelta s' from ih]
    · rw [List.filter_cons_of_neg (by simp [hb]), braceDelta_cons]
      have h1 : ¬ c = '\x7b' := fun h => hb (by rw [h]; rfl)
      have h2 : ¬ c = '\x7d' := fun h => hb (by rw [h]; rfl)
      rw [if_neg h1, if_neg h2]
      rw [show braceDelta (List.filter isBrace s') = braceDelta s' from ih]
      omega

theorem balanced_of_braces (s : Str)
    (h : ∀ q ∈ (braces s).inits, 0 ≤ braceDelta q)
    (h0 : braceDelta (braces s) = 0) : Balanced s := by
  constructor
  · rw [← braceDelta_filter s]
    exact h0
  · intro p hp
    have hq : braces p <+: braces s := List.IsPrefix.filter isBrace hp
    have hh := h (braces p) ((List.mem_inits _ _).mpr hq)
    rwa [braceDelta_filter] at hh

theorem braces_joinWith (ls : List Str) :
    braces (joinWith lf ls) = (ls.map braces).flatten := by
  induction ls with
  | nil => rfl
  | cons l ls' ih =>
    cases ls' with
    | nil =>
      show braces l = braces l ++ []
      rw [List.append_nil]
    | cons m rest =>
      rw [joinWith_cons_ne lf l (m :: rest) (by simp)]
      show List.filter isBrace ((l ++ lf) ++ joinWith lf (m :: rest)) = _
      rw [List.filter_append, List.filter_append,
        show List.filter isBrace lf = [] from by decide, List.append_nil]
      show List.filter isBrace l ++ braces (joinWith lf (m :: rest)) = _
      rw [ih]
      rfl

theorem flatten_braces_nil (ls : List Str) (h : ∀ l ∈ ls, braces l = []) :
    (ls.map braces).flatten = [] := by
  induction ls with
  | nil => rfl
  | cons l ls' ih =>
    show braces l ++ (ls'.map braces).flatten = []
    rw [h l (List.mem_cons_self _ _),
      ih (fun g hg => h g (List.mem_cons_of_mem l hg))]
    rfl

theorem braces_append (a b : Str) : braces (a ++ b) = braces a ++ braces b :=
  List.filter_append a b

theorem braces_eq_nil (s : Str)
    (h : ∀ c ∈ s, ¬ c = '\x7b' ∧ ¬ c = '\x7d') : braces s = [] := by
  unfold braces
  rw [List.filter_eq_nil_iff]
  intro c hc
  simp [isBrace, (h c hc).1, (h c hc).2]

theorem format_mem_char (ind var : Str) (srcs : List Str) :
    ∀ l ∈ format_source_list ind var srcs, ∀ c ∈ l,
      c ∈ ind ∨ c ∈ var ∨ (∃ s ∈ srcs, c ∈ s) ∨ c ∈ ((" +=[\"],]").data : Str) := by
  intro l hl c hc
  unfold format_source_list at hl
  rcases List.mem_cons.mp hl with rfl | hl'
  · rcases List.mem_append.mp hc with h | h
    · rcases List.mem_append.mp h with h | h
      · exact Or.inl h
      · exact Or.inr (Or.inl h)
    · exact Or.inr (Or.inr (Or.inr
        ((by decide : ∀ x ∈ ((" += [").data : Str), x ∈ ((" +=[\"],]").data : Str))
          c h)))
  · rcases List.mem_append.mp hl' with hm | hf
    · rcases List.mem_map.mp hm with ⟨s, hs', rfl⟩
      rcases List.mem_append.mp hc with h | h
      · rcases List.mem_append.mp h with h | h
        · rcases List.mem_append.mp h with h | h
          · exact Or.inl h
          · exact Or.inr (Or.inr (Or.inr
              ((by decide : ∀ x ∈ (("  \"").data : Str), x ∈ ((" +=[\"],]").data : Str))
                c h)))
        · exact Or.inr (Or.inr (Or.inl ⟨s, hs', h⟩))
      · exact Or.inr (Or.inr (Or.inr
          ((by decide : ∀ x ∈ (("\",").data : Str), x ∈ ((" +=[\"],]").data : Str))
            c h)))
    · have hl2 : l = ind ++ (("]").data : Str) := by simpa using hf
      subst hl2
      rcases List.mem_append.mp hc with h | h
      · exact Or.inl h
      · exact Or.inr (Or.inr (Or.inr
          ((by decide : ∀ x ∈ (("]").data : Str), x ∈ ((" +=[\"],]").data : Str))
            c h)))

theorem format_line_ok (ind var : Str) (srcs : List Str)
    (hind : ∀ c ∈ ind, ¬ c = '\r' ∧ ¬ c = '\x7b' ∧ ¬ c = '\x7d')
    (hvar : ∀ c ∈ var, ¬ c = '\r' ∧ ¬ c = '\x7b' ∧ ¬ c = '\x7d')
    (hs : ∀ s ∈ srcs, SrcGood s) :
    ∀ l ∈ format_source_list ind var srcs, ∀ c ∈ l,
      ¬ c = '\r' ∧ ¬ c = '\x7b' ∧ ¬ c = '\x7d' := by
  intro l hl c hc
  rcases format_mem_char ind var srcs l hl c hc with h | h | ⟨s, hs', h⟩ | h
  · exact hind c h
  · exact hvar c h
  · have hg := hs s hs' c h
    exact ⟨hg.2.1, hg.2.2.1, hg.2.2.2⟩
  · exact (by decide : ∀ x ∈ ((" +=[\"],]").data : Str),
      ¬ x = '\r' ∧ ¬ x = '\x7b' ∧ ¬ x = '\x7d') c h

theorem prefix_of_append_of_le (p x y : Str) (h : p <+: x ++ y)
    (hl : p.length ≤ x.length) : p <+: x := by
  rw [List.prefix_iff_eq_take] at h ⊢
  rw [List.take_append_eq_append_take, show p.length - x.length = 0 from by omega,
    List.take_zero, List.append_nil] at h
  exact h

theorem block_shape (cs x86cs x86as a64cs a64gs : List Str)
    (hgood : ∀ s, s ∈ cs ∨ s ∈ x86cs ∨ s ∈ x86as ∨ s ∈ a64cs ∨ s ∈ a64gs → SrcGood s)
    (hne : cs ≠ [] ∨ x86cs ≠ [] ∨ x86as ≠ [] ∨ a64cs ≠ [] ∨ a64gs ≠ []) :
    ∃ inner : Str,
      build_managed_gni_block cs x86cs x86as a64cs a64gs lf
          = (gniMarker ++ '\n' :: brandingIfLine.dropLast)
            ++ '\x7b' :: (inner ++ '\x7d' :: ['\n'])
        ∧ Balanced inner ∧ ∀ c ∈ inner, ¬ c = '\r' := by
  set G1 : List Str :=
    if cs ≠ [] then format_source_list (("  ").data) ffmpegCSourcesVar cs else []
    with hG1
  set F2c : List Str :=
    if x86cs ≠ [] then format_source_list (("    ").data) ffmpegCSourcesVar x86cs
    else [] with hF2c
  set F2a : List Str :=
    if x86as ≠ [] then format_source_list (("    ").data) ffmpegAsmSourcesVar x86as
    else [] with hF2a
  set G2 : List Str :=
    if x86cs ≠ [] ∨ x86as ≠ [] then
      [[], x86IfLine1, x86IfLine2, x86IfLine3] ++ F2c ++ F2a ++ [innerCloseLine]
    else [] with hG2
  set F3c : List Str :=
    if a64cs ≠ [] then format_source_list (("    ").data) ffmpegCSourcesVar a64cs
    else [] with hF3c
  set F3g : List Str :=
    if a64gs ≠ [] then format_source_list (("    ").data) ffmpegGasSourcesVar a64gs
    else [] with hF3g
  set G3 : List Str :=
    if a64cs ≠ [] ∨ a64gs ≠ [] then
      [[], aarch64IfLine] ++ F3c ++ F3g ++ [innerCloseLine]
    else [] with hG3
  have hb : build_managed_gni_block cs x86cs x86as a64cs a64gs lf
      = joinWith lf ([gniMarker, brandingIfLine] ++ G1 ++ G2 ++ G3
          ++ [outerCloseLine]) ++ lf := by
    simp only [build_managed_gni_block]
  -- per-group character facts
  have hF2c_ok : ∀ l ∈ F2c, ∀ c ∈ l, ¬ c = '\r' ∧ ¬ c = '\x7b' ∧ ¬ c = '\x7d' := by
    by_cases h : x86cs = []
    · rw [hF2c, if_neg (by simp [h])]
      intro l hl
      exact absurd hl (List.not_mem_nil l)
    · rw [hF2c, if_pos h]
      exact format_line_ok _ _ _ (by decide) (by decide)
        (fun s hs => hgood s (Or.inr (Or.inl hs)))
  have hF2a_ok : ∀ l ∈ F2a, ∀ c ∈ l, ¬ c = '\r' ∧ ¬ c = '\x7b' ∧ ¬ c = '\x7d' := by
    by_cases h : x86as = []
    · rw [hF2a, if_neg (by simp [h])]
      intro l hl
      exact absurd hl (List.not_mem_nil l)
    · rw [hF2a, if_pos h]
      exact format_line_ok _ _ _ (by decide) (by decide)
        (fun s hs => hgood s (Or.inr (Or.inr (Or.inl hs))))
  have hF3c_ok : ∀ l ∈ F3c, ∀ c ∈ l, ¬ c = '\r' ∧ ¬ c = '\x7b' ∧ ¬ c = '\x7d' := by
    by_cases h : a64cs = []
    · rw [hF3c, if_neg (by simp [h])]
      intro l hl
      exact absurd hl (List.not_mem_nil l)
    · rw [hF3c, if_pos h]
      exact format_line_ok _ _ _ (by decide) (by decide)
        (fun s hs => hgood s (Or.inr (Or.inr (Or.inr (Or.inl hs)))))
  have hF3g_ok : ∀ l ∈ F3g, ∀ c ∈ l, ¬ c = '\r' ∧ ¬ c = '\x7b' ∧ ¬ c = '\x7d' := by
    by_cases h : a64gs = []
    · rw [hF3g, if_neg (by simp [h])]
      intro l hl
      exact absurd hl (List.not_mem_nil l)
    · rw [hF3g, if_pos h]
      exact format_line_ok _ _ _ (by decide) (by decide)
        (fun s hs => hgood s (Or.inr (Or.inr (Or.inr (Or.inr hs)))))
  have hG1_ok : ∀ l ∈ G1, ∀ c ∈ l, ¬ c = '\r' ∧ ¬ c = '\x7b' ∧ ¬ c = '\x7d' := by
    by_cases h : cs = []
    · rw [hG1, if_neg (by simp [h])]
      intro l hl
      exact absurd hl (List.not_mem_nil l)
    · rw [hG1, if_pos h]
      exact format_line_ok _ _ _ (by decide) (by decide)
        (fun s hs => hgood s (Or.inl hs))
  have hG1_fl : (G1.map braces).flatten = [] :=
    flatten_braces_nil G1 (fun l hl => braces_eq_nil l
      (fun c hc => (hG1_ok l hl c hc).2))
  have hF2c_fl : (F2c.map braces).flatten = [] :=
    flatten_braces_nil F2c (fun l hl => braces_eq_nil l
      (fun c hc => (hF2c_ok l hl c hc).2))
  have hF2a_fl : (F2a.map braces).flatten = [] :=
    flatten_braces_nil F2a (fun l hl => braces_eq_nil l
      (fun c hc => (hF2a_ok l hl c hc).2))
  have hF3c_fl : (F3c.map braces).flatten = [] :=
    flatten_braces_nil F3c (fun l hl => braces_eq_nil l
      (fun c hc => (hF3c_ok l hl c hc).2))
  have hF3g_fl : (F3g.map braces).flatten = [] :=
    flatten_braces_nil F3g (fun l hl => braces_eq_nil l
      (fun c hc => (hF3g_ok l hl c hc).2))
  have hG2_fl : (G2.map braces).flatten = []
      ∨ (G2.map braces).flatten = ['\x7b', '\x7d'] := by
    by_cases h : x86cs ≠ [] ∨ x86as ≠ []
    · right
      rw [hG2, if_pos h]
      rw [List.map_append, List.map_append, List.map_append,
        List.flatten_append, List.flatten_append, List.flatten_append,
        hF2c_fl, hF2a_fl]
      rw [show (([[], x86IfLine1, x86IfLine2, x86IfLine3] : List Str).map
          braces).flatten = ['\x7b'] from by decide]
      rw [show (([innerCloseLine] : List Str).map braces).flatten = ['\x7d']
        from by decide]
      rfl
    · left
      rw [hG2, if_neg h]
      rfl
  have hG3_fl : (G3.map braces).flatten = []
      ∨ (G3.map braces).flatten = ['\x7b', '\x7d'] := by
    by_cases h : a64cs ≠ [] ∨ a64gs ≠ []
    · right
      rw [hG3, if_pos h]
      rw [List.map_append, List.map_append, List.map_append,
        List.flatten_append, List.flatten_append, List.flatten_append,
        hF3c_fl, hF3g_fl]
      rw [show (([[], aarch64IfLine] : List Str).map braces).flatten = ['\x7b']
        from by decide]
      rw [show (([innerCloseLine] : List Str).map braces).flatten = ['\x7d']
        from by decide]
      rfl
    · left
      rw [hG3, if_neg h]
      rfl
  have hG2_cr : ∀ l ∈ G2, ∀ c ∈ l, ¬ c = '\r' := by
    by_cases h : x86cs ≠ [] ∨ x86as ≠ []
    · rw [hG2, if_pos h]
      intro l hl c hc
      rcases List.mem_append.mp hl with hl1 | hl1
      · rcases List.mem_append.mp hl1 with hl2 | hl2
        · rcases List.mem_append.mp hl2 with hl3 | hl3
          · exact (by decide : ∀ x ∈ ([[], x86IfLine1, x86IfLine2,
              x86IfLine3] : List Str), ∀ d ∈ x, ¬ d = '\r') l hl3 c hc
          · exact (hF2c_ok l hl3 c hc).1
        · exact (hF2a_ok l hl2 c hc).1
      · have hli : l = innerCloseLine := by simpa using hl1
        subst hli
        exact (by decide : ∀ d ∈ innerCloseLine, ¬ d = '\r') c hc
    · rw [hG2, if_neg h]
      intro l hl
      exact absurd hl (List.not_mem_nil l)
  have hG3_cr : ∀ l ∈ G3, ∀ c ∈ l, ¬ c = '\r' := by
    by_cases h : a64cs ≠ [] ∨ a64gs ≠ []
    · rw [hG3, if_pos h]
      intro l hl c hc
      rcases List.mem_append.mp hl with hl1 | hl1
      · rcases List.mem_append.mp hl1 with hl2 | hl2
        · rcases List.mem_append.mp hl2 with hl3 | hl3
          · exact (by decide : ∀ x ∈ ([[], aarch64IfLine] : List Str),
              ∀ d ∈ x, ¬ d = '\r') l hl3 c hc
          · exact (hF3c_ok l hl3 c hc).1
        · exact (hF3g_ok l hl2 c hc).1
      · have hli : l = innerCloseLine := by simpa using hl1
        subst hli
        exact (by decide : ∀ d ∈ innerCloseLine, ¬ d = '\r') c hc
    · rw [hG3, if_neg h]
      intro l hl
      exact absurd hl (List.not_mem_nil l)
  -- the middle lines are nonempty
  have hmid : (G1 ++ G2 ++ G3 : List Str) ≠ [] := by
    intro hmideq
    rcases List.append_eq_nil.mp hmideq with ⟨h12, h3⟩
    rcases List.append_eq_nil.mp h12 with ⟨h1, h2⟩
    rcases hne with hc | hc | hc | hc | hc
    · rw [hG1, if_pos hc] at h1
      exact absurd h1 (by simp [format_source_list])
    · rw [hG2, if_pos (Or.inl hc)] at h2
      exact absurd h2 (by simp)
    · rw [hG2, if_pos (Or.inr hc)] at h2
      exact absurd h2 (by simp)
    · rw [hG3, if_pos (Or.inl hc)] at h3
      exact absurd h3 (by simp)
    · rw [hG3, if_pos (Or.inr hc)] at h3
      exact absurd h3 (by simp)
  refine ⟨'\n' :: (joinWith lf (G1 ++ G2 ++ G3) ++ ['\n']), ?_, ?_, ?_⟩
  · -- shape of the block
    rw [hb]
    rw [show ([gniMarker, brandingIfLine] ++ G1 ++ G2 ++ G3 ++ [outerCloseLine]
        : List Str)
        = gniMarker :: brandingIfLine :: ((G1 ++ G2 ++ G3) ++ [outerCloseLine])
      from by simp]
    rw [joinWith_cons_ne lf gniMarker _ (by simp),
      joinWith_cons_ne lf brandingIfLine _ (by
        intro hh
        exact hmid (List.append_eq_nil.mp hh).1),
      joinWith_append lf (G1 ++ G2 ++ G3) [outerCloseLine] hmid (by simp)]
    rw [show joinWith lf [outerCloseLine] = ['\x7d'] from by decide]
    rw [show brandingIfLine = brandingIfLine.dropLast ++ ['\x7b'] from by decide]
    simp [lf, List.append_assoc]
  · -- balance
    have hbinner : braces ('\n' :: (joinWith lf (G1 ++ G2 ++ G3) ++ ['\n']))
        = (G2.map braces).flatten ++ (G3.map braces).flatten := by
      show braces (['\n'] ++ (joinWith lf (G1 ++ G2 ++ G3) ++ ['\n'])) = _
      rw [braces_append, braces_append,
        show braces ['\n'] = [] from by decide,
        List.nil_append, List.append_nil, braces_joinWith,
        List.map_append, List.map_append, List.flatten_append,
        List.flatten_append, hG1_fl, List.nil_append]
    rcases hG2_fl with h2 | h2 <;> rcases hG3_fl with h3 | h3 <;>
      exact balanced_of_braces _ (by rw [hbinner, h2, h3]; decide)
        (by rw [hbinner, h2, h3]; decide)
  · -- no carriage returns
    intro c hc
    rcases List.mem_cons.mp hc with rfl | hc1
    · decide
    rcases List.mem_append.mp hc1 with hc2 | hc2
    · rcases mem_joinWith lf _ c hc2 with h | ⟨l, hl, hcl⟩
      · have : c = '\n' := by simpa [lf] using h
        subst this
        decide
      · rcases List.mem_append.mp hl with hl1 | hl1
        · rcases List.mem_append.mp hl1 with hl2 | hl2
          · exact (hG1_ok l hl2 c hcl).1
          · exact hG2_cr l hl2 c hcl
        · exact hG3_cr l hl1 c hcl
    · have : c = '\n' := by simpa using hc2
      subst this
      decide

theorem fbeAux_append_nonneg :
    ∀ (inner rest : Str) (d : Int) (i : Nat),
      (∀ p, p <+: inner → 0 < d + braceDelta p) →
      fbeAux (inner ++ rest) d i
        = fbeAux rest (d + braceDelta inner) (i + inner.length) := by
  intro inner
  induction inner with
  | nil =>
    intro rest d i _
    show fbeAux rest d i = fbeAux rest (d + braceDelta []) (i + 0)
    rw [show braceDelta [] = (0 : Int) from rfl, add_zero, Nat.add_zero]
  | cons c cs ih =>
    intro rest d i h
    by_cases h1 : c = '\x7b'
    · subst h1
      show fbeAux ('\x7b' :: (cs ++ rest)) d i = _
      rw [show fbeAux ('\x7b' :: (cs ++ rest)) d i
          = fbeAux (cs ++ rest) (d + 1) (i + 1) from by
        conv_lhs => unfold fbeAux
        rw [if_pos rfl]]
      rw [ih rest (d + 1) (i + 1) (fun p hp => by
        have hh := h ('\x7b' :: p) (List.cons_prefix_cons.mpr ⟨rfl, hp⟩)
        rw [braceDelta_open] at hh
        omega)]
      have e1 : d + 1 + braceDelta cs = d + braceDelta ('\x7b' :: cs) := by
        rw [braceDelta_open]
        ring
      have e2 : i + 1 + cs.length = i + ('\x7b' :: cs).length := by
        simp [List.length_cons]
        omega
      rw [e1, e2]
    · by_cases h2 : c = '\x7d'
      · subst h2
        have hd : ¬ (d - 1 = 0) := by
          have hh := h ['\x7d']
            (List.cons_prefix_cons.mpr ⟨rfl, List.nil_prefix⟩)
          rw [braceDelta_close] at hh
          simp [braceDelta] at hh
          omega
        show fbeAux ('\x7d' :: (cs ++ rest)) d i = _
        rw [show fbeAux ('\x7d' :: (cs ++ rest)) d i
            = fbeAux (cs ++ rest) (d - 1) (i + 1) from by
          conv_lhs => unfold fbeAux
          rw [if_neg (by decide), if_pos rfl, if_neg hd]]
        rw [ih rest (d - 1) (i + 1) (fun p hp => by
          have hh := h ('\x7d' :: p) (List.cons_prefix_cons.mpr ⟨rfl, hp⟩)
          rw [braceDelta_close] at hh
          omega)]
        have e1 : d - 1 + braceDelta cs = d + braceDelta ('\x7d' :: cs) := by
          rw [braceDelta_close]
          ring
        have e2 : i + 1 + cs.length = i + ('\x7d' :: cs).length := by
          simp [List.length_cons]
          omega
        rw [e1, e2]
      · show fbeAux (c :: (cs ++ rest)) d i = _
        rw [show fbeAux (c :: (cs ++ rest)) d i
            = fbeAux (cs ++ rest) d (i + 1) from by
          conv_lhs => unfold fbeAux
          rw [if_neg h1, if_neg h2]]
        rw [ih rest d (i + 1) (fun p hp => by
          have hh := h (c :: p) (List.cons_prefix_cons.mpr ⟨rfl, hp⟩)
          rw [braceDelta_other c p h1 h2] at hh
          exact hh)]
        have e1 : d + braceDelta cs = d + braceDelta (c :: cs) := by
          rw [braceDelta_other c cs h1 h2]
        have e2 : i + 1 + cs.length = i + (c :: cs).length := by
          simp [List.length_cons]
          omega
        rw [e1, e2]

theorem findSub_marker_pos (s₀ R : Str)
    (hm : ∀ i, (stripPrefix? gniMarker (s₀.drop i)).isSome = false) :
    findSub ((s₀ ++ ['\n', '\n']) ++ (gniMarker ++ R)) gniMarker
      = some (s₀.length + 2) := by
  rw [show s₀.length + 2 = (s₀ ++ (['\n', '\n'] : Str)).length from by simp]
  apply findSub_append
  · intro i hi
    have hi2 : i < s₀.length + 2 := by simpa using hi
    apply Bool.eq_false_iff.mpr
    intro hsome
    have hpre := (stripPrefix?_isSome_iff _ _).mp hsome
    rw [List.append_assoc] at hpre
    by_cases his : i ≤ s₀.length
    · rw [List.drop_append_eq_append_drop,
        show i - s₀.length = 0 from by omega, List.drop_zero] at hpre
      by_cases hin : i + gniMarker.length ≤ s₀.length
      · have h2 : gniMarker <+: s₀.drop i :=
          prefix_of_append_of_le _ _ _ hpre (by rw [List.length_drop]; omega)
        have h3 := (stripPrefix?_isSome_iff gniMarker (s₀.drop i)).mpr h2
        rw [hm i] at h3
        exact absurd h3 (by simp)
      · rw [← List.append_assoc] at hpre
        by_cases hle : (s₀.drop i ++ (['\n', '\n'] : Str)).length ≤ gniMarker.length
        · have hup := List.prefix_of_prefix_length_le
            (List.prefix_append (s₀.drop i ++ (['\n', '\n'] : Str)) _) hpre hle
          have hnm : '\n' ∈ gniMarker :=
            hup.subset (List.mem_append_right _ (by simp))
          exact absurd hnm (by decide)
        · have hmp : gniMarker <+: s₀.drop i ++ (['\n', '\n'] : Str) :=
            prefix_of_append_of_le _ _ _ hpre (by omega)
          have hlen2 : gniMarker.length = s₀.length - i + 1 := by
            simp only [List.length_append, List.length_drop, List.length_cons,
              List.length_nil] at hle
            omega
          have htk : (s₀.drop i ++ (['\n', '\n'] : Str)).take gniMarker.length
              = s₀.drop i ++ ['\n'] := by
            rw [hlen2, List.take_append_eq_append_take,
              List.take_of_length_le (by rw [List.length_drop]; omega),
              List.length_drop,
              show s₀.length - i + 1 - (s₀.length - i) = 1 from by omega]
            rfl
          have hmeq : gniMarker = s₀.drop i ++ ['\n'] := by
            rw [List.prefix_iff_eq_take] at hmp
            rw [hmp, htk]
          have hnm : '\n' ∈ gniMarker := by
            rw [hmeq]
            exact List.mem_append_right _ (by simp)
          exact absurd hnm (by decide)
    · have hieq : i = s₀.length + 1 := by omega
      rw [List.drop_append_eq_append_drop,
        List.drop_eq_nil_of_le (by omega), List.nil_append, hieq,
        show s₀.length + 1 - s₀.length = 1 from by omega] at hpre
      have hpre2 : gniMarker <+: '\n' :: (gniMarker ++ R) := hpre
      rw [show gniMarker = '#' :: gniMarker.tail from by decide] at hpre2
      have hh := (List.cons_prefix_cons.mp hpre2).1
      exact absurd hh (by decide)
  · rw [stripPrefix?_self_append]
    rfl

theorem remove_block_rebuild (s₀ : Str) (cs x86cs x86as a64cs a64gs : List Str)
    (hgood : ∀ s, s ∈ cs ∨ s ∈ x86cs ∨ s ∈ x86as ∨ s ∈ a64cs ∨ s ∈ a64gs → SrcGood s)
    (hne : cs ≠ [] ∨ x86cs ≠ [] ∨ x86as ≠ [] ∨ a64cs ≠ [] ∨ a64gs ≠ [])
    (hm : ∀ i, (stripPrefix? gniMarker (s₀.drop i)).isSome = false)
    (hfix : rstripChars lf s₀ = s₀)
    (hcr : '\r' ∉ s₀) :
    remove_managed_block
        (s₀ ++ '\n' :: '\n'
          :: build_managed_gni_block cs x86cs x86as a64cs a64gs lf)
      = s₀ ++ ['\n'] := by
  obtain ⟨inner, hblock, hbal, hicr⟩ :=
    block_shape cs x86cs x86as a64cs a64gs hgood hne
  set t1 : Str := s₀ ++ '\n' :: '\n'
      :: build_managed_gni_block cs x86cs x86as a64cs a64gs lf with ht1
  set P : Str := gniMarker ++ '\n' :: brandingIfLine.dropLast with hPdef
  have ht1' : t1 = (s₀ ++ ['\n', '\n'])
      ++ (P ++ '\x7b' :: (inner ++ '\x7d' :: ['\n'])) := by
    rw [ht1, hblock]
    simp [List.append_assoc]
  have hcrt1 : '\r' ∉ t1 := by
    rw [ht1']
    intro hmem
    rcases List.mem_append.mp hmem with h | h
    · rcases List.mem_append.mp h with h | h
      · exact hcr h
      · simp at h
    · rcases List.mem_append.mp h with h | h
      · revert h
        rw [hPdef]
        decide
      · rcases List.mem_cons.mp h with h | h
        · exact absurd h (by decide)
        · rcases List.mem_append.mp h with h | h
          · exact hicr '\r' h rfl
          · rcases List.mem_cons.mp h with h | h
            · exact absurd h (by decide)
            · simp at h
  have hmarker : findSub t1 gniMarker = some (s₀.length + 2) := by
    have ht1m : t1 = (s₀ ++ ['\n', '\n'])
        ++ (gniMarker ++ ('\n' :: (brandingIfLine.dropLast
            ++ '\x7b' :: (inner ++ '\x7d' :: ['\n'])))) := by
      rw [ht1', hPdef]
      simp [List.append_assoc]
    rw [ht1m]
    exact findSub_marker_pos s₀ _ hm
  have htake : t1.take (s₀.length + 2) = s₀ ++ ['\n', '\n'] := by
    rw [ht1', List.take_left' (by simp)]
  have hrf : rfindSub (s₀ ++ (['\n', '\n'] : Str)) lf = some (s₀.length + 1) := by
    rw [show (s₀ ++ (['\n', '\n'] : Str)) = (s₀ ++ ['\n']) ++ ['\n'] from by
      simp [List.append_assoc], rfindSub_last_nl]
    simp
  have hdrop2 : t1.drop (s₀.length + 2)
      = P ++ '\x7b' :: (inner ++ '\x7d' :: ['\n']) := by
    rw [ht1', List.drop_left' (by simp)]
  have hyes : (stripPrefix? ['\x7b']
      ('\x7b' :: (inner ++ '\x7d' :: ['\n']))).isSome = true := by
    simp [stripPrefix?]
  have hno : ∀ i, i < P.length →
      (stripPrefix? ['\x7b']
        ((P ++ '\x7b' :: (inner ++ '\x7d' :: ['\n'])).drop i)).isSome = false := by
    intro i hi
    rw [List.drop_append_eq_append_drop, show i - P.length = 0 from by omega,
      List.drop_zero]
    cases hPd : P.drop i with
    | nil =>
      have hlen := congrArg List.length hPd
      rw [List.length_drop] at hlen
      simp at hlen
      omega
    | cons c q =>
      rw [List.cons_append]
      have hcb : ¬ '\x7b' = c := by
        intro hcb
        have hcP : c ∈ P := List.drop_subset i P
          (by rw [hPd]; exact List.mem_cons_self c q)
        rw [← hcb] at hcP
        revert hcP
        rw [hPdef]
        decide
      simp only [stripPrefix?, if_neg hcb]
      rfl
  have hbrace : findSubFrom t1 ['\x7b'] (s₀.length + 2)
      = some (P.length + (s₀.length + 2)) := by
    unfold findSubFrom
    rw [hdrop2, findSub_append ['\x7b'] P _ hno hyes]
    rfl
  have hdropbp : t1.drop (P.length + (s₀.length + 2))
      = '\x7b' :: (inner ++ '\x7d' :: ['\n']) := by
    rw [ht1', ← List.append_assoc, List.drop_left' (by
      simp only [List.length_append, List.length_cons, List.length_nil]
      omega)]
  have hfbe : find_block_end t1 (P.length + (s₀.length + 2))
      = some (P.length + (s₀.length + 2) + 1 + inner.length + 1) := by
    unfold find_block_end
    rw [hdropbp]
    rw [show fbeAux ('\x7b' :: (inner ++ '\x7d' :: ['\n'])) 0
          (P.length + (s₀.length + 2))
        = fbeAux (inner ++ '\x7d' :: ['\n']) (0 + 1)
          (P.length + (s₀.length + 2) + 1) from by
      conv_lhs => unfold fbeAux
      rw [if_pos rfl]]
    rw [fbeAux_append_nonneg inner ('\x7d' :: ['\n']) (0 + 1) _
      (fun p hp => by have h2 := hbal.2 p hp; omega)]
    rw [hbal.1]
    conv_lhs => unfold fbeAux
    rw [if_neg (by decide), if_pos rfl, if_pos (by norm_num)]
  have hdropend : t1.drop (P.length + (s₀.length + 2) + 1 + inner.length + 1)
      = ['\n'] := by
    rw [ht1']
    rw [show ((s₀ ++ (['\n', '\n'] : Str))
          ++ (P ++ '\x7b' :: (inner ++ '\x7d' :: ['\n'])))
        = (((s₀ ++ (['\n', '\n'] : Str)) ++ P ++ ['\x7b'] ++ inner ++ ['\x7d'])
          ++ ['\n']) from by
      simp [List.append_assoc]]
    rw [List.drop_left' (by
      simp only [List.length_append, List.length_cons, List.length_nil]
      omega)]
  unfold remove_managed_block
  rw [hmarker]
  dsimp only
  rw [detect_newline_no_cr t1 hcrt1, htake, hrf]
  dsimp only
  rw [show s₀.length + 1 + lf.length = s₀.length + 2 from rfl, htake, hbrace]
  dsimp only
  rw [hfbe]
  dsimp only
  rw [rstrip_append_strip s₀ (['\n', '\n']) (by decide), hfix, hdropend]
  rw [show lstripChars lf ['\n'] = ([] : Str) from by decide]
  simp [lf]

theorem gniScanAux_nl :
    ∀ (L : Str), (∀ c ∈ L, c = '\n') → ∀ st, gniScanAux L st = [] := by
  intro L
  induction L with
  | nil => intro _ st; cases st <;> rfl
  | cons c L' ih =>
    intro hL st
    have hc : c = '\n' := hL c (List.mem_cons_self _ _)
    subst hc
    have hL' : ∀ d ∈ L', d = '\n' := fun d hd => hL d (List.mem_cons_of_mem _ hd)
    cases st with
    | none =>
      show gniScanAux ('\n' :: L') none = []
      unfold gniScanAux
      rw [if_neg (by decide)]
      exact ih hL' none
    | some acc =>
      show gniScanAux ('\n' :: L') (some acc) = []
      unfold gniScanAux
      rw [if_neg (by decide)]
      exact ih hL' (some ('\n' :: acc))

theorem gniScanAux_append_nl (L : Str) (hL : ∀ c ∈ L, c = '\n') :
    ∀ (a : Str) (st : Option Str), gniScanAux (a ++ L) st = gniScanAux a st := by
  intro a
  induction a with
  | nil =>
    intro st
    rw [List.nil_append, gniScanAux_nl L hL st]
    cases st <;> rfl
  | cons c a' ih =>
    intro st
    cases st with
    | none =>
      show gniScanAux (c :: (a' ++ L)) none = gniScanAux (c :: a') none
      unfold gniScanAux
      by_cases hc : c = '"'
      · rw [if_pos hc, if_pos hc]
        exact ih _
      · rw [if_neg hc, if_neg hc]
        exact ih _
    | some acc =>
      show gniScanAux (c :: (a' ++ L)) (some acc) = gniScanAux (c :: a') (some acc)
      unfold gniScanAux
      dsimp only
      by_cases hc : c = '"'
      · rw [if_pos hc, if_pos hc]
        by_cases hb : 3 ≤ acc.reverse.length ∧ (".c").data.isSuffixOf acc.reverse = true
        · rw [if_pos hb, if_pos hb, ih none]
        · rw [if_neg hb, if_neg hb]
          exact ih _
      · rw [if_neg hc, if_neg hc]
        exact ih _

theorem get_gni_basenames_nl (s₀ L : Str) (hL : ∀ c ∈ L, c = '\n') :
    get_gni_c_basenames (s₀ ++ L) = get_gni_c_basenames s₀ := by
  unfold get_gni_c_basenames gniScan
  rw [gniScanAux_append_nl L hL s₀ none]

theorem filter_not_in_gni_nl (xs : List Str) (s₀ L : Str)
    (hL : ∀ c ∈ L, c = '\n') (hxs : ∀ s ∈ xs, '\n' ∉ s) :
    filter_not_in_gni xs (s₀ ++ L) = filter_not_in_gni xs s₀ := by
  unfold filter_not_in_gni
  apply List.filter_congr
  intro s hs
  have hp : '\n' ∉ ('"' :: s ++ ['"'] : Str) := by
    intro hmem
    rcases List.mem_cons.mp hmem with h | h
    · exact absurd h (by decide)
    · rcases List.mem_append.mp h with h | h
      · exact hxs s hs h
      · simp at h
  rw [containsSub_append_nl ('"' :: s ++ ['"']) hp (by simp) s₀ L hL]

theorem forall2_mem_right {R : Str → Str → Prop} :
    ∀ {as bs : List Str}, List.Forall₂ R as bs → ∀ b ∈ bs, ∃ a ∈ as, R a b := by
  intro as bs h
  induction h with
  | nil => intro b hb; exact absurd hb (List.not_mem_nil b)
  | cons hR hrest ih =>
    intro b hb
    rcases List.mem_cons.mp hb with rfl | hb'
    · exact ⟨_, List.mem_cons_self _ _, hR⟩
    · rcases ih b hb' with ⟨a, ha, hab⟩
      exact ⟨a, List.mem_cons_of_mem _ ha, hab⟩

theorem filter_available_mem (src : List Str) (fs : FS) :
    ∀ s ∈ (filter_available src fs).1, s ∈ src := by
  induction src with
  | nil => intro s hs; exact absurd hs (List.not_mem_nil s)
  | cons x rest ih =>
    intro s hs
    unfold filter_available at hs
    dsimp only at hs
    by_cases hf : fs.isFile (pathJoin ffmpegRoot x) = true
    · rw [if_pos hf] at hs
      rcases List.mem_cons.mp hs with rfl | hs'
      · exact List.mem_cons_self _ _
      · exact List.mem_cons_of_mem _ (ih s hs')
    · rw [if_neg hf] at hs
      exact List.mem_cons_of_mem _ (ih s hs)

theorem extra_c_good :
    ∀ s ∈ EXTRA_C_SOURCES, SrcGood s ∧ SrcGood (wrapperPathOf s) := by decide

theorem extra_x86c_good :
    ∀ s ∈ EXTRA_X86_C_SOURCES, SrcGood s ∧ SrcGood (wrapperPathOf s) := by decide

theorem extra_x86asm_good : ∀ s ∈ EXTRA_X86_ASM_SOURCES, SrcGood s := by decide

theorem extra_a64c_good :
    ∀ s ∈ EXTRA_AARCH64_C_SOURCES, SrcGood s ∧ SrcGood (wrapperPathOf s) := by decide

theorem extra_a64gas_good : ∀ s ∈ EXTRA_AARCH64_GAS_SOURCES, SrcGood s := by decide

theorem resolve_good (src pool : List Str)
    (h : ∀ s ∈ src, SrcGood s ∧ SrcGood (wrapperPathOf s)) :
    ∀ r ∈ (resolve_basename_collisions src pool).1, SrcGood r := by
  intro r hr
  rcases forall2_mem_right ((resolver_structure src pool).1) r hr
    with ⟨s, hs, hcase⟩
  rcases hcase with h1 | h1
  · subst h1
    exact (h _ hs).1
  · subst h1
    exact (h _ hs).2

theorem filter_not_in_gni_mem (xs : List Str) (g : Str) :
    ∀ s ∈ filter_not_in_gni xs g, s ∈ xs :=
  fun _ hs => List.mem_of_mem_filter hs

theorem patchGni_canonical (text : Str) (check : Bool) (fs : FS) (s₀ L : Str)
    (hclean : remove_managed_block text = s₀ ++ L)
    (hL : ∀ c ∈ L, c = '\n')
    (hcr : '\r' ∉ s₀) :
    patch_ffmpeg_generated_gni text check fs
      = (if gniTOT s₀ fs = 0 then ((text, 0, gniW fs), gniFS s₀ check fs)
         else
           (((if (lf ++ lf).isSuffixOf (s₀ ++ L) then (s₀ ++ L) ++ gniBLK s₀ fs
              else if lf.isSuffixOf (s₀ ++ L) then
                (s₀ ++ L) ++ lf ++ gniBLK s₀ fs
              else (s₀ ++ L) ++ lf ++ lf ++ gniBLK s₀ fs),
             gniTOT s₀ fs, gniW fs), gniFS s₀ check fs)) := by
  have hnl1 : ∀ s ∈ (filter_available EXTRA_C_SOURCES fs).1, '\n' ∉ s := by
    intro s hs hmem
    exact ((extra_c_good s (filter_available_mem _ fs s hs)).1 '\n' hmem).1 rfl
  have hnl2 : ∀ s ∈ (filter_available EXTRA_X86_C_SOURCES fs).1, '\n' ∉ s := by
    intro s hs hmem
    exact ((extra_x86c_good s (filter_available_mem _ fs s hs)).1 '\n' hmem).1 rfl
  have hnl3 : ∀ s ∈ (filter_available EXTRA_X86_ASM_SOURCES fs).1, '\n' ∉ s := by
    intro s hs hmem
    exact ((extra_x86asm_good s (filter_available_mem _ fs s hs)) '\n' hmem).1 rfl
  have hnl4 : ∀ s ∈ (filter_available EXTRA_AARCH64_C_SOURCES fs).1, '\n' ∉ s := by
    intro s hs hmem
    exact ((extra_a64c_good s (filter_available_mem _ fs s hs)).1 '\n' hmem).1 rfl
  have hnl5 : ∀ s ∈ (filter_available EXTRA_AARCH64_GAS_SOURCES fs).1, '\n' ∉ s := by
    intro s hs hmem
    exact ((extra_a64gas_good s (filter_available_mem _ fs s hs)) '\n' hmem).1 rfl
  have hcrL : '\r' ∉ (s₀ ++ L : Str) := by
    intro hmem
    rcases List.mem_append.mp hmem with h | h
    · exact hcr h
    · have := hL '\r' h
      exact absurd this (by decide)
  simp only [patch_ffmpeg_generated_gni, hclean, gniTOT, gniW, gniFS, gniBLK,
    gniR3, gniR2, gniR1, gniL1, gniL2, gniL3, gniL4, gniL5]
  rw [filter_not_in_gni_nl _ s₀ L hL hnl1, filter_not_in_gni_nl _ s₀ L hL hnl2,
    filter_not_in_gni_nl _ s₀ L hL hnl3, filter_not_in_gni_nl _ s₀ L hL hnl4,
    filter_not_in_gni_nl _ s₀ L hL hnl5, get_gni_basenames_nl s₀ L hL,
    detect_newline_no_cr _ hcrL]

theorem gni_lists_good (s₀ : Str) (fs : FS) :
    ∀ s, s ∈ (gniR1 s₀ fs).1 ∨ s ∈ (gniR2 s₀ fs).1 ∨ s ∈ gniL3 s₀ fs
      ∨ s ∈ (gniR3 s₀ fs).1 ∨ s ∈ gniL5 s₀ fs → SrcGood s := by
  intro s hs
  rcases hs with h | h | h | h | h
  · exact resolve_good _ _ (fun x hx => extra_c_good x
      (filter_available_mem _ fs x (filter_not_in_gni_mem _ _ x hx))) s h
  · exact resolve_good _ _ (fun x hx => extra_x86c_good x
      (filter_available_mem _ fs x (filter_not_in_gni_mem _ _ x hx))) s h
  · exact extra_x86asm_good s
      (filter_available_mem _ fs s (filter_not_in_gni_mem _ _ s h))
  · exact resolve_good _ _ (fun x hx => extra_a64c_good x
      (filter_available_mem _ fs x (filter_not_in_gni_mem _ _ x hx))) s h
  · exact extra_a64gas_good s
      (filter_available_mem _ fs s (filter_not_in_gni_mem _ _ s h))

theorem gni_second_run (t : Str) (check : Bool) (fs : FS) (s₀ : Str)
    (hm : ∀ i, (stripPrefix? gniMarker (s₀.drop i)).isSome = false)
    (hfix : rstripChars lf s₀ = s₀)
    (hcr : '\r' ∉ s₀)
    (hT : ¬ gniTOT s₀ fs = 0)
    (e1 : patch_ffmpeg_generated_gni t check fs
      = ((s₀ ++ '\n' :: '\n' :: gniBLK s₀ fs, gniTOT s₀ fs, gniW fs),
         gniFS s₀ check fs)) :
    (patch_ffmpeg_generated_gni
        (patch_ffmpeg_generated_gni t check fs).1.1 check fs).1.1
      = (patch_ffmpeg_generated_gni t check fs).1.1 ∧
    (patch_ffmpeg_generated_gni
        (patch_ffmpeg_generated_gni t check fs).1.1 check fs).1.2.1
      = (patch_ffmpeg_generated_gni t check fs).1.2.1 := by
  have hTne : (gniR1 s₀ fs).1 ≠ [] ∨ (gniR2 s₀ fs).1 ≠ [] ∨ gniL3 s₀ fs ≠ []
      ∨ (gniR3 s₀ fs).1 ≠ [] ∨ gniL5 s₀ fs ≠ [] := by
    by_contra hall
    push_neg at hall
    obtain ⟨h1, h2, h3, h4, h5⟩ := hall
    apply hT
    unfold gniTOT
    rw [h1, h2, h3, h4, h5]
    rfl
  have hclean2 : remove_managed_block (s₀ ++ '\n' :: '\n' :: gniBLK s₀ fs)
      = s₀ ++ ['\n'] :=
    remove_block_rebuild s₀ (gniR1 s₀ fs).1 (gniR2 s₀ fs).1 (gniL3 s₀ fs)
      (gniR3 s₀ fs).1 (gniL5 s₀ fs) (gni_lists_good s₀ fs) hTne hm hfix hcr
  have hlast : ∀ c, s₀.getLast? = some c → c ≠ '\n' := by
    have hh := rstrip_no_trailing s₀
    rw [hfix] at hh
    exact hh
  have e2 := patchGni_canonical (s₀ ++ '\n' :: '\n' :: gniBLK s₀ fs) check fs
    s₀ ['\n'] hclean2 (by decide) hcr
  rw [if_neg hT] at e2
  have hs1 : ((lf ++ lf).isSuffixOf (s₀ ++ ['\n'])) = false := by
    apply Bool.eq_false_iff.mpr
    intro hX
    exact not_nlnl_suffix s₀ hlast ((List.isSuffixOf_iff_suffix).mp hX)
  have hs2 : (lf.isSuffixOf (s₀ ++ ['\n'])) = true := by
    rw [List.isSuffixOf_iff_suffix]
    exact List.suffix_append _ _
  rw [if_neg (by simp [hs1]), if_pos hs2] at e2
  rw [show (s₀ ++ ['\n']) ++ lf ++ gniBLK s₀ fs
      = s₀ ++ '\n' :: '\n' :: gniBLK s₀ fs from by
    simp [lf, List.append_assoc]] at e2
  rw [e1]
  dsimp only
  rw [e2]
  exact ⟨rfl, rfl⟩

end GniRebuildLemmas

/-- Claim C1 (amended): config-flag toggling and list-entry insertion
are idempotent: the second application returns the first output
unchanged and reports zero replacements/additions.  The managed-GNI-
block rebuild is text-idempotent on inputs without a stale marker,
carriage returns, or a trailing run of three or more newlines — the
second application (same catalog, same filesystem) reconstructs the
same text byte for byte — but its reported added count on the second
run equals the first run's count (the block is removed and rebuilt from
the same sources), not zero. -/
theorem claim1_amended :
    (∀ text : Str,
      patch_config_components (patch_config_components text).1
        = ((patch_config_components text).1, 0)) ∧
    (∀ (text : Str) (entries : List Str),
      (∀ e ∈ entries, hasEntryLine text e = false → GoodEntry e) →
      ∀ t' n, patch_list_file text entries = some (t', n) →
        patch_list_file t' entries = some (t', 0)) ∧
    (∀ (t : Str) (check : Bool) (fs : FS),
      findSub t gniMarker = none → '\r' ∉ t →
      ¬ (['\n', '\n', '\n'] : Str) <:+ t →
      (patch_ffmpeg_generated_gni
          (patch_ffmpeg_generated_gni t check fs).1.1 check fs).1.1
        = (patch_ffmpeg_generated_gni t check fs).1.1 ∧
      (patch_ffmpeg_generated_gni
          (patch_ffmpeg_generated_gni t check fs).1.1 check fs).1.2.1
        = (patch_ffmpeg_generated_gni t check fs).1.2.1) := by
  refine ⟨patch_config_components_idem, patch_list_file_idem, ?_⟩
  intro t check fs hm0 hcr0 h3
  obtain ⟨L, hL, hdecomp0⟩ := rstrip_decomp t
  have hfix : rstripChars lf (rstripChars lf t) = rstripChars lf t :=
    rstrip_idem t
  have hlast : ∀ c, (rstripChars lf t).getLast? = some c → c ≠ '\n' :=
    rstrip_no_trailing t
  have hcrs : '\r' ∉ rstripChars lf t := fun h =>
    hcr0 (hdecomp0.symm ▸ List.mem_append_left L h)
  have hmS : ∀ i,
      (stripPrefix? gniMarker ((rstripChars lf t).drop i)).isSome = false := by
    intro i
    by_cases hi : i ≤ (rstripChars lf t).length
    · apply Bool.eq_false_iff.mpr
      intro hsome
      have hpre := (stripPrefix?_isSome_iff _ _).mp hsome
      have hto : gniMarker <+: t.drop i := by
        rw [hdecomp0, List.drop_append_eq_append_drop,
          show i - (rstripChars lf t).length = 0 from by omega, List.drop_zero]
        exact hpre.trans (List.prefix_append _ _)
      have h4 := (stripPrefix?_isSome_iff _ _).mpr hto
      rw [findSub_none_no_occ t gniMarker hm0 i] at h4
      exact absurd h4 (by simp)
    · rw [List.drop_eq_nil_of_le (by omega)]
      decide
  have hlen2 : L.length ≤ 2 := nl_run_le_two t L hL hdecomp0 h3
  have hclean1 : remove_managed_block t = rstripChars lf t ++ L := by
    unfold remove_managed_block
    rw [hm0]
    exact hdecomp0
  have e1 := patchGni_canonical t check fs (rstripChars lf t) L hclean1 hL hcrs
  by_cases hT : gniTOT (rstripChars lf t) fs = 0
  · rw [if_pos hT] at e1
    rw [e1]
    dsimp only
    rw [e1]
    dsimp only
    exact ⟨rfl, rfl⟩
  · rw [if_neg hT] at e1
    rcases nl_run_cases L hL hlen2 with rfl | rfl | rfl
    · rw [List.append_nil] at e1
      rw [if_neg (by
          rw [List.isSuffixOf_iff_suffix]
          exact not_nlnl_suffix_bare _ hlast),
        if_neg (by
          rw [List.isSuffixOf_iff_suffix]
          exact not_nl_suffix _ hlast)] at e1
      rw [show rstripChars lf t ++ lf ++ lf ++ gniBLK (rstripChars lf t) fs
          = rstripChars lf t ++ '\n' :: '\n' :: gniBLK (rstripChars lf t) fs
        from by simp [lf, List.append_assoc]] at e1
      exact gni_second_run t check fs (rstripChars lf t) hmS hfix hcrs hT e1
    · rw [if_neg (by
          rw [List.isSuffixOf_iff_suffix]
          exact not_nlnl_suffix _ hlast),
        if_pos (by
          rw [List.isSuffixOf_iff_suffix]
          exact List.suffix_append _ _)] at e1
      rw [show (rstripChars lf t ++ ['\n']) ++ lf ++ gniBLK (rstripChars lf t) fs
          = rstripChars lf t ++ '\n' :: '\n' :: gniBLK (rstripChars lf t) fs
        from by simp [lf, List.append_assoc]] at e1
      exact gni_second_run t check fs (rstripChars lf t) hmS hfix hcrs hT e1
    · rw [if_pos (by
        rw [List.isSuffixOf_iff_suffix]
        exact List.suffix_append _ _)] at e1
      rw [show (rstripChars lf t ++ ['\n', '\n']) ++ gniBLK (rstripChars lf t) fs
          = rstripChars lf t ++ '\n' :: '\n' :: gniBLK (rstripChars lf t) fs
        from by simp [List.append_assoc]] at e1
      exact gni_second_run t check fs (rstripChars lf t) hmS hfix hcrs hT e1

/-- Witness for the amended C1 theorem at concrete inputs: the flag
toggler and list mutator rerun to a fixed point, and the GNI rebuild is
byte-idempotent on the marker-free, CR-free text `"x\n"`. -/
theorem claim1_witness :
    (patch_config_components (patch_config_components c1text).1
      = ((patch_config_components c1text).1, 0)) ∧
    (patch_list_file (("&ff_x,\n").data) [("&ff_x").data]
      = some ((("&ff_x,\n").data), 0)) ∧
    ((patch_ffmpeg_generated_gni
        (patch_ffmpeg_generated_gni (("x\n").data) false c1fs).1.1
        false c1fs).1.1
      = (patch_ffmpeg_generated_gni (("x\n").data) false c1fs).1.1 ∧
     (patch_ffmpeg_generated_gni
        (patch_ffmpeg_generated_gni (("x\n").data) false c1fs).1.1
        false c1fs).1.2.1
      = (patch_ffmpeg_generated_gni (("x\n").data) false c1fs).1.2.1) := by
  refine ⟨claim1_amended.1 c1text, ?_, ?_⟩
  · exact claim1_amended.2.1 (("&ff_x,\n").data) [("&ff_x").data] (by decide)
      (("&ff_x,\n").data) 0 (by decide)
  · exact claim1_amended.2.2 (("x\n").data) false c1fs (by decide) (by decide)
      (by decide)

/-- Claim C9, counterexample: a text whose managed-block marker is
followed by an opening brace whose depth never returns to zero.  The
locator reports `NOT_FOUND` (`none`), yet `remove_managed_block`
proceeds as a silent no-op, returning the text unchanged instead of
treating the result as a structural error. -/
theorem claim9_counterexample :
    findSub c9text gniMarker = some 0 ∧
    findSubFrom c9text ['\x7b'] 0 = some 77 ∧
    find_block_end c9text 77 = none ∧
    remove_managed_block c9text = c9text := by
  decide

/-- Claim C9 (amended): `find_block_end` returns `NOT_FOUND` (`none`)
exactly when the brace depth never returns to zero before the end of the
text; but its caller `remove_managed_block` treats that `NOT_FOUND` as a
silent no-op — when the marker and an opening brace are present and the
block is unterminated, it returns the text unchanged rather than raising
a structural error. -/
theorem claim9_amended :
    (∀ (text : Str) (i : Nat),
      find_block_end text i = none ↔
        ∀ p suffix, text.drop i = p ++ '\x7d' :: suffix → braceDelta p ≠ 1) ∧
    (∀ (text : Str) (marker_pos brace_pos : Nat),
      findSub text gniMarker = some marker_pos →
      findSubFrom text ['\x7b'] marker_pos = some brace_pos →
      find_block_end text brace_pos = none →
      remove_managed_block text = text) := by
  constructor
  · intro text i
    simpa using fbeAux_none_iff (text.drop i) 0 i
  · exact remove_unterminated

/-- Witness for the amended claim C9 at a concrete unterminated text. -/
theorem claim9_witness : remove_managed_block c9text = c9text :=
  claim9_amended.2 c9text 0 77 (by decide) (by decide) (by decide)

/-- Claim C3, counterexample: on a text that still carries a stale
managed block, with a filesystem on which every catalog source is
missing (so every per-category list ends up empty), the rebuild reports
`added_count = 0` but returns the ORIGINAL text — the stale block is not
removed, contradicting the claim that the cleaned text is returned. -/
theorem claim3_counterexample :
    (patch_ffmpeg_generated_gni c3text false emptyFS).1.2.1 = 0 ∧
    (patch_ffmpeg_generated_gni c3text false emptyFS).1.1 = c3text ∧
    remove_managed_block c3text ≠ c3text := by
  decide

/-- Claim C3 (amended): when, after filtering and deduplication, every
per-category source list is empty, `patch_ffmpeg_generated_gni` returns
the ORIGINAL input text (not the cleaned text) unchanged with an added
count of 0, and the filesystem untouched; a stale managed block is NOT
removed from the returned text in this case. -/
theorem claim3_amended :
    ∀ (text : Str) (check : Bool) (fs : FS),
      (patch_ffmpeg_generated_gni text check fs).1.2.1 = 0 →
      (patch_ffmpeg_generated_gni text check fs).1.1 = text ∧
      (patch_ffmpeg_generated_gni text check fs).2 = fs := by
  intro text check fs h
  simp only [patch_ffmpeg_generated_gni] at h ⊢
  set cleaned := remove_managed_block text with hcl
  set c0 := filter_not_in_gni (filter_available EXTRA_C_SOURCES fs).1 cleaned with hc0
  set x86c0 := filter_not_in_gni (filter_available EXTRA_X86_C_SOURCES fs).1 cleaned
    with hx0
  set x86asm1 := filter_not_in_gni (filter_available EXTRA_X86_ASM_SOURCES fs).1 cleaned
    with ha0
  set a64c0 := filter_not_in_gni (filter_available EXTRA_AARCH64_C_SOURCES fs).1 cleaned
    with hb0
  set a64gas1 := filter_not_in_gni (filter_available EXTRA_AARCH64_GAS_SOURCES fs).1
    cleaned with hg0
  set r1 := resolve_basename_collisions c0 (get_gni_c_basenames cleaned) with hr1
  set r2 := resolve_basename_collisions x86c0 r1.2.2 with hr2
  set r3 := resolve_basename_collisions a64c0 r2.2.2 with hr3
  by_cases htot :
      r1.1.length + r2.1.length + x86asm1.length + r3.1.length + a64gas1.length = 0
  · rw [if_pos htot] at h ⊢
    refine ⟨rfl, ?_⟩
    have hc0nil : c0 = [] := by
      have := resolve_length c0 (get_gni_c_basenames cleaned)
      rw [← hr1] at this
      have : c0.length = 0 := by omega
      exact List.length_eq_zero.mp this
    have hx0nil : x86c0 = [] := by
      have := resolve_length x86c0 r1.2.2
      rw [← hr2] at this
      have : x86c0.length = 0 := by omega
      exact List.length_eq_zero.mp this
    have ha64nil : a64c0 = [] := by
      have := resolve_length a64c0 r2.2.2
      rw [← hr3] at this
      have : a64c0.length = 0 := by omega
      exact List.length_eq_zero.mp this
    have w1 : r1.2.1 = [] := by rw [hr1, hc0nil]; rfl
    have w2 : r2.2.1 = [] := by rw [hr2, hx0nil]; rfl
    have w3 : r3.2.1 = [] := by rw [hr3, ha64nil]; rfl
    rw [w1, w2, w3]
    rfl
  · rw [if_neg htot] at h
    exact absurd h htot

/-- Witness for the amended claim C3: a marker-free text and an empty
filesystem, on which nothing is available to add. -/
theorem claim3_witness :
    (patch_ffmpeg_generated_gni (("x\n").data) true emptyFS).1.1 = ("x\n").data ∧
    (patch_ffmpeg_generated_gni (("x\n").data) true emptyFS).2 = emptyFS :=
  claim3_amended (("x\n").data) true emptyFS (by decide)

/-- Claim C6 (amended): the claimed-basename pool is seeded by the caller
from existing destination content and grows monotonically — every name of
the incoming pool is still in the final pool, and the final pool is
exactly the seed together with the base names of all accepted sources
(each added before the next candidate is checked).  However, no check is
made that a synthesized wrapper base name is itself unclaimed, so two
accepted sources can share a base name. -/
theorem claim6_amended :
    ∀ (sources pool : List Str),
      (∀ b ∈ pool, b ∈ (resolve_basename_collisions sources pool).2.2) ∧
      (∀ b, b ∈ (resolve_basename_collisions sources pool).2.2 ↔
        (b ∈ pool ∨ b ∈ ((resolve_basename_collisions sources pool).1).map pathName)) := by
  intro sources pool
  refine ⟨?_, (resolver_structure sources pool).2⟩
  intro b hb
  exact ((resolver_structure sources pool).2 b).mpr (Or.inl hb)

end PatchSpec
